import Mathlib

/-!
# Custom-property resolution (`components/style/custom_properties.rs`)

A shallow embedding of servo's custom-property (CSS variable) resolver:

* the value scanner `parse` / `parse_declaration_value` /
  `parse_declaration_value_block` / `parse_var_function`,
* the cascade merger `cascade`,
* the cycle detector `find_cycles`,
* the substitution evaluator `finish_cascade` / `substitute_one` /
  `substitute_block`.

The external tokenizer (the `cssparser` crate) delivers a stream of
classified tokens and parses bracketed constructs through nested
sub-parses, so a declaration value is embedded as a `List Tok` in which
each function call or bracket block carries its interior as a nested
list.  `Parser::position` / `Parser::slice_from` slicing of verbatim
source text is embedded by rendering tokens back to text (`toksText`):
the text between two positions is the rendering of the tokens consumed
between them.

The substitution evaluator's recursion terminates only because reference
cycles have been pre-marked invalid; the embedding makes every recursive
group total with an explicit fuel argument (structural in the fuel, so
terms evaluate inside the kernel), and the entry points supply fuel that
is large enough for the recursion the source performs.
-/

/-- Custom-property names (interned atoms in the source), stored without
the `--` prefix. -/
abbrev Name := String

/-- One classified token of the external tokenizer.  Function tokens and
bracket blocks carry their interior token list (the tokenizer parses the
interior through `parse_nested_block`).  An unmatched closing bracket
appears as a leaf `closeParen` / `closeSquare` / `closeCurly` token.
`ws` is whitespace (and comments); `other` is any further token,
rendered verbatim. -/
inductive Tok where
  | ident (s : String)
  | function (name : String) (args : List Tok)
  | paren (args : List Tok)
  | curly (args : List Tok)
  | square (args : List Tok)
  | comma
  | semicolon
  | delim (c : Char)
  | badUrl (s : String)
  | badString (s : String)
  | closeParen
  | closeSquare
  | closeCurly
  | ws (s : String)
  | other (s : String)

mutual

/-- Structural size of one token, used to compute sufficient scanner
fuel. -/
def tokSize : Tok → Nat
  | .function _ args => 1 + toksSize args
  | .paren args => 1 + toksSize args
  | .curly args => 1 + toksSize args
  | .square args => 1 + toksSize args
  | _ => 1

/-- Structural size of a token list. -/
def toksSize : List Tok → Nat
  | [] => 0
  | t :: rest => tokSize t + toksSize rest + 1

end

mutual

/-- Verbatim source text of one token (the tokenizer's `slice_from` on
the span of that token). -/
def tokText : Tok → String
  | .ident s => s
  | .function n args => n ++ "(" ++ toksText args ++ ")"
  | .paren args => "(" ++ toksText args ++ ")"
  | .curly args => "\x7b" ++ toksText args ++ "\x7d"
  | .square args => "[" ++ toksText args ++ "]"
  | .comma => ","
  | .semicolon => ";"
  | .delim c => String.singleton c
  | .badUrl s => s
  | .badString s => s
  | .closeParen => ")"
  | .closeSquare => "]"
  | .closeCurly => "\x7d"
  | .ws s => s
  | .other s => s

/-- Verbatim source text of a token list. -/
def toksText : List Tok → String
  | [] => ""
  | t :: rest => tokText t ++ toksText rest

end

/-- Whitespace test; `Parser::next` skips whitespace (and comments). -/
def Tok.isWs : Tok → Bool
  | .ws _ => true
  | _ => false

/-- `HashSet::insert`, embedded on lists: no duplicates, first-insertion
order. -/
def insertName (n : Name) (l : List Name) : List Name :=
  if n ∈ l then l else l ++ [n]

/-- `HashMap::get`, embedded on association lists. -/
def lookupAssoc {α : Type} (k : Name) : List (Name × α) → Option α
  | [] => none
  | (k', v) :: rest => if k' = k then some v else lookupAssoc k rest

/-- `HashMap::insert`: replaces the binding of `k` if present, else
appends. -/
def insertAssoc {α : Type} (k : Name) (v : α) : List (Name × α) → List (Name × α)
  | [] => [(k, v)]
  | (k', v') :: rest => if k' = k then (k, v) :: rest else (k', v') :: insertAssoc k v rest

/-- `HashMap::remove`: removes the binding of `k`. -/
def removeAssoc {α : Type} (k : Name) : List (Name × α) → List (Name × α)
  | [] => []
  | (k', v') :: rest => if k' = k then rest else (k', v') :: removeAssoc k rest

/-- `Vec::position_elem`: index of the first occurrence. -/
def positionElem (n : Name) : List Name → Option Nat
  | [] => none
  | x :: rest =>
    if x = n then some 0 else
    match positionElem n rest with
    | some p => some (p + 1)
    | none => none

/-- `name.starts_with("--")`, on the identifier's characters. -/
def hasDashDash (s : String) : Bool :=
  match s.data with
  | '-' :: '-' :: _ => true
  | _ => false

/-- `&name[2..]`: the identifier with the `--` prefix stripped. -/
def dropDashDash (s : String) : String :=
  ⟨s.data.drop 2⟩

/-! ## The value scanner

`parse` captures the raw text of one declaration value and collects the
set of custom-property names referenced through `var()` at any depth.
The four mutually recursive source functions are embedded as one fueled
dispatcher `scanGo`; each recursive call steps the fuel down, so the
function is structural in the fuel and computes in the kernel. -/

/-- Which scanner routine a `scanGo` step runs: `top` is
`parse_declaration_value` (with its `is_exhausted` check), `topLoop` its
token loop, `blockLoop` is `parse_declaration_value_block`, and `varFn`
is `parse_var_function` on the interior of a `var(…)` call. -/
inductive ScanCall where
  | top (ts : List Tok)
  | topLoop (ts : List Tok)
  | blockLoop (ts : List Tok)
  | varFn (ts : List Tok)

/-- The scanner.  `none` is a parse error; `some refs` returns the
accumulated reference set.  Follows the source case for case:

* `topLoop` fails on a malformed url/string token, an unmatched closing
  bracket, a bare `;`, and a bare `!` delimiter; `blockLoop` accepts the
  last two;
* a `var(…)` function token runs `varFn` on its interior, any other
  function or bracket block runs `blockLoop` on its interior;
* `varFn` expects an identifier starting with `--` (skipping
  whitespace), strips the prefix, and — if a comma follows — scans the
  fallback with `top` (`parse_declaration_value`); with no comma,
  `expect_comma` consumes one token and the enclosing
  `parse_nested_block` then requires the rest to be exhausted.  The
  reference is inserted after the fallback is scanned. -/
def scanGo : Nat → ScanCall → List Name → Option (List Name)
  | 0, _, _ => none
  | fuel + 1, call, refs =>
    match call with
    | .top ts =>
      if (ts.dropWhile Tok.isWs).isEmpty then none
      else scanGo fuel (.topLoop ts) refs
    | .topLoop [] => some refs
    | .topLoop (t :: rest) =>
      match t with
      | .badUrl _ => none
      | .badString _ => none
      | .closeParen => none
      | .closeSquare => none
      | .closeCurly => none
      | .semicolon => none
      | .delim c => if c = '!' then none else scanGo fuel (.topLoop rest) refs
      | .function n args =>
        if n = "var" then
          match scanGo fuel (.varFn args) refs with
          | some refs2 => scanGo fuel (.topLoop rest) refs2
          | none => none
        else
          match scanGo fuel (.blockLoop args) refs with
          | some refs2 => scanGo fuel (.topLoop rest) refs2
          | none => none
      | .paren args =>
        match scanGo fuel (.blockLoop args) refs with
        | some refs2 => scanGo fuel (.topLoop rest) refs2
        | none => none
      | .curly args =>
        match scanGo fuel (.blockLoop args) refs with
        | some refs2 => scanGo fuel (.topLoop rest) refs2
        | none => none
      | .square args =>
        match scanGo fuel (.blockLoop args) refs with
        | some refs2 => scanGo fuel (.topLoop rest) refs2
        | none => none
      | _ => scanGo fuel (.topLoop rest) refs
    | .blockLoop [] => some refs
    | .blockLoop (t :: rest) =>
      match t with
      | .badUrl _ => none
      | .badString _ => none
      | .closeParen => none
      | .closeSquare => none
      | .closeCurly => none
      | .function n args =>
        if n = "var" then
          match scanGo fuel (.varFn args) refs with
          | some refs2 => scanGo fuel (.blockLoop rest) refs2
          | none => none
        else
          match scanGo fuel (.blockLoop args) refs with
          | some refs2 => scanGo fuel (.blockLoop rest) refs2
          | none => none
      | .paren args =>
        match scanGo fuel (.blockLoop args) refs with
        | some refs2 => scanGo fuel (.blockLoop rest) refs2
        | none => none
      | .curly args =>
        match scanGo fuel (.blockLoop args) refs with
        | some refs2 => scanGo fuel (.blockLoop rest) refs2
        | none => none
      | .square args =>
        match scanGo fuel (.blockLoop args) refs with
        | some refs2 => scanGo fuel (.blockLoop rest) refs2
        | none => none
      | _ => scanGo fuel (.blockLoop rest) refs
    | .varFn ts =>
      match ts.dropWhile Tok.isWs with
      | .ident s :: rest =>
        if hasDashDash s then
          match rest.dropWhile Tok.isWs with
          | .comma :: rest2 =>
            (scanGo fuel (.top rest2) refs).map (insertName (dropDashDash s))
          | _ :: rest2 =>
            if (rest2.dropWhile Tok.isWs).isEmpty then
              some (insertName (dropDashDash s) refs)
            else none
          | [] => some (insertName (dropDashDash s) refs)
        else none
      | _ => none

/-- Fuel that covers any run of the scanner over `ts` (every recursive
call strictly shrinks `2 * sizeOf` of the working list, and the
`top`→`topLoop` step costs one more). -/
def scanFuel (ts : List Tok) : Nat := 2 * toksSize ts + 2

/-- `parse_declaration_value` entry point. -/
def parseDeclarationValue (ts : List Tok) (refs : List Name) : Option (List Name) :=
  scanGo (scanFuel ts) (.top ts) refs

/-- The scanner's output `Value { value, references }`. -/
structure Value where
  /-- The token stream of the raw text.  The source keeps only the text
  and re-tokenizes on substitution; the embedding keeps the tokens the
  external tokenizer would reproduce. -/
  toks : List Tok
  /-- In CSS syntax: the verbatim slice from the start position to the
  end of input. -/
  value : String
  /-- Custom-property names in `var()` functions, without `--`. -/
  references : List Name

/-- `parse`: scan one declaration value, capturing the verbatim text and
the references. -/
def parse (input : List Tok) : Option Value :=
  match parseDeclarationValue input [] with
  | some refs => some { toks := input, value := toksText input, references := refs }
  | none => none

/-! ## The cascade merger

`cascade` folds one `(name, declared value)` pair into the working map,
first-write-wins; the map is materialized from the inherited baseline on
the first custom-property declaration seen in the pass. -/

/-- `DeclaredValue` (from the `properties` module): an explicit value,
`initial`, or `inherit`. -/
inductive DeclaredValue where
  | value (v : Value)
  | initial
  | inherit

/-- `BorrowedValue`: a borrowed view of a value during one cascade pass.
`references = none` marks an entry carried over from the inherited
baseline (an already fully substituted string). -/
structure BorrowedValue where
  toks : List Tok
  references : Option (List Name)

/-- The text the view borrows (`BorrowedValue::value`). -/
def BorrowedValue.value (v : BorrowedValue) : String := toksText v.toks

/-- The working map of one cascade pass (`HashMap<&Atom, BorrowedValue>`,
embedded as an association list in insertion order). -/
abbrev WorkingMap := List (Name × BorrowedValue)

/-- An inherited baseline entry's view: a plain string with no residual
references. -/
def inheritedView (s : String) : BorrowedValue :=
  { toks := [Tok.other s], references := none }

/-- `cascade`: add one custom-property declaration to the working map,
unless another with the same name was already there.  Returns the
updated map and seen set. -/
def cascade (customProperties : Option WorkingMap)
    (inheritedCustomProperties : Option (List (Name × String)))
    (seen : List Name) (name : Name) (value : DeclaredValue) :
    Option WorkingMap × List Name :=
  if name ∈ seen then (customProperties, seen)
  else
    let seen' := name :: seen
    let map : WorkingMap :=
      match customProperties with
      | some map => map
      | none =>
        match inheritedCustomProperties with
        | some inherited => inherited.map (fun kv => (kv.1, inheritedView kv.2))
        | none => []
    match value with
    | .value v =>
      (some (insertAssoc name { toks := v.toks, references := some v.references } map), seen')
    | .initial => (some (removeAssoc name map), seen')
    | .inherit => (some map, seen')

/-- A whole pass of `cascade` calls, in priority order. -/
def cascadeAll (inherited : Option (List (Name × String)))
    (decls : List (Name × DeclaredValue)) : Option WorkingMap × List Name :=
  decls.foldl (fun acc d => cascade acc.1 inherited acc.2 d.1 d.2) (none, [])

/-! ## The cycle detector

`find_cycles` walks the reference graph depth-first; when it reaches a
name already on the current path stack it marks the whole stack segment
from that position invalid.  The two mutually recursive routines
(`walk` and its loop over one reference set) are one fueled dispatcher
`cycleGo` over an accumulator `(visited, invalid)`. -/

/-- Which cycle-detector routine a `cycleGo` step runs. -/
inductive CycleCall where
  | walk (name : Name) (stack : List Name)
  | walkRefs (refs : List Name) (stack : List Name)

/-- One run of the cycle detector's `walk`, follow the source case for
case: insert into `visited` (return if already there), push the name,
and for each reference either mark the stack segment from its position
(cycle found) or walk it recursively. -/
def cycleGo (m : WorkingMap) : Nat → CycleCall → List Name × List Name → List Name × List Name
  | 0, _, acc => acc
  | fuel + 1, call, acc =>
    match call with
    | .walk name stack =>
      if name ∈ acc.1 then acc
      else
        let acc1 := (name :: acc.1, acc.2)
        match lookupAssoc name m with
        | some value =>
          match value.references with
          | some refs => cycleGo m fuel (.walkRefs refs (stack ++ [name])) acc1
          | none => acc1
        | none => acc1
    | .walkRefs [] _ => acc
    | .walkRefs (next :: rest) stack =>
      match positionElem next stack with
      | some p =>
        cycleGo m fuel (.walkRefs rest stack)
          (acc.1, (stack.drop p).foldl (fun inv x => insertName x inv) acc.2)
      | none =>
        cycleGo m fuel (.walkRefs rest stack) (cycleGo m fuel (.walk next stack) acc)

/-- The reference list of an entry (empty for baseline views). -/
def refsList (v : BorrowedValue) : List Name := v.references.getD []

/-- Every name the detector can ever visit: the keys and all referenced
names, in traversal order. -/
def univList (m : WorkingMap) : List Name :=
  m.foldr (fun kv acc => kv.1 :: (refsList kv.2 ++ acc)) []

/-- Per-level fuel share for the detector. -/
def cycleK (m : WorkingMap) : Nat := (univList m).length + 3

/-- Fuel that covers a full cycle-detection pass. -/
def cyclesFuel (m : WorkingMap) : Nat := ((univList m).length + 1) * cycleK m

/-- `find_cycles`: run `walk` from every key, sharing `visited` and the
growing invalid set; the path stack is empty between roots. -/
def findCycles (m : WorkingMap) : List Name :=
  (m.foldl (fun acc kv => cycleGo m (cyclesFuel m) (.walk kv.1 []) acc) ([], [])).2

/-! ## The substitution evaluator

`substitute_one` resolves one name (memoized in `substituted_map`,
failures recorded in `invalid`); `substitute_block` re-walks a value's
token stream replacing each `var()` call; the `var()` argument handler
(the closure inside `substitute_block`) is split out as `varArgs`.  The
three are one fueled dispatcher `substGo`.  `panic` models the source's
`expect_ident().unwrap()` / `debug_assert!` aborting; `err` models
`Err(())`. -/

/-- The substitution evaluator's pass-local state. -/
structure SubstState where
  substitutedMap : List (Name × String)
  invalid : List Name

/-- Result of one substitution routine: the text produced, a recoverable
failure, or an abort of the unchecked `unwrap` / `debug_assert!`. -/
inductive SubstRes where
  | ok (s : String)
  | err
  | panic

/-- Which substitution routine a `substGo` step runs. -/
inductive SubstCall where
  | one (name : Name) (value : BorrowedValue)
  | block (ts : List Tok)
  | varArgs (ts : List Tok)

/-- The substitution evaluator, following the source case for case:

* `one`: return the memoized text if present; fail if the name is
  invalid; a value without references resolves to its raw text; else
  substitute its token stream, memoizing on success and marking the name
  invalid on failure;
* `block`: walk the tokens, emitting literal text verbatim, handling
  `var(…)` interiors with `varArgs` and recursing into other function
  calls and bracket blocks (delimiters preserved);
* `varArgs`: the identifier must be a `--` name (else the source's
  `unwrap` / `debug_assert!` aborts: `panic`).  If the name has a map
  entry, its resolution replaces the whole call and the rest (any
  fallback) is skipped unexamined; if not, a comma must follow and the
  fallback is substituted by the same rules in place of the call. -/
def substGo (cp : WorkingMap) : Nat → SubstCall → SubstState → SubstRes × SubstState
  | 0, _, st => (.err, st)
  | fuel + 1, call, st =>
    match call with
    | .one name value =>
      match lookupAssoc name st.substitutedMap with
      | some v => (.ok v, st)
      | none =>
        if name ∈ st.invalid then (.err, st)
        else
          match value.references with
          | some refs =>
            if refs.isEmpty then
              (.ok (toksText value.toks),
               { st with substitutedMap := insertAssoc name (toksText value.toks) st.substitutedMap })
            else
              match substGo cp fuel (.block value.toks) st with
              | (.ok s, st') =>
                (.ok s, { st' with substitutedMap := insertAssoc name s st'.substitutedMap })
              | (.err, st') => (.err, { st' with invalid := insertName name st'.invalid })
              | (.panic, st') => (.panic, st')
          | none =>
            (.ok (toksText value.toks),
             { st with substitutedMap := insertAssoc name (toksText value.toks) st.substitutedMap })
    | .block [] => (.ok "", st)
    | .block (t :: rest) =>
      match t with
      | .function n args =>
        if n = "var" then
          match substGo cp fuel (.varArgs args) st with
          | (.ok s, st') =>
            match substGo cp fuel (.block rest) st' with
            | (.ok s2, st2) => (.ok (s ++ s2), st2)
            | r => r
          | r => r
        else
          match substGo cp fuel (.block args) st with
          | (.ok s, st') =>
            match substGo cp fuel (.block rest) st' with
            | (.ok s2, st2) => (.ok (n ++ "(" ++ s ++ ")" ++ s2), st2)
            | r => r
          | r => r
      | .paren args =>
        match substGo cp fuel (.block args) st with
        | (.ok s, st') =>
          match substGo cp fuel (.block rest) st' with
          | (.ok s2, st2) => (.ok ("(" ++ s ++ ")" ++ s2), st2)
          | r => r
        | r => r
      | .curly args =>
        match substGo cp fuel (.block args) st with
        | (.ok s, st') =>
          match substGo cp fuel (.block rest) st' with
          | (.ok s2, st2) => (.ok ("\x7b" ++ s ++ "\x7d" ++ s2), st2)
          | r => r
        | r => r
      | .square args =>
        match substGo cp fuel (.block args) st with
        | (.ok s, st') =>
          match substGo cp fuel (.block rest) st' with
          | (.ok s2, st2) => (.ok ("[" ++ s ++ "]" ++ s2), st2)
          | r => r
        | r => r
      | _ =>
        match substGo cp fuel (.block rest) st with
        | (.ok s2, st2) => (.ok (tokText t ++ s2), st2)
        | r => r
    | .varArgs ts =>
      match ts.dropWhile Tok.isWs with
      | .ident s :: rest =>
        if hasDashDash s then
          let name := dropDashDash s
          match lookupAssoc name cp with
          | some value => substGo cp fuel (.one name value) st
          | none =>
            match rest.dropWhile Tok.isWs with
            | .comma :: rest2 => substGo cp fuel (.block rest2) st
            | _ => (.err, st)
        else (.panic, st)
      | _ => (.panic, st)

/-- `substitute_one`. -/
def substituteOne (fuel : Nat) (name : Name) (value : BorrowedValue)
    (cp : WorkingMap) (st : SubstState) : SubstRes × SubstState :=
  substGo cp fuel (.one name value) st

/-- `substitute_block`. -/
def substituteBlock (fuel : Nat) (cp : WorkingMap) (ts : List Tok)
    (st : SubstState) : SubstRes × SubstState :=
  substGo cp fuel (.block ts) st

/-- The `var()` argument handler inside `substitute_block` (the closure
passed to `parse_nested_block`). -/
def substituteVarArgs (fuel : Nat) (cp : WorkingMap) (ts : List Tok)
    (st : SubstState) : SubstRes × SubstState :=
  substGo cp fuel (.varArgs ts) st

/-- Total token size carried by a working map. -/
def cpSize (cp : WorkingMap) : Nat :=
  cp.foldl (fun acc kv => acc + toksSize kv.2.toks + 1) 0

/-- Fuel that covers a full substitution pass over `cp`. -/
def substFuel (cp : WorkingMap) : Nat := (cp.length + 2) * (cpSize cp + 4)

/-- The final evaluator state of one finishing pass: run the cycle
detector, then try to substitute every entry of the working map. -/
def finishState (cp : WorkingMap) : SubstState :=
  cp.foldl (fun st kv => (substGo cp (substFuel cp) (.one kv.1 kv.2) st).2)
    { substitutedMap := [], invalid := findCycles cp }

/-- `finish_cascade`: if the pass materialized a working map, cycle-check
and substitute it into a fresh baseline; otherwise share the inherited
baseline. -/
def finishCascade (customProperties : Option WorkingMap)
    (inheritedCustomProperties : Option (List (Name × String))) :
    Option (List (Name × String)) :=
  match customProperties with
  | some cp => some (finishState cp).substitutedMap
  | none => inheritedCustomProperties

/-! ## Predicates and concrete instances used by the verification -/

/-- The tokens `parse_declaration_value` rejects at the top level (and
`parse_declaration_value_block` partly accepts): malformed url/string,
an unmatched closing bracket, a bare `;`, a bare `!`. -/
def isTopBad : Tok → Bool
  | .badUrl _ => true
  | .badString _ => true
  | .closeParen => true
  | .closeSquare => true
  | .closeCurly => true
  | .semicolon => true
  | .delim c => c = '!'
  | _ => false

mutual

/-- No `var(` function token anywhere in this token. -/
def tokNoVar : Tok → Bool
  | .function n args => (!(n = "var")) && toksNoVar args
  | .paren args => toksNoVar args
  | .curly args => toksNoVar args
  | .square args => toksNoVar args
  | _ => true

/-- No `var(` function token anywhere in this token list. -/
def toksNoVar : List Tok → Bool
  | [] => true
  | t :: rest => tokNoVar t && toksNoVar rest

end

/-- Does a token list start with a comma token? (`expect_comma`'s
success condition after whitespace has been dropped.) -/
def headIsCommaTok : List Tok → Bool
  | Tok.comma :: _ => true
  | _ => false

/-- The first declared value offered for `name` in a pass's declaration
sequence. -/
def firstDeclOf (name : Name) (decls : List (Name × DeclaredValue)) : Option DeclaredValue :=
  (decls.find? (fun d => d.1 = name)).map (fun d => d.2)

/-- The key list of an association list. -/
def keysOf {α : Type} (m : List (Name × α)) : List Name := m.map Prod.fst

/-- An optional inherited baseline has well-formed (duplicate-free) keys;
the source's baseline is a `HashMap`, which guarantees this. -/
def inhKeysNodup : Option (List (Name × String)) → Prop
  | none => True
  | some l => (keysOf l).Nodup

/-- One step in the reference graph of a working map: `x`'s entry
references `y`. -/
def refsEdge (m : WorkingMap) (x y : Name) : Bool :=
  match lookupAssoc x m with
  | some v => y ∈ refsList v
  | none => false

/-- Consecutive reference edges along a list of names. -/
def stackOk (m : WorkingMap) : List Name → Bool
  | [] => true
  | [_] => true
  | x :: y :: rest => refsEdge m x y && stackOk m (y :: rest)

/-- A nonempty closed walk in the reference graph: consecutive edges
along the list and an edge from the last name back to the first. -/
def loopOk (m : WorkingMap) (seg : List Name) : Bool :=
  stackOk m seg &&
    (match seg.getLast?, seg.head? with
     | some last, some h => refsEdge m last h
     | _, _ => false)

/-- `x` lies on some reference cycle of `m`. -/
def onCycle (m : WorkingMap) (x : Name) : Prop :=
  ∃ seg, x ∈ seg ∧ loopOk m seg = true

/-- `--a: var(--b)` of the mutual-cycle scenario. -/
def cycToksA : List Tok := [Tok.function "var" [Tok.ident "--b"]]

/-- `--b: var(--a)` of the mutual-cycle scenario. -/
def cycToksB : List Tok := [Tok.function "var" [Tok.ident "--a"]]

/-- `--c: var(--a,10px)` of the mutual-cycle scenario: `--a` is present
but cyclic, and a fallback is offered. -/
def cycToksC : List Tok := [Tok.function "var" [Tok.ident "--a", Tok.comma, Tok.other "10px"]]

/-- Scanner output for `cycToksA`. -/
def cycValA : Value := { toks := cycToksA, value := "var(--b)", references := ["b"] }

/-- Scanner output for `cycToksB`. -/
def cycValB : Value := { toks := cycToksB, value := "var(--a)", references := ["a"] }

/-- Scanner output for `cycToksC`. -/
def cycValC : Value := { toks := cycToksC, value := "var(--a,10px)", references := ["a"] }

/-- The mutual-cycle declaration sequence. -/
def cycDecls : List (Name × DeclaredValue) :=
  [("a", .value cycValA), ("b", .value cycValB), ("c", .value cycValC)]

/-- The working map the mutual-cycle pass merges. -/
def cycMap : Option WorkingMap := (cascadeAll none cycDecls).1

/-- `--d: var(--undeclared,blue)`: an undeclared reference with a
fallback. -/
def undToksD : List Tok :=
  [Tok.function "var" [Tok.ident "--undeclared", Tok.comma, Tok.ident "blue"]]

/-- `--e: var(--undeclared)`: an undeclared reference without
fallback. -/
def undToksE : List Tok := [Tok.function "var" [Tok.ident "--undeclared"]]

/-- `--ok: 1px`: an unrelated plain declaration in the same pass. -/
def undToksOk : List Tok := [Tok.other "1px"]

/-- The undeclared-reference declaration sequence. -/
def undDecls : List (Name × DeclaredValue) :=
  [("d", .value ⟨undToksD, "var(--undeclared,blue)", ["undeclared"]⟩),
   ("e", .value ⟨undToksE, "var(--undeclared)", ["undeclared"]⟩),
   ("ok", .value ⟨undToksOk, "1px", []⟩)]

/-- The working map of the undeclared-reference pass. -/
def undMap : Option WorkingMap := (cascadeAll none undDecls).1

/-- `var(--a, var(--b)[2px])`: a fallback containing a further `var()`
call and a bracket block. -/
def varFallbackToks : List Tok :=
  [Tok.function "var" [Tok.ident "--a", Tok.comma, Tok.ws " ",
    Tok.function "var" [Tok.ident "--b"], Tok.square [Tok.other "2px"]]]

/-- Lift `toksNoVar` to a scanner call (the var-argument routine is
only ever entered from a `var(` token). -/
def callNoVar : ScanCall → Bool
  | .top ts => toksNoVar ts
  | .topLoop ts => toksNoVar ts
  | .blockLoop ts => toksNoVar ts
  | .varFn _ => false

/-- Keys of an optional working map are duplicate-free (always true of
the source's `HashMap`). -/
def keysNodupOpt : Option WorkingMap → Prop
  | some m => (keysOf m).Nodup
  | none => True

/-- Names of the reference graph not yet visited by the detector, used
to measure the remaining work of a `cycleGo` run. -/
def unvisitedCount (m : WorkingMap) (visited : List Name) : Nat :=
  ((univList m).filter (fun x => decide (x ∉ visited))).length

/-- Remaining-work measure of one detector call: visiting a name costs a
`cycleK` block, stepping along a reference list costs one unit. -/
def callMeasure (m : WorkingMap) : CycleCall → List Name × List Name → Nat
  | .walk _ _, acc => unvisitedCount m acc.1 * cycleK m + 1
  | .walkRefs refs _, acc => unvisitedCount m acc.1 * cycleK m + refs.length + 2

/-- `--v: var(--u) var(--a)` of the missed-cycle scenario (the chord
`v → u` is explored before the cycle edge `v → a`). -/
def cexToksV : List Tok :=
  [Tok.function "var" [Tok.ident "--u"], Tok.ws " ", Tok.function "var" [Tok.ident "--a"]]

/-- `--a: var(--u)` of the missed-cycle scenario. -/
def cexToksA : List Tok := [Tok.function "var" [Tok.ident "--u"]]

/-- `--u: var(--v)` of the missed-cycle scenario. -/
def cexToksU : List Tok := [Tok.function "var" [Tok.ident "--v"]]

/-- A working map whose reference graph has the cycle `v → a → u → v`
overlapping the cycle `v → u → v`; iteration order reaches `u` through
the chord first. -/
def cexMap : WorkingMap :=
  [("v", { toks := cexToksV, references := some ["u", "a"] }),
   ("a", { toks := cexToksA, references := some ["u"] }),
   ("u", { toks := cexToksU, references := some ["v"] })]

/-- Tokens that carry no nested block. -/
def Tok.isBlockless : Tok → Bool
  | .function _ _ => false
  | .paren _ => false
  | .curly _ => false
  | .square _ => false
  | _ => true

/-- Scan-validity of a token list as far as `substitute_block`'s
unchecked assumptions are concerned: every `var(…)` interior reachable
during substitution opens with a `--`-prefixed identifier (else the
handler's `unwrap` / `debug_assert!` aborts) and carries a scan-valid
fallback after any comma. -/
inductive VarsOk : List Tok → Prop where
  | nil : VarsOk []
  | var (args rest : List Tok) (s : String) (argsRest : List Tok) :
      args.dropWhile Tok.isWs = Tok.ident s :: argsRest →
      hasDashDash s = true →
      (∀ rest2, argsRest.dropWhile Tok.isWs = Tok.comma :: rest2 → VarsOk rest2) →
      VarsOk rest →
      VarsOk (Tok.function "var" args :: rest)
  | fn (n : String) (args rest : List Tok) : n ≠ "var" → VarsOk args → VarsOk rest →
      VarsOk (Tok.function n args :: rest)
  | paren (args rest : List Tok) : VarsOk args → VarsOk rest →
      VarsOk (Tok.paren args :: rest)
  | curly (args rest : List Tok) : VarsOk args → VarsOk rest →
      VarsOk (Tok.curly args :: rest)
  | square (args rest : List Tok) : VarsOk args → VarsOk rest →
      VarsOk (Tok.square args :: rest)
  | leaf (t : Tok) (rest : List Tok) : t.isBlockless = true → VarsOk rest →
      VarsOk (t :: rest)

/-- The reference set `R` covers every `var()` name that substitution
can encounter in this token list: each reachable `var(…)` interior opens
with a `--` identifier whose stripped name is in `R`, and any fallback
after a comma is covered as well. -/
inductive RefsCovered (R : List Name) : List Tok → Prop where
  | nil : RefsCovered R []
  | var (args rest : List Tok) (s : String) (argsRest : List Tok) :
      args.dropWhile Tok.isWs = Tok.ident s :: argsRest →
      hasDashDash s = true →
      dropDashDash s ∈ R →
      (∀ rest2, argsRest.dropWhile Tok.isWs = Tok.comma :: rest2 → RefsCovered R rest2) →
      RefsCovered R rest →
      RefsCovered R (Tok.function "var" args :: rest)
  | fn (n : String) (args rest : List Tok) : n ≠ "var" → RefsCovered R args →
      RefsCovered R rest → RefsCovered R (Tok.function n args :: rest)
  | paren (args rest : List Tok) : RefsCovered R args → RefsCovered R rest →
      RefsCovered R (Tok.paren args :: rest)
  | curly (args rest : List Tok) : RefsCovered R args → RefsCovered R rest →
      RefsCovered R (Tok.curly args :: rest)
  | square (args rest : List Tok) : RefsCovered R args → RefsCovered R rest →
      RefsCovered R (Tok.square args :: rest)
  | leaf (t : Tok) (rest : List Tok) : t.isBlockless = true → RefsCovered R rest →
      RefsCovered R (t :: rest)

/-- The stack parameter of a detector call. -/
def callStack : CycleCall → List Name
  | .walk _ stack => stack
  | .walkRefs _ stack => stack

/-- Completeness invariant of the cycle detector: every reference loop
still has a member that is already invalid, not yet visited, or on the
current path stack. -/
def cycInv (m : WorkingMap) (acc : List Name × List Name) (stack : List Name) : Prop :=
  ∀ seg, seg ≠ [] → loopOk m seg = true →
    (∃ c ∈ seg, c ∈ acc.2) ∨ (∃ c ∈ seg, c ∉ acc.1) ∨ (∃ c ∈ seg, c ∈ stack)

/-- A finished (visited, off-stack) name has all its reference targets
visited. -/
def compInv (m : WorkingMap) (acc : List Name × List Name) (stack : List Name) : Prop :=
  ∀ w, w ∈ acc.1 → w ∉ stack → ∀ y, refsEdge m w y = true → y ∈ acc.1

/-- Disjointness invariant of a substitution state: an invalid name has
no memoized entry. -/
def disjInv (st : SubstState) : Prop :=
  ∀ k, k ∈ st.invalid → lookupAssoc k st.substitutedMap = none

/-- The invalid set already hits every reference loop of the working map
(what `find_cycles` establishes before substitution starts). -/
def cycHit (cp : WorkingMap) (st : SubstState) : Prop :=
  ∀ seg, seg ≠ [] → loopOk cp seg = true → ∃ c ∈ seg, c ∈ st.invalid

/-- The chain of names whose blocks are being substituted on the current
call path: consecutive reference edges, each entry present with a
nonempty reference list, none memoized or invalidated yet. -/
def pendInv (cp : WorkingMap) (pending : List Name) (st : SubstState) : Prop :=
  stackOk cp pending = true ∧
  ∀ p ∈ pending, ∃ vp rp, lookupAssoc p cp = some vp ∧ vp.references = some rp ∧
    rp ≠ [] ∧ lookupAssoc p st.substitutedMap = none ∧ p ∉ st.invalid

/-- How a substitution call is wired to the pending chain: `one` resolves
the map's own entry for a name referenced by the chain's top (or is a
root call); `block` and `varArgs` run inside the top's entry, whose
scanned reference set covers their tokens. -/
def callWire (cp : WorkingMap) (pending : List Name) : SubstCall → Prop
  | .one name value =>
      lookupAssoc name cp = some value ∧
      (pending = [] ∨ ∃ p, pending.getLast? = some p ∧ refsEdge cp p name = true)
  | .block ts =>
      ∃ p vt, pending.getLast? = some p ∧ lookupAssoc p cp = some vt ∧
        RefsCovered (refsList vt) ts
  | .varArgs ts =>
      ∃ p vt, pending.getLast? = some p ∧ lookupAssoc p cp = some vt ∧
        ∃ s argsRest, ts.dropWhile Tok.isWs = Tok.ident s :: argsRest ∧
          hasDashDash s = true ∧ dropDashDash s ∈ refsList vt ∧
          (∀ rest2, argsRest.dropWhile Tok.isWs = Tok.comma :: rest2 →
            RefsCovered (refsList vt) rest2)

/-- Every entry that records references got them from a successful scan
of its own token text (how `cascade` builds the working map). -/
def entriesScanned (cp : WorkingMap) : Prop :=
  ∀ kv ∈ cp, ∀ rs, kv.2.references = some rs →
    ∃ val, parse kv.2.toks = some val ∧ val.references = rs

/-- A working map exercising the disjointness invariant: a two-name
reference cycle plus an unrelated resolvable entry. -/
def c9Map : WorkingMap :=
  [("a", ⟨cycToksA, some ["b"]⟩), ("b", ⟨cycToksB, some ["a"]⟩),
   ("ok", ⟨[Tok.other "1px"], some []⟩)]

/-! ## Helper lemmas -/

theorem isWs_false_of_isTopBad {t : Tok} (h : isTopBad t = true) : Tok.isWs t = false := by
  cases t <;> simp_all [isTopBad, Tok.isWs]

theorem dropWhile_ne_nil_of_mem {ts : List Tok} {t : Tok} (hm : t ∈ ts)
    (hw : Tok.isWs t = false) : ts.dropWhile Tok.isWs ≠ [] := by
  induction ts with
  | nil => cases hm
  | cons a rest ih =>
    cases ha : Tok.isWs a with
    | true =>
      have ht : t ∈ rest := by
        rcases List.mem_cons.mp hm with h | h
        · subst h; rw [hw] at ha; cases ha
        · exact h
      simpa [List.dropWhile, ha] using ih ht
    | false => simp [List.dropWhile, ha]

theorem scanGo_top_nonempty (fuel : Nat) (ts : List Tok) (refs : List Name)
    (h : (ts.dropWhile Tok.isWs).isEmpty = false) :
    scanGo (fuel + 1) (.top ts) refs = scanGo fuel (.topLoop ts) refs := by
  simp [scanGo, h]

theorem scanGo_topLoop_none_of_bad :
    ∀ (fuel : Nat) (ts : List Tok) (refs : List Name) (t : Tok),
      t ∈ ts → isTopBad t = true → scanGo fuel (.topLoop ts) refs = none := by
  intro fuel
  induction fuel with
  | zero => intro ts refs t _ _; rfl
  | succ fuel ih =>
    intro ts refs t hm hb
    cases ts with
    | nil => cases hm
    | cons a rest =>
      rcases List.mem_cons.mp hm with h | h
      · subst h
        cases t <;> simp_all [scanGo, isTopBad]
      · cases a with
        | function n args =>
          by_cases hv : n = "var" <;>
            [cases hva : scanGo fuel (.varFn args) refs;
             cases hva : scanGo fuel (.blockLoop args) refs] <;>
            simp [scanGo, hv, hva, ih rest _ t h hb]
        | paren args =>
          cases hva : scanGo fuel (.blockLoop args) refs <;>
            simp [scanGo, hva, ih rest _ t h hb]
        | curly args =>
          cases hva : scanGo fuel (.blockLoop args) refs <;>
            simp [scanGo, hva, ih rest _ t h hb]
        | square args =>
          cases hva : scanGo fuel (.blockLoop args) refs <;>
            simp [scanGo, hva, ih rest _ t h hb]
        | delim c =>
          by_cases hc : c = '!' <;> simp [scanGo, hc, ih rest _ t h hb]
        | _ => simp [scanGo, ih rest _ t h hb]

/-! ## The claims -/

/-- Claim C5: within one pass, only the first `cascade` call for a name
affects the working map — a later call with the same name is a no-op on
the map (and the seen set) regardless of its `DeclaredValue` variant —
and every call, first or not and in every dispatch branch, leaves the
name marked in the seen set. -/
theorem cascade_first_write_wins (cp : Option WorkingMap)
    (inh : Option (List (Name × String))) (seen : List Name) (name : Name)
    (v : DeclaredValue) :
    (name ∈ seen → cascade cp inh seen name v = (cp, seen)) ∧
    name ∈ (cascade cp inh seen name v).2 := by
  constructor
  · intro h; simp [cascade, h]
  · by_cases h : name ∈ seen
    · simp [cascade, h]
    · cases v <;> simp [cascade, h]

/-- Witness for C5 at a concrete input: a second call for `"x"` leaves
map and seen set unchanged, and the name stays marked. -/
theorem cascade_first_write_wins_witness :
    cascade (some []) none ["x"] "x" DeclaredValue.initial = (some [], ["x"]) ∧
    "x" ∈ (cascade (some []) none ["x"] "x" DeclaredValue.initial).2 :=
  ⟨(cascade_first_write_wins (some []) none ["x"] "x" DeclaredValue.initial).1
      (List.mem_singleton.mpr rfl),
   (cascade_first_write_wins (some []) none ["x"] "x" DeclaredValue.initial).2⟩

/-- Claim C1: when the name of a `var()` call has a working-map entry,
the handler's result is exactly `substitute_one` of that entry — the
fallback tokens are never examined, so on success the resolved text
replaces the whole call and on failure the whole value fails.  In
particular, in the pass `--a: var(--b); --b: var(--a); --c: var(--a,10px)`
the names `a`, `b` and also `c` are all absent from the finished
baseline. -/
theorem substitute_var_present_ignores_fallback :
    (∀ (fuel : Nat) (cp : WorkingMap) (s : String) (fb : List Tok)
        (st : SubstState) (v : BorrowedValue), hasDashDash s = true →
      lookupAssoc (dropDashDash s) cp = some v →
      substituteVarArgs (fuel + 1) cp (Tok.ident s :: fb) st =
        substituteOne fuel (dropDashDash s) v cp st) ∧
    parse cycToksA = some cycValA ∧ parse cycToksB = some cycValB ∧
    parse cycToksC = some cycValC ∧
    ∃ out, finishCascade cycMap none = some out ∧ lookupAssoc "a" out = none ∧
      lookupAssoc "b" out = none ∧ lookupAssoc "c" out = none := by
  refine ⟨?_, rfl, rfl, rfl, [], rfl, rfl, rfl, rfl⟩
  intro fuel cp s fb st v h1 h2
  simp [substituteVarArgs, substituteOne, substGo, List.dropWhile, Tok.isWs, h1, h2]

/-- Witness for C1's universal part at a concrete input: `--x` present
in the map, fallback `9px` ignored. -/
theorem substitute_var_present_ignores_fallback_witness :
    hasDashDash "--x" = true ∧
    lookupAssoc (dropDashDash "--x") [("x", inheritedView "1px")] =
      some (inheritedView "1px") ∧
    substituteVarArgs 4 [("x", inheritedView "1px")]
        [Tok.ident "--x", Tok.comma, Tok.other "9px"] ⟨[], []⟩ =
      substituteOne 3 (dropDashDash "--x") (inheritedView "1px")
        [("x", inheritedView "1px")] ⟨[], []⟩ :=
  ⟨rfl, rfl,
   substitute_var_present_ignores_fallback.1 3 [("x", inheritedView "1px")] "--x"
     [Tok.comma, Tok.other "9px"] ⟨[], []⟩ (inheritedView "1px") rfl rfl⟩

/-- Counterexample to claim C2: the fallback of a `var()` call is *not*
scanned with the nested (block) rule — `var(--a, !important)` (with a
bare `!` in the fallback) is rejected by the scanner, not accepted. -/
theorem var_fallback_bang_rejected :
    parse [Tok.function "var" [Tok.ident "--a", Tok.comma, Tok.ws " ", Tok.delim '!',
      Tok.ident "important"]] = none := rfl

/-- Claim C2 (amended): when a comma follows the `var()` reference name,
the fallback remainder is scanned with the *top-level* rule
(`parse_declaration_value`), which rejects a bare `!` and a bare `;`
(and an empty fallback); the fallback may still contain further `var()`
calls and brackets, whose references are collected. -/
theorem var_fallback_scanned_top_level :
    (∀ (fuel : Nat) (s : String) (fb : List Tok) (refs : List Name),
      hasDashDash s = true →
      scanGo (fuel + 1) (.varFn (Tok.ident s :: Tok.comma :: fb)) refs =
        (scanGo fuel (.top fb) refs).map (insertName (dropDashDash s))) ∧
    parse varFallbackToks =
      some { toks := varFallbackToks, value := "var(--a, var(--b)[2px])",
             references := ["b", "a"] } ∧
    parse [Tok.function "var" [Tok.ident "--a", Tok.comma, Tok.semicolon]] = none := by
  refine ⟨?_, rfl, rfl⟩
  intro fuel s fb refs h
  simp [scanGo, List.dropWhile, Tok.isWs, h]

/-- Witness for C2's universal part at a concrete input. -/
theorem var_fallback_scanned_top_level_witness :
    hasDashDash "--a" = true ∧
    scanGo 9 (.varFn (Tok.ident "--a" :: Tok.comma :: [Tok.other "10px"])) [] =
      (scanGo 8 (.top [Tok.other "10px"]) []).map (insertName (dropDashDash "--a")) :=
  ⟨rfl, var_fallback_scanned_top_level.1 8 "--a" [Tok.other "10px"] [] rfl⟩

/-- Claim C3: the scanner errors on an empty token stream, and on every
stream whose top level contains a malformed-url token, a malformed-string
token, an unmatched closing bracket of any kind, a bare `!`, or a bare
`;`; the nested-block variant instead steps over `;` and `!` and
continues. -/
theorem parse_top_level_errors :
    parse [] = none ∧
    (∀ (ts : List Tok) (t : Tok), t ∈ ts → isTopBad t = true → parse ts = none) ∧
    (∀ (fuel : Nat) (ts : List Tok) (refs : List Name),
      scanGo (fuel + 1) (.blockLoop (Tok.semicolon :: ts)) refs =
        scanGo fuel (.blockLoop ts) refs ∧
      scanGo (fuel + 1) (.blockLoop (Tok.delim '!' :: ts)) refs =
        scanGo fuel (.blockLoop ts) refs) := by
  refine ⟨rfl, ?_, fun fuel ts refs => ⟨rfl, rfl⟩⟩
  intro ts t hm hb
  have hne : ts.dropWhile Tok.isWs ≠ [] :=
    dropWhile_ne_nil_of_mem hm (isWs_false_of_isTopBad hb)
  have hemp : (ts.dropWhile Tok.isWs).isEmpty = false := by
    cases hdw : ts.dropWhile Tok.isWs with
    | nil => exact absurd hdw hne
    | cons a l => rfl
  have h1 : parseDeclarationValue ts [] = none := by
    have e1 : parseDeclarationValue ts [] = scanGo ((2 * toksSize ts + 1) + 1) (.top ts) [] := rfl
    rw [e1, scanGo_top_nonempty _ _ _ hemp, scanGo_topLoop_none_of_bad _ ts [] t hm hb]
  simp [parse, h1]

/-- Witness for C3's universal part: a stream with a top-level `;` is
rejected. -/
theorem parse_top_level_errors_witness :
    Tok.semicolon ∈ [Tok.other "x", Tok.semicolon] ∧
    isTopBad Tok.semicolon = true ∧
    parse [Tok.other "x", Tok.semicolon] = none :=
  ⟨List.Mem.tail _ (List.Mem.head _), rfl,
   parse_top_level_errors.2.1 [Tok.other "x", Tok.semicolon] Tok.semicolon
     (List.Mem.tail _ (List.Mem.head _)) rfl⟩

/-- Claim C8: a `var()` whose name has no working-map entry requires a
following comma: without one the handler fails (so the enclosing value
fails and the property is omitted), and with one the fallback tokens are
substituted by the same rules in place of the whole call.  In particular
`--d: var(--undeclared,blue)` resolves to `"blue"`, `--e:
var(--undeclared)` ends up absent, and the unrelated `--ok: 1px` in the
same pass still resolves. -/
theorem substitute_var_absent_uses_fallback :
    (∀ (fuel : Nat) (cp : WorkingMap) (s : String) (rest : List Tok)
        (st : SubstState), hasDashDash s = true →
      lookupAssoc (dropDashDash s) cp = none →
      (∀ rest2, rest.dropWhile Tok.isWs = Tok.comma :: rest2 →
        substituteVarArgs (fuel + 1) cp (Tok.ident s :: rest) st =
          substituteBlock fuel cp rest2 st) ∧
      (headIsCommaTok (rest.dropWhile Tok.isWs) = false →
        substituteVarArgs (fuel + 1) cp (Tok.ident s :: rest) st = (.err, st))) ∧
    ∃ out, finishCascade undMap none = some out ∧
      lookupAssoc "d" out = some "blue" ∧ lookupAssoc "e" out = none ∧
      lookupAssoc "ok" out = some "1px" := by
  refine ⟨?_, [("d", "blue"), ("ok", "1px")], rfl, rfl, rfl, rfl⟩
  intro fuel cp s rest st h1 h2
  constructor
  · intro rest2 hr
    simp [substituteVarArgs, substituteBlock, substGo, List.dropWhile, Tok.isWs, h1, h2, hr]
  · intro hc
    cases hdw : rest.dropWhile Tok.isWs with
    | nil => simp [substituteVarArgs, substGo, List.dropWhile, Tok.isWs, h1, h2, hdw]
    | cons a l =>
      cases a <;>
        simp_all [substituteVarArgs, substGo, List.dropWhile, Tok.isWs, headIsCommaTok]

/-- Witness for C8's universal part: `--missing` absent, no comma — the
handler fails; with a comma — the fallback block runs. -/
theorem substitute_var_absent_uses_fallback_witness :
    hasDashDash "--missing" = true ∧
    lookupAssoc (dropDashDash "--missing") ([] : WorkingMap) = none ∧
    substituteVarArgs 4 [] [Tok.ident "--missing"] ⟨[], []⟩ = (.err, ⟨[], []⟩) ∧
    substituteVarArgs 4 [] [Tok.ident "--missing", Tok.comma, Tok.ident "blue"] ⟨[], []⟩ =
      substituteBlock 3 [] [Tok.ident "blue"] ⟨[], []⟩ :=
  ⟨rfl, rfl,
   ((substitute_var_absent_uses_fallback.1 3 [] "--missing" [] ⟨[], []⟩ rfl rfl).2 rfl),
   ((substitute_var_absent_uses_fallback.1 3 [] "--missing"
       [Tok.comma, Tok.ident "blue"] ⟨[], []⟩ rfl rfl).1 [Tok.ident "blue"] rfl)⟩

theorem mem_keys_of_lookup_some {α : Type} {k : Name} {v : α} :
    ∀ {m : List (Name × α)}, lookupAssoc k m = some v → k ∈ keysOf m := by
  intro m
  induction m with
  | nil => intro h; cases h
  | cons kv rest ih =>
    intro h
    by_cases he : kv.1 = k
    · exact he ▸ List.mem_cons_self _ _
    · obtain ⟨k1, v1⟩ := kv
      simp only [lookupAssoc] at h
      rw [if_neg he] at h
      exact List.mem_cons_of_mem _ (ih h)

theorem lookup_ne_none_of_mem_keys {α : Type} {k : Name} :
    ∀ {m : List (Name × α)}, k ∈ keysOf m → lookupAssoc k m ≠ none := by
  intro m
  induction m with
  | nil => intro h; cases h
  | cons kv rest ih =>
    intro h
    obtain ⟨k1, v1⟩ := kv
    by_cases he : k1 = k
    · simp [lookupAssoc, he]
    · have : k ∈ keysOf rest := by
        rcases List.mem_cons.mp h with h' | h'
        · exact absurd h'.symm he
        · exact h'
      simp [lookupAssoc, he, ih this]

theorem lookup_insertAssoc_ne {α : Type} {k n : Name} (v : α) (h : n ≠ k) :
    ∀ (m : List (Name × α)), lookupAssoc k (insertAssoc n v m) = lookupAssoc k m := by
  intro m
  induction m with
  | nil => simp [insertAssoc, lookupAssoc, h]
  | cons kv rest ih =>
    obtain ⟨k1, v1⟩ := kv
    by_cases he : k1 = n
    · simp [insertAssoc, he, lookupAssoc, h]
    · simp [insertAssoc, he, lookupAssoc, ih]

theorem lookup_removeAssoc_ne {α : Type} {k n : Name} (h : n ≠ k) :
    ∀ (m : List (Name × α)), lookupAssoc k (removeAssoc n m) = lookupAssoc k m := by
  intro m
  induction m with
  | nil => simp [removeAssoc]
  | cons kv rest ih =>
    obtain ⟨k1, v1⟩ := kv
    by_cases he : k1 = n
    · subst he; simp [removeAssoc, lookupAssoc, h, ih]
    · simp [removeAssoc, he, lookupAssoc, ih]

theorem lookup_none_of_not_mem_keys {α : Type} {k : Name} {m : List (Name × α)}
    (h : k ∉ keysOf m) : lookupAssoc k m = none := by
  cases hl : lookupAssoc k m with
  | none => rfl
  | some v => exact absurd (mem_keys_of_lookup_some hl) h

theorem lookup_removeAssoc_self {α : Type} {k : Name} :
    ∀ {m : List (Name × α)}, (keysOf m).Nodup →
      lookupAssoc k (removeAssoc k m) = none := by
  intro m
  induction m with
  | nil => intro _; rfl
  | cons kv rest ih =>
    intro hnd
    obtain ⟨k1, v1⟩ := kv
    have hnd' := hnd
    rw [keysOf, List.map_cons, List.nodup_cons] at hnd'
    by_cases he : k1 = k
    · subst he
      have hrw : removeAssoc k1 ((k1, v1) :: rest) = rest := by simp [removeAssoc]
      rw [hrw]
      exact lookup_none_of_not_mem_keys (by simpa [keysOf] using hnd'.1)
    · simp [removeAssoc, he, lookupAssoc, ih hnd'.2]

theorem mem_keys_insertAssoc {α : Type} {x k : Name} {v : α} :
    ∀ {m : List (Name × α)}, x ∈ keysOf (insertAssoc k v m) → x ∈ keysOf m ∨ x = k := by
  intro m
  induction m with
  | nil => intro h; simp [insertAssoc, keysOf] at h; exact Or.inr h
  | cons kv rest ih =>
    intro h
    obtain ⟨k1, v1⟩ := kv
    by_cases he : k1 = k
    · simp only [insertAssoc, if_pos he] at h
      rcases List.mem_cons.mp h with h' | h'
      · exact Or.inr h'
      · exact Or.inl (List.mem_cons_of_mem _ h')
    · simp only [insertAssoc, if_neg he] at h
      rcases List.mem_cons.mp h with h' | h'
      · exact Or.inl (h' ▸ List.mem_cons_self _ _)
      · rcases ih h' with h'' | h''
        · exact Or.inl (List.mem_cons_of_mem _ h'')
        · exact Or.inr h''

theorem mem_keys_removeAssoc {α : Type} {x k : Name} :
    ∀ {m : List (Name × α)}, x ∈ keysOf (removeAssoc k m) → x ∈ keysOf m := by
  intro m
  induction m with
  | nil => intro h; cases h
  | cons kv rest ih =>
    intro h
    obtain ⟨k1, v1⟩ := kv
    by_cases he : k1 = k
    · simp only [removeAssoc, if_pos he] at h
      exact List.mem_cons_of_mem _ h
    · simp only [removeAssoc, if_neg he] at h
      rcases List.mem_cons.mp h with h' | h'
      · exact h' ▸ List.mem_cons_self _ _
      · exact List.mem_cons_of_mem _ (ih h')

theorem nodup_keys_insertAssoc {α : Type} {k : Name} {v : α} :
    ∀ {m : List (Name × α)}, (keysOf m).Nodup → (keysOf (insertAssoc k v m)).Nodup := by
  intro m
  induction m with
  | nil => intro _; simp [insertAssoc, keysOf]
  | cons kv rest ih =>
    intro hnd
    obtain ⟨k1, v1⟩ := kv
    rw [keysOf, List.map_cons, List.nodup_cons] at hnd
    by_cases he : k1 = k
    · subst he
      have hrw : insertAssoc k1 v ((k1, v1) :: rest) = (k1, v) :: rest := by
        simp [insertAssoc]
      rw [hrw, keysOf, List.map_cons, List.nodup_cons]
      exact ⟨by simpa [keysOf] using hnd.1, hnd.2⟩
    · simp only [insertAssoc, if_neg he, keysOf, List.map_cons, List.nodup_cons]
      refine ⟨fun hmem => ?_, ih hnd.2⟩
      rcases mem_keys_insertAssoc (by simpa [keysOf] using hmem) with h' | h'
      · exact (by simpa [keysOf] using hnd.1 : k1 ∉ keysOf rest) h'
      · exact he h'

theorem nodup_keys_removeAssoc {α : Type} {k : Name} :
    ∀ {m : List (Name × α)}, (keysOf m).Nodup → (keysOf (removeAssoc k m)).Nodup := by
  intro m
  induction m with
  | nil => intro _; simp [removeAssoc, keysOf]
  | cons kv rest ih =>
    intro hnd
    obtain ⟨k1, v1⟩ := kv
    rw [keysOf, List.map_cons, List.nodup_cons] at hnd
    by_cases he : k1 = k
    · simp only [removeAssoc, if_pos he]
      exact hnd.2
    · simp only [removeAssoc, if_neg he, keysOf, List.map_cons, List.nodup_cons]
      exact ⟨fun hmem => (by simpa [keysOf] using hnd.1 : k1 ∉ keysOf rest)
          (mem_keys_removeAssoc (by simpa [keysOf] using hmem)), ih hnd.2⟩

theorem scanGo_noVar_refs :
    ∀ (fuel : Nat) (call : ScanCall) (refs out : List Name),
      callNoVar call = true → scanGo fuel call refs = some out → out = refs := by
  intro fuel
  induction fuel with
  | zero => intro call refs out _ h; cases h
  | succ fuel ih =>
    intro call refs out hnv h
    cases call with
    | top ts =>
      by_cases he : (ts.dropWhile Tok.isWs).isEmpty
      · simp [scanGo, he] at h
      · rw [scanGo_top_nonempty fuel ts refs (Bool.not_eq_true _ ▸ he)] at h
        exact ih (.topLoop ts) refs out hnv h
    | topLoop ts =>
      cases ts with
      | nil =>
        have : some refs = some out := by simpa [scanGo] using h
        exact (Option.some_injective _ this).symm
      | cons t rest =>
        have hnv1 : tokNoVar t = true ∧ toksNoVar rest = true := by
          simpa [callNoVar, toksNoVar, Bool.and_eq_true] using hnv
        cases t with
        | badUrl s => simp [scanGo] at h
        | badString s => simp [scanGo] at h
        | closeParen => simp [scanGo] at h
        | closeSquare => simp [scanGo] at h
        | closeCurly => simp [scanGo] at h
        | semicolon => simp [scanGo] at h
        | delim c =>
          by_cases hc : c = '!'
          · simp [scanGo, hc] at h
          · rw [show scanGo (fuel + 1) (.topLoop (Tok.delim c :: rest)) refs =
                if c = '!' then none else scanGo fuel (.topLoop rest) refs from rfl,
              if_neg hc] at h
            exact ih (.topLoop rest) refs out hnv1.2 h
        | function n args =>
          have hfn : ¬ (n = "var") ∧ toksNoVar args = true := by
            have := hnv1.1
            simp only [tokNoVar, Bool.and_eq_true, Bool.not_eq_true',
              decide_eq_false_iff_not] at this
            exact this
          rw [show scanGo (fuel + 1) (.topLoop (Tok.function n args :: rest)) refs =
              if n = "var" then
                match scanGo fuel (.varFn args) refs with
                | some refs2 => scanGo fuel (.topLoop rest) refs2
                | none => none
              else
                match scanGo fuel (.blockLoop args) refs with
                | some refs2 => scanGo fuel (.topLoop rest) refs2
                | none => none from rfl,
            if_neg hfn.1] at h
          cases hb : scanGo fuel (.blockLoop args) refs with
          | none => rw [hb] at h; cases h
          | some refs2 =>
            rw [hb] at h
            have hr2 : refs2 = refs := ih (.blockLoop args) refs refs2 hfn.2 hb
            subst hr2
            exact ih (.topLoop rest) refs2 out hnv1.2 h
        | paren args =>
          have hargs : toksNoVar args = true := by simpa [tokNoVar] using hnv1.1
          rw [show scanGo (fuel + 1) (.topLoop (Tok.paren args :: rest)) refs =
              match scanGo fuel (.blockLoop args) refs with
              | some refs2 => scanGo fuel (.topLoop rest) refs2
              | none => none from rfl] at h
          cases hb : scanGo fuel (.blockLoop args) refs with
          | none => rw [hb] at h; cases h
          | some refs2 =>
            rw [hb] at h
            have hr2 : refs2 = refs := ih (.blockLoop args) refs refs2 hargs hb
            subst hr2
            exact ih (.topLoop rest) refs2 out hnv1.2 h
        | curly args =>
          have hargs : toksNoVar args = true := by simpa [tokNoVar] using hnv1.1
          rw [show scanGo (fuel + 1) (.topLoop (Tok.curly args :: rest)) refs =
              match scanGo fuel (.blockLoop args) refs with
              | some refs2 => scanGo fuel (.topLoop rest) refs2
              | none => none from rfl] at h
          cases hb : scanGo fuel (.blockLoop args) refs with
          | none => rw [hb] at h; cases h
          | some refs2 =>
            rw [hb] at h
            have hr2 : refs2 = refs := ih (.blockLoop args) refs refs2 hargs hb
            subst hr2
            exact ih (.topLoop rest) refs2 out hnv1.2 h
        | square args =>
          have hargs : toksNoVar args = true := by simpa [tokNoVar] using hnv1.1
          rw [show scanGo (fuel + 1) (.topLoop (Tok.square args :: rest)) refs =
              match scanGo fuel (.blockLoop args) refs with
              | some refs2 => scanGo fuel (.topLoop rest) refs2
              | none => none from rfl] at h
          cases hb : scanGo fuel (.blockLoop args) refs with
          | none => rw [hb] at h; cases h
          | some refs2 =>
            rw [hb] at h
            have hr2 : refs2 = refs := ih (.blockLoop args) refs refs2 hargs hb
            subst hr2
            exact ih (.topLoop rest) refs2 out hnv1.2 h
        | ident s => exact ih (.topLoop rest) refs out hnv1.2 (by simpa [scanGo] using h)
        | comma => exact ih (.topLoop rest) refs out hnv1.2 (by simpa [scanGo] using h)
        | ws s => exact ih (.topLoop rest) refs out hnv1.2 (by simpa [scanGo] using h)
        | other s => exact ih (.topLoop rest) refs out hnv1.2 (by simpa [scanGo] using h)
    | blockLoop ts =>
      cases ts with
      | nil =>
        have : some refs = some out := by simpa [scanGo] using h
        exact (Option.some_injective _ this).symm
      | cons t rest =>
        have hnv1 : tokNoVar t = true ∧ toksNoVar rest = true := by
          simpa [callNoVar, toksNoVar, Bool.and_eq_true] using hnv
        cases t with
        | badUrl s => simp [scanGo] at h
        | badString s => simp [scanGo] at h
        | closeParen => simp [scanGo] at h
        | closeSquare => simp [scanGo] at h
        | closeCurly => simp [scanGo] at h
        | function n args =>
          have hfn : ¬ (n = "var") ∧ toksNoVar args = true := by
            have := hnv1.1
            simp only [tokNoVar, Bool.and_eq_true, Bool.not_eq_true',
              decide_eq_false_iff_not] at this
            exact this
          rw [show scanGo (fuel + 1) (.blockLoop (Tok.function n args :: rest)) refs =
              if n = "var" then
                match scanGo fuel (.varFn args) refs with
                | some refs2 => scanGo fuel (.blockLoop rest) refs2
                | none => none
              else
                match scanGo fuel (.blockLoop args) refs with
                | some refs2 => scanGo fuel (.blockLoop rest) refs2
                | none => none from rfl,
            if_neg hfn.1] at h
          cases hb : scanGo fuel (.blockLoop args) refs with
          | none => rw [hb] at h; cases h
          | some refs2 =>
            rw [hb] at h
            have hr2 : refs2 = refs := ih (.blockLoop args) refs refs2 hfn.2 hb
            subst hr2
            exact ih (.blockLoop rest) refs2 out hnv1.2 h
        | paren args =>
          have hargs : toksNoVar args = true := by simpa [tokNoVar] using hnv1.1
          rw [show scanGo (fuel + 1) (.blockLoop (Tok.paren args :: rest)) refs =
              match scanGo fuel (.blockLoop args) refs with
              | some refs2 => scanGo fuel (.blockLoop rest) refs2
              | none => none from rfl] at h
          cases hb : scanGo fuel (.blockLoop args) refs with
          | none => rw [hb] at h; cases h
          | some refs2 =>
            rw [hb] at h
            have hr2 : refs2 = refs := ih (.blockLoop args) refs refs2 hargs hb
            subst hr2
            exact ih (.blockLoop rest) refs2 out hnv1.2 h
        | curly args =>
          have hargs : toksNoVar args = true := by simpa [tokNoVar] using hnv1.1
          rw [show scanGo (fuel + 1) (.blockLoop (Tok.curly args :: rest)) refs =
              match scanGo fuel (.blockLoop args) refs with
              | some refs2 => scanGo fuel (.blockLoop rest) refs2
              | none => none from rfl] at h
          cases hb : scanGo fuel (.blockLoop args) refs with
          | none => rw [hb] at h; cases h
          | some refs2 =>
            rw [hb] at h
            have hr2 : refs2 = refs := ih (.blockLoop args) refs refs2 hargs hb
            subst hr2
            exact ih (.blockLoop rest) refs2 out hnv1.2 h
        | square args =>
          have hargs : toksNoVar args = true := by simpa [tokNoVar] using hnv1.1
          rw [show scanGo (fuel + 1) (.blockLoop (Tok.square args :: rest)) refs =
              match scanGo fuel (.blockLoop args) refs with
              | some refs2 => scanGo fuel (.blockLoop rest) refs2
              | none => none from rfl] at h
          cases hb : scanGo fuel (.blockLoop args) refs with
          | none => rw [hb] at h; cases h
          | some refs2 =>
            rw [hb] at h
            have hr2 : refs2 = refs := ih (.blockLoop args) refs refs2 hargs hb
            subst hr2
            exact ih (.blockLoop rest) refs2 out hnv1.2 h
        | ident s => exact ih (.blockLoop rest) refs out hnv1.2 (by simpa [scanGo] using h)
        | comma => exact ih (.blockLoop rest) refs out hnv1.2 (by simpa [scanGo] using h)
        | semicolon => exact ih (.blockLoop rest) refs out hnv1.2 (by simpa [scanGo] using h)
        | delim c => exact ih (.blockLoop rest) refs out hnv1.2 (by simpa [scanGo] using h)
        | ws s => exact ih (.blockLoop rest) refs out hnv1.2 (by simpa [scanGo] using h)
        | other s => exact ih (.blockLoop rest) refs out hnv1.2 (by simpa [scanGo] using h)
    | varFn ts => cases hnv

/-- Claim C4: a successful scan of a declaration value containing no
`var(` function token produces an empty reference set and a text field
exactly equal to the verbatim source slice (whitespace and comments
preserved). -/
theorem parse_no_var_round_trip (ts : List Tok) (v : Value)
    (hp : parse ts = some v) (hnv : toksNoVar ts = true) :
    v.references = [] ∧ v.value = toksText ts := by
  cases hd : parseDeclarationValue ts [] with
  | none => simp [parse, hd] at hp
  | some refs =>
    have hrefs : refs = [] :=
      scanGo_noVar_refs (scanFuel ts) (.top ts) [] refs
        (show callNoVar (.top ts) = true from hnv) hd
    have hv : v = { toks := ts, value := toksText ts, references := refs } := by
      simp [parse, hd] at hp
      exact hp.symm
    rw [hv, hrefs]
    exact ⟨rfl, rfl⟩

/-- Witness for C4 at a concrete input: `1px solid` (with whitespace)
round-trips with no references. -/
theorem parse_no_var_round_trip_witness :
    parse [Tok.other "1px", Tok.ws " ", Tok.ident "solid"] =
      some { toks := [Tok.other "1px", Tok.ws " ", Tok.ident "solid"],
             value := "1px solid", references := [] } ∧
    toksNoVar [Tok.other "1px", Tok.ws " ", Tok.ident "solid"] = true ∧
    ({ toks := [Tok.other "1px", Tok.ws " ", Tok.ident "solid"],
       value := "1px solid", references := [] } : Value).references = [] ∧
    ({ toks := [Tok.other "1px", Tok.ws " ", Tok.ident "solid"],
       value := "1px solid", references := [] } : Value).value =
      toksText [Tok.other "1px", Tok.ws " ", Tok.ident "solid"] :=
  ⟨rfl, rfl,
   parse_no_var_round_trip [Tok.other "1px", Tok.ws " ", Tok.ident "solid"]
     { toks := [Tok.other "1px", Tok.ws " ", Tok.ident "solid"],
       value := "1px solid", references := [] } rfl rfl⟩

theorem substGo_keys_subset (cp : WorkingMap) :
    ∀ (fuel : Nat) (call : SubstCall) (st : SubstState),
      (match call with | .one n _ => n ∈ keysOf cp | _ => True) →
      (∀ k, k ∈ keysOf st.substitutedMap → k ∈ keysOf cp) →
      ∀ k, k ∈ keysOf (substGo cp fuel call st).2.substitutedMap → k ∈ keysOf cp := by
  intro fuel
  induction fuel with
  | zero => intro call st _ hst k hk; exact hst k hk
  | succ fuel ih =>
    intro call st hcall hst k hk
    cases call with
    | one name value =>
      simp only [substGo] at hk
      cases hm : lookupAssoc name st.substitutedMap with
      | some v => simp only [hm] at hk; exact hst k hk
      | none =>
        simp only [hm] at hk
        by_cases hinv : name ∈ st.invalid
        · rw [if_pos hinv] at hk; exact hst k hk
        · rw [if_neg hinv] at hk
          cases hrefs : value.references with
          | none =>
            simp only [hrefs] at hk
            rcases mem_keys_insertAssoc hk with h' | h'
            · exact hst k h'
            · exact h' ▸ hcall
          | some refs =>
            simp only [hrefs] at hk
            by_cases hemp : refs.isEmpty
            · rw [if_pos hemp] at hk
              rcases mem_keys_insertAssoc hk with h' | h'
              · exact hst k h'
              · exact h' ▸ hcall
            · rw [if_neg hemp] at hk
              cases hb : substGo cp fuel (.block value.toks) st with
              | mk r1 st1 =>
                have hst1 : ∀ k, k ∈ keysOf st1.substitutedMap → k ∈ keysOf cp := by
                  intro k' hk'
                  exact ih (.block value.toks) st trivial hst k' (by rw [hb]; exact hk')
                simp only [hb] at hk
                cases r1 with
                | ok s =>
                  rcases mem_keys_insertAssoc hk with h' | h'
                  · exact hst1 k h'
                  · exact h' ▸ hcall
                | err => exact hst1 k hk
                | panic => exact hst1 k hk
    | block ts =>
      cases ts with
      | nil => simp only [substGo] at hk; exact hst k hk
      | cons t rest =>
        have seq2 : ∀ (c1 : SubstCall) (f : String → String → String),
            (match c1 with | .one n _ => n ∈ keysOf cp | _ => True) →
            ∀ hk' : k ∈ keysOf (match substGo cp fuel c1 st with
              | (.ok s, st') =>
                match substGo cp fuel (.block rest) st' with
                | (.ok s2, st2) => ((SubstRes.ok (f s s2) : SubstRes), st2)
                | r => r
              | r => r).2.substitutedMap, k ∈ keysOf cp := by
          intro c1 f hc1 hk'
          cases h1 : substGo cp fuel c1 st with
          | mk r1 st1 =>
            have hst1 : ∀ k, k ∈ keysOf st1.substitutedMap → k ∈ keysOf cp := by
              intro k' hx
              exact ih c1 st hc1 hst k' (by rw [h1]; exact hx)
            simp only [h1] at hk'
            cases r1 with
            | ok s =>
              cases h2 : substGo cp fuel (.block rest) st1 with
              | mk r2 st2 =>
                have hst2 : ∀ k, k ∈ keysOf st2.substitutedMap → k ∈ keysOf cp := by
                  intro k' hx
                  exact ih (.block rest) st1 trivial hst1 k' (by rw [h2]; exact hx)
                simp only [h2] at hk'
                cases r2 with
                | ok s2 => exact hst2 k hk'
                | err => exact hst2 k hk'
                | panic => exact hst2 k hk'
            | err => exact hst1 k hk'
            | panic => exact hst1 k hk'
        have single : ∀ (g : String → String),
            k ∈ keysOf (match substGo cp fuel (.block rest) st with
              | (.ok s2, st2) => ((SubstRes.ok (g s2) : SubstRes), st2)
              | r => r).2.substitutedMap → k ∈ keysOf cp := by
          intro g hk'
          cases h2 : substGo cp fuel (.block rest) st with
          | mk r2 st2 =>
            have hrec := ih (.block rest) st trivial hst k
            rw [h2] at hrec
            simp only [h2] at hk'
            cases r2 with
            | ok s2 => exact hrec hk'
            | err => exact hrec hk'
            | panic => exact hrec hk'
        cases t with
        | function n args =>
          simp only [substGo] at hk
          by_cases hv : n = "var"
          · rw [if_pos hv] at hk
            exact seq2 (.varArgs args) (fun s s2 => s ++ s2) trivial hk
          · rw [if_neg hv] at hk
            exact seq2 (.block args) (fun s s2 => n ++ "(" ++ s ++ ")" ++ s2) trivial hk
        | paren args =>
          simp only [substGo] at hk
          exact seq2 (.block args) (fun s s2 => "(" ++ s ++ ")" ++ s2) trivial hk
        | curly args =>
          simp only [substGo] at hk
          exact seq2 (.block args) (fun s s2 => "\x7b" ++ s ++ "\x7d" ++ s2) trivial hk
        | square args =>
          simp only [substGo] at hk
          exact seq2 (.block args) (fun s s2 => "[" ++ s ++ "]" ++ s2) trivial hk
        | ident s => simp only [substGo] at hk; exact single _ hk
        | comma => simp only [substGo] at hk; exact single _ hk
        | semicolon => simp only [substGo] at hk; exact single _ hk
        | delim c => simp only [substGo] at hk; exact single _ hk
        | badUrl s => simp only [substGo] at hk; exact single _ hk
        | badString s => simp only [substGo] at hk; exact single _ hk
        | closeParen => simp only [substGo] at hk; exact single _ hk
        | closeSquare => simp only [substGo] at hk; exact single _ hk
        | closeCurly => simp only [substGo] at hk; exact single _ hk
        | ws s => simp only [substGo] at hk; exact single _ hk
        | other s => simp only [substGo] at hk; exact single _ hk
    | varArgs ts =>
      simp only [substGo] at hk
      split at hk
      · split at hk
        · split at hk
          · rename_i value hcp
            exact ih (.one _ value) st (mem_keys_of_lookup_some hcp) hst k hk
          · split at hk
            · rename_i rest2 _
              exact ih (.block rest2) st trivial hst k hk
            · exact hst k hk
        · exact hst k hk
      · exact hst k hk

theorem finishState_keys (m : WorkingMap) :
    ∀ k, k ∈ keysOf (finishState m).substitutedMap → k ∈ keysOf m := by
  have gen : ∀ (l : List (Name × BorrowedValue)) (st : SubstState),
      (∀ kv ∈ l, kv.1 ∈ keysOf m) →
      (∀ k, k ∈ keysOf st.substitutedMap → k ∈ keysOf m) →
      ∀ k, k ∈ keysOf ((l.foldl
          (fun st kv => (substGo m (substFuel m) (.one kv.1 kv.2) st).2)
          st).substitutedMap) → k ∈ keysOf m := by
    intro l
    induction l with
    | nil => intro st _ hst k hk; exact hst k hk
    | cons kv rest ih =>
      intro st hmem hst k hk
      exact ih _ (fun kv' h => hmem kv' (List.mem_cons_of_mem _ h))
        (fun k' hk' => substGo_keys_subset m (substFuel m) (.one kv.1 kv.2) st
          (hmem kv (List.mem_cons_self _ _)) hst k' hk') k hk
  intro k hk
  exact gen m { substitutedMap := [], invalid := findCycles m }
    (fun kv h => List.mem_map_of_mem Prod.fst h)
    (fun k' hk' => by simp [keysOf] at hk') k hk

theorem cascade_preserves_gone {cp : Option WorkingMap}
    {inh : Option (List (Name × String))} {seen : List Name} {name : Name}
    (n' : Name) (v : DeclaredValue) {m : WorkingMap}
    (hcp : cp = some m) (hlk : lookupAssoc name m = none) (hseen : name ∈ seen) :
    (∃ m', (cascade cp inh seen n' v).1 = some m' ∧ lookupAssoc name m' = none) ∧
      name ∈ (cascade cp inh seen n' v).2 := by
  subst hcp
  by_cases hn : n' ∈ seen
  · refine ⟨⟨m, ?_, hlk⟩, ?_⟩ <;> simp [cascade, hn, hseen]
  · have hne : n' ≠ name := fun h => hn (h ▸ hseen)
    cases v with
    | value vv =>
      refine ⟨⟨insertAssoc n' { toks := vv.toks, references := some vv.references } m,
        by simp [cascade, hn], ?_⟩, ?_⟩
      · rw [lookup_insertAssoc_ne _ hne]; exact hlk
      · simp [cascade, hn]; exact Or.inr hseen
    | initial =>
      refine ⟨⟨removeAssoc n' m, by simp [cascade, hn], ?_⟩, ?_⟩
      · rw [lookup_removeAssoc_ne hne]; exact hlk
      · simp [cascade, hn]; exact Or.inr hseen
    | inherit =>
      refine ⟨⟨m, by simp [cascade, hn], hlk⟩, ?_⟩
      simp [cascade, hn]; exact Or.inr hseen

theorem cascade_fold_preserves_gone
    (inh : Option (List (Name × String))) (name : Name) :
    ∀ (decls : List (Name × DeclaredValue)) (stt : Option WorkingMap × List Name),
      (∃ m, stt.1 = some m ∧ lookupAssoc name m = none) → name ∈ stt.2 →
      (∃ m, (decls.foldl (fun acc d => cascade acc.1 inh acc.2 d.1 d.2) stt).1 = some m ∧
        lookupAssoc name m = none) := by
  intro decls
  induction decls with
  | nil => intro stt h _; exact h
  | cons d rest ih =>
    intro stt ⟨m, hm, hlk⟩ hseen
    have step := @cascade_preserves_gone stt.1 inh stt.2 name d.1 d.2 m hm hlk hseen
    obtain ⟨⟨m', hm', hlk'⟩, hseen'⟩ := step
    exact ih (cascade stt.1 inh stt.2 d.1 d.2) ⟨m', hm', hlk'⟩ hseen'

theorem cascade_initial_removes (cp : Option WorkingMap)
    (inh : Option (List (Name × String))) (seen : List Name) (name : Name)
    (hseen : name ∉ seen) (hcp : keysNodupOpt cp) (hinh : inhKeysNodup inh) :
    ∃ m', (cascade cp inh seen name .initial).1 = some m' ∧
      lookupAssoc name m' = none ∧ name ∈ (cascade cp inh seen name .initial).2 := by
  cases cp with
  | some m =>
    exact ⟨removeAssoc name m, by simp [cascade, hseen],
      lookup_removeAssoc_self hcp, by simp [cascade, hseen]⟩
  | none =>
    cases inh with
    | some l =>
      have hnd : (keysOf (l.map (fun kv => (kv.1, inheritedView kv.2)))).Nodup := by
        have he : keysOf (l.map (fun kv => (kv.1, inheritedView kv.2))) = keysOf l := by
          simp [keysOf, List.map_map]
        rw [he]
        exact hinh
      exact ⟨removeAssoc name (l.map (fun kv => (kv.1, inheritedView kv.2))),
        by simp [cascade, hseen], lookup_removeAssoc_self hnd, by simp [cascade, hseen]⟩
    | none =>
      exact ⟨removeAssoc name [], by simp [cascade, hseen],
        lookup_removeAssoc_self (by simp [keysOf]), by simp [cascade, hseen]⟩

theorem cascade_preserves_nodup (cp : Option WorkingMap)
    (inh : Option (List (Name × String))) (seen : List Name) (n' : Name)
    (v : DeclaredValue) (hcp : keysNodupOpt cp) (hinh : inhKeysNodup inh) :
    keysNodupOpt (cascade cp inh seen n' v).1 := by
  by_cases hn : n' ∈ seen
  · simpa [cascade, hn] using hcp
  · cases cp with
    | some m =>
      cases v with
      | value vv => simpa [cascade, hn, keysNodupOpt] using nodup_keys_insertAssoc hcp
      | initial => simpa [cascade, hn, keysNodupOpt] using nodup_keys_removeAssoc hcp
      | inherit => simpa [cascade, hn, keysNodupOpt] using hcp
    | none =>
      cases inh with
      | some l =>
        have hnd : (keysOf (l.map (fun kv => (kv.1, inheritedView kv.2)))).Nodup := by
          have he : keysOf (l.map (fun kv => (kv.1, inheritedView kv.2))) = keysOf l := by
            simp [keysOf, List.map_map]
          rw [he]
          exact hinh
        cases v with
        | value vv => simpa [cascade, hn, keysNodupOpt] using nodup_keys_insertAssoc hnd
        | initial => simpa [cascade, hn, keysNodupOpt] using nodup_keys_removeAssoc hnd
        | inherit => simpa [cascade, hn, keysNodupOpt] using hnd
      | none =>
        have hnd : (keysOf ([] : WorkingMap)).Nodup := by simp [keysOf]
        cases v with
        | value vv => simpa [cascade, hn, keysNodupOpt] using nodup_keys_insertAssoc hnd
        | initial => simpa [cascade, hn, keysNodupOpt] using nodup_keys_removeAssoc hnd
        | inherit => simpa [cascade, hn, keysNodupOpt] using hnd

theorem cascade_not_seen (cp : Option WorkingMap)
    (inh : Option (List (Name × String))) (seen : List Name) (n' : Name)
    (v : DeclaredValue) (name : Name) (hne : n' ≠ name) (hseen : name ∉ seen) :
    name ∉ (cascade cp inh seen n' v).2 := by
  by_cases hn : n' ∈ seen
  · simpa [cascade, hn] using hseen
  · cases v <;> simp [cascade, hn] <;> exact ⟨fun h => hne h.symm, hseen⟩

theorem cascadeAll_first_initial (inh : Option (List (Name × String))) (name : Name) :
    ∀ (decls : List (Name × DeclaredValue)) (stt : Option WorkingMap × List Name),
      inhKeysNodup inh → keysNodupOpt stt.1 → name ∉ stt.2 →
      firstDeclOf name decls = some .initial →
      ∃ m, (decls.foldl (fun acc d => cascade acc.1 inh acc.2 d.1 d.2) stt).1 = some m ∧
        lookupAssoc name m = none := by
  intro decls
  induction decls with
  | nil => intro stt _ _ _ hfirst; cases hfirst
  | cons d rest ih =>
    intro stt hinh hcp hseen hfirst
    obtain ⟨n', v⟩ := d
    by_cases hn : n' = name
    · subst hn
      have hv : v = DeclaredValue.initial := by
        simp [firstDeclOf, List.find?] at hfirst
        exact hfirst
      subst hv
      obtain ⟨m', hm', hlk', hseen'⟩ :=
        cascade_initial_removes stt.1 inh stt.2 n' hseen hcp hinh
      exact cascade_fold_preserves_gone inh n' rest _ ⟨m', hm', hlk'⟩ hseen'
    · have hfirst' : firstDeclOf name rest = some .initial := by
        simpa [firstDeclOf, List.find?, hn] using hfirst
      exact ih (cascade stt.1 inh stt.2 n' v)
        hinh (cascade_preserves_nodup stt.1 inh stt.2 n' v hcp hinh)
        (cascade_not_seen stt.1 inh stt.2 n' v name hn hseen) hfirst'

/-- Claim C6: if the first merged declaration for a name in a pass is
`UseInitial`, the name's entry is removed from the working map (a
baseline-materialized entry included), and after `finish_cascade` the
name is absent from the resulting baseline even when the parent's
baseline contained it. -/
theorem use_initial_removes (inh : Option (List (Name × String)))
    (decls : List (Name × DeclaredValue)) (name : Name)
    (hinh : inhKeysNodup inh) (hfirst : firstDeclOf name decls = some .initial) :
    ∃ m, (cascadeAll inh decls).1 = some m ∧ lookupAssoc name m = none ∧
      ∃ out, finishCascade (cascadeAll inh decls).1 inh = some out ∧
        lookupAssoc name out = none := by
  obtain ⟨m, hm, hlk⟩ :=
    cascadeAll_first_initial inh name decls (none, []) hinh trivial (by simp) hfirst
  have hm' : (cascadeAll inh decls).1 = some m := hm
  refine ⟨m, hm', hlk, (finishState m).substitutedMap, by rw [hm']; rfl, ?_⟩
  cases hlo : lookupAssoc name (finishState m).substitutedMap with
  | none => rfl
  | some v =>
    exact absurd hlk (by
      have := finishState_keys m name (mem_keys_of_lookup_some hlo)
      exact lookup_ne_none_of_mem_keys this)

/-- Witness for C6 at a concrete input: the parent baseline carries
`--p`, the pass declares `--p: initial`, and `--p` ends up gone from map
and finished baseline. -/
theorem use_initial_removes_witness :
    ∃ m, (cascadeAll (some [("p", "5px")]) [("p", DeclaredValue.initial)]).1 = some m ∧
      lookupAssoc "p" m = none ∧
      ∃ out, finishCascade (cascadeAll (some [("p", "5px")])
          [("p", DeclaredValue.initial)]).1 (some [("p", "5px")]) = some out ∧
        lookupAssoc "p" out = none :=
  use_initial_removes (some [("p", "5px")]) [("p", DeclaredValue.initial)] "p"
    (by simp [inhKeysNodup, keysOf]) rfl

theorem mem_insertName_of_mem {x y : Name} {l : List Name} (h : x ∈ l) :
    x ∈ insertName y l := by
  unfold insertName
  split
  · exact h
  · exact List.mem_append_left _ h

theorem mem_insertName_self (y : Name) (l : List Name) : y ∈ insertName y l := by
  unfold insertName
  split
  · assumption
  · exact List.mem_append_right _ (List.mem_singleton.mpr rfl)

theorem mem_of_mem_insertName {x y : Name} {l : List Name}
    (h : x ∈ insertName y l) : x = y ∨ x ∈ l := by
  unfold insertName at h
  split at h
  · exact Or.inr h
  · rcases List.mem_append.mp h with h' | h'
    · exact Or.inr h'
    · exact Or.inl (List.mem_singleton.mp h')

theorem mem_foldl_insertName_of_mem_acc {x : Name} :
    ∀ (l acc : List Name), x ∈ acc → x ∈ l.foldl (fun inv y => insertName y inv) acc := by
  intro l
  induction l with
  | nil => intro acc h; exact h
  | cons y rest ih => intro acc h; exact ih _ (mem_insertName_of_mem h)

theorem mem_foldl_insertName_of_mem {x : Name} :
    ∀ (l acc : List Name), x ∈ l → x ∈ l.foldl (fun inv y => insertName y inv) acc := by
  intro l
  induction l with
  | nil => intro acc h; cases h
  | cons y rest ih =>
    intro acc h
    rcases List.mem_cons.mp h with h' | h'
    · subst h'
      exact mem_foldl_insertName_of_mem_acc rest (insertName x acc)
        (mem_insertName_self x acc)
    · exact ih _ h'

theorem mem_acc_or_mem_of_mem_foldl_insertName {x : Name} :
    ∀ (l acc : List Name), x ∈ l.foldl (fun inv y => insertName y inv) acc →
      x ∈ acc ∨ x ∈ l := by
  intro l
  induction l with
  | nil => intro acc h; exact Or.inl h
  | cons y rest ih =>
    intro acc h
    rcases ih _ h with h' | h'
    · rcases mem_of_mem_insertName h' with h'' | h''
      · exact Or.inr (h'' ▸ List.mem_cons_self _ _)
      · exact Or.inl h''
    · exact Or.inr (List.mem_cons_of_mem _ h')

theorem positionElem_of_mem {n : Name} :
    ∀ {l : List Name}, n ∈ l → ∃ p, positionElem n l = some p := by
  intro l
  induction l with
  | nil => intro h; simp [substGo] at h
  | cons x rest ih =>
    intro h
    by_cases hx : x = n
    · exact ⟨0, by simp [positionElem, hx]⟩
    · have : n ∈ rest := by
        rcases List.mem_cons.mp h with h' | h'
        · exact absurd h'.symm hx
        · exact h'
      obtain ⟨p, hp⟩ := ih this
      exact ⟨p + 1, by simp [positionElem, hx, hp]⟩

theorem positionElem_drop_head {n : Name} :
    ∀ {l : List Name} {p : Nat}, positionElem n l = some p →
      (l.drop p).head? = some n := by
  intro l
  induction l with
  | nil => intro p h; cases h
  | cons x rest ih =>
    intro p h
    by_cases hx : x = n
    · have hp : p = 0 := by
        simp [positionElem, hx] at h
        exact h.symm
      subst hp hx
      rfl
    · simp only [positionElem, if_neg hx] at h
      cases hrec : positionElem n rest with
      | none => rw [hrec] at h; cases h
      | some q =>
        rw [hrec] at h
        cases h
        simpa using ih hrec

theorem drop_ne_nil_of_positionElem {n : Name} :
    ∀ {l : List Name} {p : Nat}, positionElem n l = some p → l.drop p ≠ [] := by
  intro l p h hd
  have := positionElem_drop_head h
  rw [hd] at this
  cases this

theorem getLast?_drop_of_ne_nil :
    ∀ (l : List Name) (p : Nat), l.drop p ≠ [] → (l.drop p).getLast? = l.getLast? := by
  intro l
  induction l with
  | nil => intro p h; simp at h
  | cons x rest ih =>
    intro p h
    cases p with
    | zero => rfl
    | succ q =>
      have h' : rest.drop q ≠ [] := by simpa using h
      have hr : rest ≠ [] := by
        intro he; subst he; simp at h'
      rw [List.drop_succ_cons, ih q h']
      cases rest with
      | nil => exact absurd rfl hr
      | cons r rs => exact (List.getLast?_cons_cons).symm

theorem stackOk_tail {m : WorkingMap} :
    ∀ {x : Name} {l : List Name}, stackOk m (x :: l) = true → stackOk m l = true := by
  intro x l h
  cases l with
  | nil => rfl
  | cons y rest =>
    simp only [stackOk, Bool.and_eq_true] at h
    exact h.2

theorem stackOk_drop {m : WorkingMap} :
    ∀ (p : Nat) {l : List Name}, stackOk m l = true → stackOk m (l.drop p) = true := by
  intro p
  induction p with
  | zero => intro l h; exact h
  | succ q ih =>
    intro l h
    cases l with
    | nil => rfl
    | cons x rest => exact ih (stackOk_tail h)

theorem stackOk_append_singleton {m : WorkingMap} {a : Name} :
    ∀ {l : List Name}, stackOk m l = true →
      (∀ last, l.getLast? = some last → refsEdge m last a = true) →
      stackOk m (l ++ [a]) = true := by
  intro l
  induction l with
  | nil => intro _ _; rfl
  | cons x rest ih =>
    intro h hlast
    cases rest with
    | nil =>
      have he : refsEdge m x a = true := hlast x rfl
      simp [stackOk, he]
    | cons y rest' =>
      simp only [stackOk, Bool.and_eq_true] at h
      have hrec := ih h.2 (fun last hl => hlast last (by
        rw [List.getLast?_cons_cons]
        exact hl))
      simp only [List.cons_append, stackOk, Bool.and_eq_true]
      constructor
      · exact h.1
      · simpa [List.cons_append] using hrec

theorem marked_onCycle {m : WorkingMap} {stack : List Name} {next last : Name} {p : Nat}
    (hok : stackOk m stack = true) (hlast : stack.getLast? = some last)
    (hedge : refsEdge m last next = true) (hp : positionElem next stack = some p) :
    ∀ x ∈ stack.drop p, onCycle m x := by
  intro x hx
  refine ⟨stack.drop p, hx, ?_⟩
  have hne := drop_ne_nil_of_positionElem hp
  have hhead := positionElem_drop_head hp
  have hlast' : (stack.drop p).getLast? = some last := by
    rw [getLast?_drop_of_ne_nil _ _ hne]; exact hlast
  simp only [loopOk, Bool.and_eq_true]
  refine ⟨stackOk_drop p hok, ?_⟩
  rw [hlast', hhead]
  exact hedge

theorem cycleGo_mono (m : WorkingMap) :
    ∀ (fuel : Nat) (call : CycleCall) (acc : List Name × List Name),
      acc.1 ⊆ (cycleGo m fuel call acc).1 ∧ acc.2 ⊆ (cycleGo m fuel call acc).2 := by
  intro fuel
  induction fuel with
  | zero => intro call acc; exact ⟨fun _ h => h, fun _ h => h⟩
  | succ fuel ih =>
    intro call acc
    cases call with
    | walk name stack =>
      simp only [cycleGo]
      split
      · exact ⟨fun _ h => h, fun _ h => h⟩
      · split
        · split
          · refine ⟨fun x hx => ?_, fun x hx => ?_⟩
            · exact (ih _ _).1 (List.mem_cons_of_mem _ hx)
            · exact (ih _ _).2 hx
          · exact ⟨fun x hx => List.mem_cons_of_mem _ hx, fun _ h => h⟩
        · exact ⟨fun x hx => List.mem_cons_of_mem _ hx, fun _ h => h⟩
    | walkRefs refs stack =>
      cases refs with
      | nil => exact ⟨fun _ h => h, fun _ h => h⟩
      | cons next rest =>
        simp only [cycleGo]
        split
        · refine ⟨fun x hx => (ih _ _).1 hx, fun x hx => (ih _ _).2 ?_⟩
          exact mem_foldl_insertName_of_mem_acc _ _ hx
        · refine ⟨fun x hx => (ih _ _).1 ((ih _ _).1 hx),
            fun x hx => (ih _ _).2 ((ih _ _).2 hx)⟩

theorem cycleGo_sound (m : WorkingMap) :
    ∀ (fuel : Nat) (call : CycleCall) (acc : List Name × List Name),
      (∀ n ∈ acc.2, onCycle m n) →
      (match call with
       | .walk name stack =>
           stackOk m stack = true ∧
           ∀ last, stack.getLast? = some last → refsEdge m last name = true
       | .walkRefs refs stack =>
           stackOk m stack = true ∧
           ∃ last, stack.getLast? = some last ∧ ∀ r ∈ refs, refsEdge m last r = true) →
      ∀ n ∈ (cycleGo m fuel call acc).2, onCycle m n := by
  intro fuel
  induction fuel with
  | zero => intro call acc hacc _ n hn; exact hacc n hn
  | succ fuel ih =>
    intro call acc hacc hcall
    cases call with
    | walk name stack =>
      obtain ⟨hok, hlast⟩ := hcall
      simp only [cycleGo]
      split
      · exact hacc
      · split
        · rename_i value hlk
          split
          · rename_i refs hrefs
            refine ih (.walkRefs refs (stack ++ [name])) (name :: acc.1, acc.2) hacc
              ⟨stackOk_append_singleton hok hlast, name, List.getLast?_concat _, ?_⟩
            intro r hr
            simp only [refsEdge, hlk, refsList, hrefs, Option.getD_some]
            exact decide_eq_true hr
          · exact hacc
        · exact hacc
    | walkRefs refs stack =>
      cases refs with
      | nil => intro n hn; exact hacc n hn
      | cons next rest =>
        obtain ⟨hok, last, hlast, hre⟩ := hcall
        simp only [cycleGo]
        split
        · rename_i p hp
          refine ih (.walkRefs rest stack) _ ?_
            ⟨hok, last, hlast, fun r hr => hre r (List.mem_cons_of_mem _ hr)⟩
          intro n hn
          rcases mem_acc_or_mem_of_mem_foldl_insertName _ _ hn with h' | h'
          · exact hacc n h'
          · exact marked_onCycle hok hlast (hre next (List.mem_cons_self _ _)) hp n h'
        · refine ih (.walkRefs rest stack) _ ?_
            ⟨hok, last, hlast, fun r hr => hre r (List.mem_cons_of_mem _ hr)⟩
          exact ih (.walk next stack) acc hacc
            ⟨hok, fun last' hl' => by
              rw [hlast] at hl'
              cases hl'
              exact hre next (List.mem_cons_self _ _)⟩

theorem findCycles_sound (m : WorkingMap) : ∀ n ∈ findCycles m, onCycle m n := by
  have gen : ∀ (l : List (Name × BorrowedValue)) (acc : List Name × List Name),
      (∀ n ∈ acc.2, onCycle m n) →
      ∀ n ∈ (l.foldl (fun acc kv => cycleGo m (cyclesFuel m) (.walk kv.1 []) acc) acc).2,
        onCycle m n := by
    intro l
    induction l with
    | nil => intro acc hacc n hn; exact hacc n hn
    | cons kv rest ihl =>
      intro acc hacc n hn
      refine ihl _ ?_ n hn
      exact cycleGo_sound m (cyclesFuel m) (.walk kv.1 []) acc hacc
        ⟨rfl, fun last h => by cases h⟩
  exact gen m ([], []) (fun n h => absurd h (List.not_mem_nil n))

theorem key_mem_univList {n : Name} {v : BorrowedValue} :
    ∀ {m : WorkingMap}, lookupAssoc n m = some v → n ∈ univList m := by
  intro m
  induction m with
  | nil => intro h; cases h
  | cons kv rest ih =>
    intro h
    obtain ⟨k, v'⟩ := kv
    by_cases he : k = n
    · subst he; exact List.mem_cons_self _ _
    · simp only [lookupAssoc, if_neg he] at h
      simp only [univList, List.foldr_cons]
      exact List.mem_cons_of_mem _ (List.mem_append_right _ (ih h))

theorem refs_length_le_univ {n : Name} {v : BorrowedValue} {rs : List Name} :
    ∀ {m : WorkingMap}, lookupAssoc n m = some v → v.references = some rs →
      rs.length ≤ (univList m).length := by
  intro m
  induction m with
  | nil => intro h; cases h
  | cons kv rest ih =>
    intro h hr
    obtain ⟨k, v'⟩ := kv
    simp only [univList, List.foldr_cons, List.length_cons, List.length_append]
    by_cases he : k = n
    · subst he
      simp only [lookupAssoc, if_pos rfl] at h
      cases h
      have : refsList v = rs := by simp [refsList, hr]
      rw [this]
      omega
    · simp only [lookupAssoc, if_neg he] at h
      have := ih h hr
      simp only [univList] at this
      omega

theorem filter_length_mono {p q : Name → Bool} (h : ∀ x, p x = true → q x = true) :
    ∀ l : List Name, (l.filter p).length ≤ (l.filter q).length := by
  intro l
  induction l with
  | nil => exact Nat.le_refl 0
  | cons x rest ih =>
    cases hp : p x with
    | true =>
      simp only [List.filter_cons, hp, h x hp, List.length_cons]
      exact Nat.succ_le_succ ih
    | false =>
      simp only [List.filter_cons, hp]
      cases hq : q x with
      | true => simp only [List.length_cons]; exact Nat.le_succ_of_le ih
      | false => exact ih

theorem filter_length_strict {p q : Name → Bool} (hmono : ∀ x, p x = true → q x = true)
    {x0 : Name} (hp : p x0 = false) (hq : q x0 = true) :
    ∀ {l : List Name}, x0 ∈ l → (l.filter p).length < (l.filter q).length := by
  intro l
  induction l with
  | nil => intro h; simp [substGo] at h
  | cons y rest ih =>
    intro hmem
    rcases List.mem_cons.mp hmem with he | he
    · subst he
      simp only [List.filter_cons, hp, hq, List.length_cons]
      exact Nat.lt_succ_of_le (filter_length_mono hmono rest)
    · cases hpy : p y with
      | true =>
        simp only [List.filter_cons, hpy, hmono y hpy, List.length_cons]
        exact Nat.succ_lt_succ (ih he)
      | false =>
        simp only [List.filter_cons, hpy]
        cases hqy : q y with
        | true => simp only [List.length_cons]; exact Nat.lt_succ_of_lt (ih he)
        | false => exact ih he

theorem unvisitedCount_le_of_subset {m : WorkingMap} {visited visited' : List Name}
    (h : visited ⊆ visited') :
    unvisitedCount m visited' ≤ unvisitedCount m visited := by
  refine filter_length_mono ?_ (univList m)
  intro x hx
  simp only [decide_eq_true_eq] at hx ⊢
  exact fun hmem => hx (h hmem)

theorem unvisitedCount_lt_insert {m : WorkingMap} {visited : List Name} {n : Name}
    (hu : n ∈ univList m) (hv : n ∉ visited) :
    unvisitedCount m (n :: visited) < unvisitedCount m visited := by
  refine filter_length_strict ?_ ?_ ?_ hu
  · intro x hx
    simp only [decide_eq_true_eq] at hx ⊢
    exact fun hmem => hx (List.mem_cons_of_mem _ hmem)
  · simp
  · simpa using hv

theorem unvisitedCount_le_univ (m : WorkingMap) (visited : List Name) :
    unvisitedCount m visited ≤ (univList m).length :=
  List.length_filter_le _ _

theorem cycleGo_walkRefs_marks (m : WorkingMap) (n : Name) :
    ∀ (rs : List Name) (fuel : Nat) (stack : List Name) (acc : List Name × List Name),
      n ∈ rs → n ∈ stack → rs.length + 1 ≤ fuel →
      n ∈ (cycleGo m fuel (.walkRefs rs stack) acc).2 := by
  intro rs
  induction rs with
  | nil => intro fuel stack acc h; cases h
  | cons r rest ih =>
    intro fuel stack acc hmem hstack hfuel
    cases fuel with
    | zero => omega
    | succ f =>
      by_cases hr : r = n
      · subst hr
        obtain ⟨p, hp⟩ := positionElem_of_mem hstack
        simp only [cycleGo, hp]
        have hmemdrop : r ∈ stack.drop p := by
          have hh := positionElem_drop_head hp
          cases hd : stack.drop p with
          | nil => rw [hd] at hh; cases hh
          | cons z zs =>
            rw [hd] at hh
            simp only [List.head?_cons, Option.some_inj] at hh
            exact hh ▸ List.mem_cons_self _ _
        exact (cycleGo_mono m f _ _).2
          (mem_foldl_insertName_of_mem _ _ hmemdrop)
      · have hrest : n ∈ rest := by
          rcases List.mem_cons.mp hmem with h' | h'
          · exact absurd h'.symm hr
          · exact h'
        cases hp : positionElem r stack with
        | some p =>
          simp only [cycleGo, hp]
          exact ih f stack _ hrest hstack (by simpa using hfuel)
        | none =>
          simp only [cycleGo, hp]
          exact ih f stack _ hrest hstack (by simpa using hfuel)

theorem cycleGo_walk_self_marks (m : WorkingMap) {n : Name} {v : BorrowedValue}
    {rs : List Name} (hlk : lookupAssoc n m = some v) (hrefs : v.references = some rs)
    (hself : n ∈ rs) :
    ∀ (fuel : Nat) (stack : List Name) (acc : List Name × List Name),
      n ∉ acc.1 → rs.length + 2 ≤ fuel →
      n ∈ (cycleGo m fuel (.walk n stack) acc).2 := by
  intro fuel stack acc hnv hfuel
  cases fuel with
  | zero => omega
  | succ f =>
    simp only [cycleGo, if_neg hnv, hlk, hrefs]
    exact cycleGo_walkRefs_marks m n rs f (stack ++ [n]) _ hself
      (List.mem_append_right _ (List.mem_singleton.mpr rfl)) (by omega)

theorem cycleGo_walk_visits (m : WorkingMap) (name : Name) (stack : List Name)
    (acc : List Name × List Name) :
    ∀ (fuel : Nat), 1 ≤ fuel → name ∈ (cycleGo m fuel (.walk name stack) acc).1 := by
  intro fuel hfuel
  cases fuel with
  | zero => omega
  | succ f =>
    simp only [cycleGo]
    by_cases hv : name ∈ acc.1
    · rw [if_pos hv]; exact hv
    · rw [if_neg hv]
      cases hlk : lookupAssoc name m with
      | none => simp only [hlk]; exact List.mem_cons_self _ _
      | some value =>
        simp only [hlk]
        cases hrefs : value.references with
        | none => simp only [hrefs]; exact List.mem_cons_self _ _
        | some refs =>
          simp only [hrefs]
          exact (cycleGo_mono m f (.walkRefs refs (stack ++ [name]))
            (name :: acc.1, acc.2)).1 (List.mem_cons_self _ _)

theorem cycleGo_selfref_K (m : WorkingMap) {n : Name} {v : BorrowedValue}
    {rs : List Name} (hlk : lookupAssoc n m = some v) (hrefs : v.references = some rs)
    (hself : n ∈ rs) :
    ∀ (fuel : Nat) (call : CycleCall) (acc : List Name × List Name),
      (match call with
       | .walk _ _ => True
       | .walkRefs refs _ => refs.length + 2 ≤ cycleK m) →
      callMeasure m call acc < fuel →
      (n ∈ acc.1 → n ∈ acc.2) →
      n ∈ (cycleGo m fuel call acc).1 → n ∈ (cycleGo m fuel call acc).2 := by
  intro fuel
  induction fuel with
  | zero => intro call acc _ hm _ _; exact absurd hm (Nat.not_lt_zero _)
  | succ fuel ih =>
    intro call acc hwf hm hK h1
    cases call with
    | walk name stack =>
      by_cases hv : name ∈ acc.1
      · simp only [cycleGo, if_pos hv] at h1 ⊢
        exact hK h1
      · simp only [cycleGo, if_neg hv] at h1 ⊢
        cases hlk2 : lookupAssoc name m with
        | none =>
          simp only [hlk2] at h1 ⊢
          rcases List.mem_cons.mp h1 with he | he
          · rw [← he] at hlk2; rw [hlk2] at hlk; cases hlk
          · exact hK he
        | some value =>
          simp only [hlk2] at h1 ⊢
          cases hrefs2 : value.references with
          | none =>
            simp only [hrefs2] at h1 ⊢
            rcases List.mem_cons.mp h1 with he | he
            · rw [← he] at hlk2
              rw [hlk] at hlk2
              have hx : v.references = none := by
                rw [Option.some_inj.mp hlk2]; exact hrefs2
              rw [hrefs] at hx
              cases hx
            · exact hK he
          | some refs2 =>
            simp only [hrefs2] at h1 ⊢
            by_cases hnn : name = n
            · rw [hnn] at hlk2 hv ⊢
              rw [hlk] at hlk2
              have hveq : v = value := Option.some_inj.mp hlk2
              have hr2 : refs2 = rs := by
                have hx : v.references = some refs2 := by rw [hveq]; exact hrefs2
                rw [hrefs] at hx
                exact (Option.some_inj.mp hx).symm
              rw [hr2]
              have hu : 1 ≤ unvisitedCount m acc.1 := by
                have hmem : n ∈ (univList m).filter (fun x => decide (x ∉ acc.1)) :=
                  List.mem_filter.mpr ⟨key_mem_univList hlk, by simpa using hv⟩
                have := List.length_pos.mpr (List.ne_nil_of_mem hmem)
                simpa [unvisitedCount] using this
              have hrb : rs.length + 3 ≤ cycleK m := by
                have := refs_length_le_univ hlk hrefs
                simp only [cycleK]
                omega
              have hmul : cycleK m ≤ unvisitedCount m acc.1 * cycleK m :=
                Nat.le_mul_of_pos_left _ hu
              simp only [callMeasure] at hm
              exact cycleGo_walkRefs_marks m n rs fuel (stack ++ [n]) _ hself
                (List.mem_append_right _ (List.mem_singleton.mpr rfl)) (by omega)
            · have hK1 : n ∈ name :: acc.1 → n ∈ acc.2 := by
                intro hmem
                rcases List.mem_cons.mp hmem with he | he
                · exact absurd he.symm hnn
                · exact hK he
              have hwf2 : refs2.length + 2 ≤ cycleK m := by
                have := refs_length_le_univ hlk2 hrefs2
                simp only [cycleK]
                omega
              have hu' : unvisitedCount m (name :: acc.1) + 1 ≤ unvisitedCount m acc.1 :=
                unvisitedCount_lt_insert (key_mem_univList hlk2) hv
              have hmul : (unvisitedCount m (name :: acc.1) + 1) * cycleK m ≤
                  unvisitedCount m acc.1 * cycleK m :=
                Nat.mul_le_mul_right _ hu'
              have hm2 : callMeasure m (.walkRefs refs2 (stack ++ [name]))
                  (name :: acc.1, acc.2) < fuel := by
                simp only [callMeasure] at hm ⊢
                have hexp : (unvisitedCount m (name :: acc.1) + 1) * cycleK m =
                    unvisitedCount m (name :: acc.1) * cycleK m + cycleK m :=
                  Nat.succ_mul _ _
                omega
              exact ih (.walkRefs refs2 (stack ++ [name])) (name :: acc.1, acc.2)
                hwf2 hm2 hK1 h1
    | walkRefs refs stack =>
      cases refs with
      | nil =>
        simp only [cycleGo] at h1 ⊢
        exact hK h1
      | cons r rest =>
        have hwf2 : rest.length + 2 ≤ cycleK m := by
          simp only [List.length_cons] at hwf
          omega
        cases hp : positionElem r stack with
        | some p =>
          simp only [cycleGo, hp] at h1 ⊢
          have hK2 : n ∈ acc.1 →
              n ∈ (stack.drop p).foldl (fun inv x => insertName x inv) acc.2 := by
            intro hmem
            exact mem_foldl_insertName_of_mem_acc _ _ (hK hmem)
          have hm2 : callMeasure m (.walkRefs rest stack)
              (acc.1, (stack.drop p).foldl (fun inv x => insertName x inv) acc.2) < fuel := by
            simp only [callMeasure] at hm ⊢
            simp only [List.length_cons] at hm
            omega
          exact ih (.walkRefs rest stack) _ hwf2 hm2 hK2 h1
        | none =>
          simp only [cycleGo, hp] at h1 ⊢
          have hmw : callMeasure m (.walk r stack) acc < fuel := by
            simp only [callMeasure] at hm ⊢
            simp only [List.length_cons] at hm
            omega
          have hK' := ih (.walk r stack) acc trivial hmw hK
          have hmono := cycleGo_mono m fuel (.walk r stack) acc
          have hu' : unvisitedCount m (cycleGo m fuel (.walk r stack) acc).1 ≤
              unvisitedCount m acc.1 :=
            unvisitedCount_le_of_subset hmono.1
          have hm2 : callMeasure m (.walkRefs rest stack)
              (cycleGo m fuel (.walk r stack) acc) < fuel := by
            simp only [callMeasure] at hm ⊢
            simp only [List.length_cons] at hm
            have := Nat.mul_le_mul_right (cycleK m) hu'
            omega
          exact ih (.walkRefs rest stack) _ hwf2 hm2 hK' h1

theorem findCycles_selfref (m : WorkingMap) {n : Name} {v : BorrowedValue}
    {rs : List Name} (hlk : lookupAssoc n m = some v) (hrefs : v.references = some rs)
    (hself : n ∈ rs) : n ∈ findCycles m := by
  have hKm : 3 ≤ cycleK m := by simp [cycleK]
  have hgen : ∀ (l : List (Name × BorrowedValue)) (acc : List Name × List Name),
      (n ∈ acc.1 → n ∈ acc.2) →
      (n ∈ acc.1 ∨ ∃ kv ∈ l, kv.1 = n) →
      n ∈ (l.foldl (fun acc kv => cycleGo m (cyclesFuel m) (.walk kv.1 []) acc) acc).2 := by
    intro l
    induction l with
    | nil =>
      intro acc hK hin
      rcases hin with h | ⟨kv, hkv, _⟩
      · exact hK h
      · cases hkv
    | cons kv rest ihl =>
      intro acc hK hin
      have hmstep : callMeasure m (.walk kv.1 []) acc < cyclesFuel m := by
        have h1 := unvisitedCount_le_univ m acc.1
        have h2 : unvisitedCount m acc.1 * cycleK m ≤ (univList m).length * cycleK m :=
          Nat.mul_le_mul_right _ h1
        simp only [callMeasure, cyclesFuel]
        have hexp : ((univList m).length + 1) * cycleK m =
            (univList m).length * cycleK m + cycleK m := Nat.succ_mul _ _
        omega
      have hK' : n ∈ (cycleGo m (cyclesFuel m) (.walk kv.1 []) acc).1 →
          n ∈ (cycleGo m (cyclesFuel m) (.walk kv.1 []) acc).2 :=
        cycleGo_selfref_K m hlk hrefs hself (cyclesFuel m) (.walk kv.1 []) acc
          trivial hmstep hK
      rcases hin with h | ⟨kv', hkv', hkn⟩
      · exact ihl _ hK' (Or.inl ((cycleGo_mono m _ _ _).1 h))
      · rcases List.mem_cons.mp hkv' with he | he
        · have hfuel : 1 ≤ cyclesFuel m := by
            simp only [cyclesFuel]
            have : 1 * 1 ≤ ((univList m).length + 1) * cycleK m :=
              Nat.mul_le_mul (by omega) (by omega)
            omega
          refine ihl _ hK' (Or.inl ?_)
          rw [← hkn, ← he]
          exact cycleGo_walk_visits m kv'.1 [] acc (cyclesFuel m) hfuel
        · exact ihl _ hK' (Or.inr ⟨kv', he, hkn⟩)
  have hex : ∃ kv ∈ m, kv.1 = n := by
    have := mem_keys_of_lookup_some hlk
    simp only [keysOf] at this
    rcases List.mem_map.mp this with ⟨kv, hkv, hn⟩
    exact ⟨kv, hkv, hn⟩
  exact hgen m ([], []) (fun h => absurd h (List.not_mem_nil n)) (Or.inr hex)

/-- Counterexample to claim C7: `find_cycles` does not mark *exactly*
the names on reference cycles.  In `cexMap` the name `a` lies on the
cycle `a → u → v → a`, but the walk reaches `u` through the chord
`v → u` first, finishes `u`, and the later edge `a → u` finds `u`
already visited and off the stack — so `a` is never invalidated. -/
theorem find_cycles_misses_cycle_member :
    onCycle cexMap "a" ∧ "a" ∉ findCycles cexMap ∧ findCycles cexMap = ["v", "u"] :=
  ⟨⟨["a", "u", "v"], by decide, by decide⟩, by decide, by decide⟩

/-- Claim C7 (amended): every name `find_cycles` marks invalid lies on a
genuine reference cycle (when the walk reaches a name already on the
path stack, the inserted stack segment is a closed loop of reference
edges); a self-reference is always detected as a one-node cycle; and a
map without cycles gets an empty invalid set (in particular a referenced
name with no map entry causes no invalidation).  A name on a cycle may
however escape marking when its cycle overlaps an already-finished
traversal, so the marked set is exactly contained in — not equal to —
the set of cycle members. -/
theorem find_cycles_sound_and_detects_self :
    (∀ (m : WorkingMap) (n : Name), n ∈ findCycles m → onCycle m n) ∧
    (∀ (m : WorkingMap) (n : Name) (v : BorrowedValue) (rs : List Name),
      lookupAssoc n m = some v → v.references = some rs → n ∈ rs →
      n ∈ findCycles m) ∧
    (∀ m : WorkingMap, (∀ n, ¬ onCycle m n) → findCycles m = []) :=
  ⟨fun m n h => findCycles_sound m n h,
   fun _ _ _ _ hlk hrefs hself => findCycles_selfref _ hlk hrefs hself,
   fun m hno => List.eq_nil_iff_forall_not_mem.mpr
     (fun n hn => hno n (findCycles_sound m n hn))⟩

/-- Witness for C7's amended claim at concrete inputs: on `cexMap` the
marked name `v` is on a cycle, and a self-referencing map marks its own
name. -/
theorem find_cycles_sound_and_detects_self_witness :
    onCycle cexMap "v" ∧
    "x" ∈ findCycles [("x", ⟨[Tok.function "var" [Tok.ident "--x"]], some ["x"]⟩)] :=
  ⟨find_cycles_sound_and_detects_self.1 cexMap "v" (by decide),
   find_cycles_sound_and_detects_self.2.1 _ "x"
     ⟨[Tok.function "var" [Tok.ident "--x"]], some ["x"]⟩ ["x"] rfl rfl (by decide)⟩

theorem lookup_pair_mem {α : Type} {k : Name} {v : α} :
    ∀ {m : List (Name × α)}, lookupAssoc k m = some v → (k, v) ∈ m := by
  intro m
  induction m with
  | nil => intro h; cases h
  | cons kv rest ih =>
    intro h
    obtain ⟨k1, v1⟩ := kv
    by_cases he : k1 = k
    · subst he
      simp only [lookupAssoc, if_pos rfl] at h
      cases h
      exact List.mem_cons_self _ _
    · simp only [lookupAssoc, if_neg he] at h
      exact List.mem_cons_of_mem _ (ih h)

theorem varsOk_of_scanGo :
    ∀ (fuel : Nat) (call : ScanCall) (refs out : List Name),
      scanGo fuel call refs = some out →
      (match call with
       | .top ts => VarsOk ts
       | .topLoop ts => VarsOk ts
       | .blockLoop ts => VarsOk ts
       | .varFn ts => ∃ s argsRest, ts.dropWhile Tok.isWs = Tok.ident s :: argsRest ∧
           hasDashDash s = true ∧
           (∀ rest2, argsRest.dropWhile Tok.isWs = Tok.comma :: rest2 → VarsOk rest2)) := by
  intro fuel
  induction fuel with
  | zero => intro call refs out h; cases h
  | succ fuel ih =>
    intro call refs out h
    cases call with
    | top ts =>
      simp only [scanGo] at h
      split at h
      · cases h
      · exact ih (.topLoop ts) refs out h
    | topLoop ts =>
      cases ts with
      | nil => exact VarsOk.nil
      | cons t rest =>
        cases t with
        | badUrl s => simp [scanGo] at h
        | badString s => simp [scanGo] at h
        | closeParen => simp [scanGo] at h
        | closeSquare => simp [scanGo] at h
        | closeCurly => simp [scanGo] at h
        | semicolon => simp [scanGo] at h
        | delim c =>
          rw [show scanGo (fuel + 1) (.topLoop (Tok.delim c :: rest)) refs =
              if c = '!' then none else scanGo fuel (.topLoop rest) refs from rfl] at h
          split at h
          · cases h
          · exact VarsOk.leaf _ _ rfl (ih (.topLoop rest) refs out h)
        | function n args =>
          by_cases hv : n = "var"
          · subst hv
            rw [show scanGo (fuel + 1) (.topLoop (Tok.function "var" args :: rest)) refs =
                match scanGo fuel (.varFn args) refs with
                | some refs2 => scanGo fuel (.topLoop rest) refs2
                | none => none from rfl] at h
            cases hva : scanGo fuel (.varFn args) refs with
            | none => rw [hva] at h; cases h
            | some refs2 =>
              rw [hva] at h
              obtain ⟨s, argsRest, heq, hdd, hfb⟩ := ih (.varFn args) refs refs2 hva
              exact VarsOk.var args rest s argsRest heq hdd hfb (ih (.topLoop rest) refs2 out h)
          · rw [show scanGo (fuel + 1) (.topLoop (Tok.function n args :: rest)) refs =
                if n = "var" then
                  match scanGo fuel (.varFn args) refs with
                  | some refs2 => scanGo fuel (.topLoop rest) refs2
                  | none => none
                else
                  match scanGo fuel (.blockLoop args) refs with
                  | some refs2 => scanGo fuel (.topLoop rest) refs2
                  | none => none from rfl, if_neg hv] at h
            cases hva : scanGo fuel (.blockLoop args) refs with
            | none => rw [hva] at h; cases h
            | some refs2 =>
              rw [hva] at h
              exact VarsOk.fn n args rest hv (ih (.blockLoop args) refs refs2 hva)
                (ih (.topLoop rest) refs2 out h)
        | paren args =>
          rw [show scanGo (fuel + 1) (.topLoop (Tok.paren args :: rest)) refs =
              match scanGo fuel (.blockLoop args) refs with
              | some refs2 => scanGo fuel (.topLoop rest) refs2
              | none => none from rfl] at h
          cases hva : scanGo fuel (.blockLoop args) refs with
          | none => rw [hva] at h; cases h
          | some refs2 =>
            rw [hva] at h
            exact VarsOk.paren args rest (ih (.blockLoop args) refs refs2 hva)
              (ih (.topLoop rest) refs2 out h)
        | curly args =>
          rw [show scanGo (fuel + 1) (.topLoop (Tok.curly args :: rest)) refs =
              match scanGo fuel (.blockLoop args) refs with
              | some refs2 => scanGo fuel (.topLoop rest) refs2
              | none => none from rfl] at h
          cases hva : scanGo fuel (.blockLoop args) refs with
          | none => rw [hva] at h; cases h
          | some refs2 =>
            rw [hva] at h
            exact VarsOk.curly args rest (ih (.blockLoop args) refs refs2 hva)
              (ih (.topLoop rest) refs2 out h)
        | square args =>
          rw [show scanGo (fuel + 1) (.topLoop (Tok.square args :: rest)) refs =
              match scanGo fuel (.blockLoop args) refs with
              | some refs2 => scanGo fuel (.topLoop rest) refs2
              | none => none from rfl] at h
          cases hva : scanGo fuel (.blockLoop args) refs with
          | none => rw [hva] at h; cases h
          | some refs2 =>
            rw [hva] at h
            exact VarsOk.square args rest (ih (.blockLoop args) refs refs2 hva)
              (ih (.topLoop rest) refs2 out h)
        | ident s => exact VarsOk.leaf _ _ rfl (ih (.topLoop rest) refs out (by simpa [scanGo] using h))
        | comma => exact VarsOk.leaf _ _ rfl (ih (.topLoop rest) refs out (by simpa [scanGo] using h))
        | ws s => exact VarsOk.leaf _ _ rfl (ih (.topLoop rest) refs out (by simpa [scanGo] using h))
        | other s => exact VarsOk.leaf _ _ rfl (ih (.topLoop rest) refs out (by simpa [scanGo] using h))
    | blockLoop ts =>
      cases ts with
      | nil => exact VarsOk.nil
      | cons t rest =>
        cases t with
        | badUrl s => simp [scanGo] at h
        | badString s => simp [scanGo] at h
        | closeParen => simp [scanGo] at h
        | closeSquare => simp [scanGo] at h
        | closeCurly => simp [scanGo] at h
        | function n args =>
          by_cases hv : n = "var"
          · subst hv
            rw [show scanGo (fuel + 1) (.blockLoop (Tok.function "var" args :: rest)) refs =
                match scanGo fuel (.varFn args) refs with
                | some refs2 => scanGo fuel (.blockLoop rest) refs2
                | none => none from rfl] at h
            cases hva : scanGo fuel (.varFn args) refs with
            | none => rw [hva] at h; cases h
            | some refs2 =>
              rw [hva] at h
              obtain ⟨s, argsRest, heq, hdd, hfb⟩ := ih (.varFn args) refs refs2 hva
              exact VarsOk.var args rest s argsRest heq hdd hfb
                (ih (.blockLoop rest) refs2 out h)
          · rw [show scanGo (fuel + 1) (.blockLoop (Tok.function n args :: rest)) refs =
                if n = "var" then
                  match scanGo fuel (.varFn args) refs with
                  | some refs2 => scanGo fuel (.blockLoop rest) refs2
                  | none => none
                else
                  match scanGo fuel (.blockLoop args) refs with
                  | some refs2 => scanGo fuel (.blockLoop rest) refs2
                  | none => none from rfl, if_neg hv] at h
            cases hva : scanGo fuel (.blockLoop args) refs with
            | none => rw [hva] at h; cases h
            | some refs2 =>
              rw [hva] at h
              exact VarsOk.fn n args rest hv (ih (.blockLoop args) refs refs2 hva)
                (ih (.blockLoop rest) refs2 out h)
        | paren args =>
          rw [show scanGo (fuel + 1) (.blockLoop (Tok.paren args :: rest)) refs =
              match scanGo fuel (.blockLoop args) refs with
              | some refs2 => scanGo fuel (.blockLoop rest) refs2
              | none => none from rfl] at h
          cases hva : scanGo fuel (.blockLoop args) refs with
          | none => rw [hva] at h; cases h
          | some refs2 =>
            rw [hva] at h
            exact VarsOk.paren args rest (ih (.blockLoop args) refs refs2 hva)
              (ih (.blockLoop rest) refs2 out h)
        | curly args =>
          rw [show scanGo (fuel + 1) (.blockLoop (Tok.curly args :: rest)) refs =
              match scanGo fuel (.blockLoop args) refs with
              | some refs2 => scanGo fuel (.blockLoop rest) refs2
              | none => none from rfl] at h
          cases hva : scanGo fuel (.blockLoop args) refs with
          | none => rw [hva] at h; cases h
          | some refs2 =>
            rw [hva] at h
            exact VarsOk.curly args rest (ih (.blockLoop args) refs refs2 hva)
              (ih (.blockLoop rest) refs2 out h)
        | square args =>
          rw [show scanGo (fuel + 1) (.blockLoop (Tok.square args :: rest)) refs =
              match scanGo fuel (.blockLoop args) refs with
              | some refs2 => scanGo fuel (.blockLoop rest) refs2
              | none => none from rfl] at h
          cases hva : scanGo fuel (.blockLoop args) refs with
          | none => rw [hva] at h; cases h
          | some refs2 =>
            rw [hva] at h
            exact VarsOk.square args rest (ih (.blockLoop args) refs refs2 hva)
              (ih (.blockLoop rest) refs2 out h)
        | ident s => exact VarsOk.leaf _ _ rfl (ih (.blockLoop rest) refs out (by simpa [scanGo] using h))
        | comma => exact VarsOk.leaf _ _ rfl (ih (.blockLoop rest) refs out (by simpa [scanGo] using h))
        | semicolon => exact VarsOk.leaf _ _ rfl (ih (.blockLoop rest) refs out (by simpa [scanGo] using h))
        | delim c => exact VarsOk.leaf _ _ rfl (ih (.blockLoop rest) refs out (by simpa [scanGo] using h))
        | ws s => exact VarsOk.leaf _ _ rfl (ih (.blockLoop rest) refs out (by simpa [scanGo] using h))
        | other s => exact VarsOk.leaf _ _ rfl (ih (.blockLoop rest) refs out (by simpa [scanGo] using h))
    | varFn ts =>
      simp only [scanGo] at h
      split at h
      · rename_i s argsRest heq
        split at h
        · rename_i hdd
          refine ⟨s, argsRest, heq, hdd, ?_⟩
          split at h
          · rename_i rest2 heq2
            intro rest2' heq2'
            rw [heq2] at heq2'
            cases heq2'
            cases hin : scanGo fuel (.top rest2) refs with
            | none => rw [hin] at h; cases h
            | some r => exact ih (.top rest2) refs r hin
          · rename_i head rest2 hnc heq2
            intro rest2' heq2'
            rw [heq2] at heq2'
            injection heq2' with hh _
            exact absurd hh hnc
          · rename_i heq2
            intro rest2' heq2'
            rw [heq2] at heq2'
            cases heq2'
        · cases h
      · cases h

theorem substGo_no_panic (cp : WorkingMap)
    (hcp : ∀ kv ∈ cp, ∀ rsl, kv.2.references = some rsl → VarsOk kv.2.toks) :
    ∀ (fuel : Nat) (call : SubstCall) (st : SubstState),
      (match call with
       | .one _ value => ∀ rsl, value.references = some rsl → VarsOk value.toks
       | .block ts => VarsOk ts
       | .varArgs ts => ∃ s argsRest, ts.dropWhile Tok.isWs = Tok.ident s :: argsRest ∧
           hasDashDash s = true ∧
           (∀ rest2, argsRest.dropWhile Tok.isWs = Tok.comma :: rest2 → VarsOk rest2)) →
      (substGo cp fuel call st).1 ≠ SubstRes.panic := by
  intro fuel
  induction fuel with
  | zero => intro call st _ h; cases h
  | succ fuel ih =>
    intro call st hcall
    cases call with
    | one name value =>
      simp only [substGo]
      split
      · intro h; simp at h
      · split
        · intro h; simp at h
        · split
          · rename_i refs hrefs
            split
            · intro h; simp at h
            · split
              · intro h; simp at h
              · intro h; simp at h
              · rename_i st1 hb
                have := ih (.block value.toks) st (hcall refs hrefs)
                rw [hb] at this
                exact absurd rfl this
          · intro h; simp at h
    | block ts =>
      cases hcall with
      | nil => intro h; simp [substGo] at h
      | var args rest s argsRest heq hdd hfb hrest =>
        simp only [substGo, if_pos rfl]
        cases h1 : substGo cp fuel (.varArgs args) st with
        | mk r1 st1 =>
          try simp only [h1]
          cases r1 with
          | ok s1 =>
            cases h2 : substGo cp fuel (.block rest) st1 with
            | mk r2 st2 =>
              try simp only [h2]
              cases r2 with
              | ok s2 => intro h; simp at h
              | err => intro h; simp at h
              | panic =>
                have := ih (.block rest) st1 hrest
                rw [h2] at this
                exact absurd rfl this
          | err => intro h; simp at h
          | panic =>
            have := ih (.varArgs args) st ⟨s, argsRest, heq, hdd, hfb⟩
            rw [h1] at this
            exact absurd rfl this
      | fn n args rest hne hargs hrest =>
        simp only [substGo, if_neg hne]
        cases h1 : substGo cp fuel (.block args) st with
        | mk r1 st1 =>
          try simp only [h1]
          cases r1 with
          | ok s1 =>
            cases h2 : substGo cp fuel (.block rest) st1 with
            | mk r2 st2 =>
              try simp only [h2]
              cases r2 with
              | ok s2 => intro h; simp at h
              | err => intro h; simp at h
              | panic =>
                have := ih (.block rest) st1 hrest
                rw [h2] at this
                exact absurd rfl this
          | err => intro h; simp at h
          | panic =>
            have := ih (.block args) st hargs
            rw [h1] at this
            exact absurd rfl this
      | paren args rest hargs hrest =>
        simp only [substGo]
        cases h1 : substGo cp fuel (.block args) st with
        | mk r1 st1 =>
          try simp only [h1]
          cases r1 with
          | ok s1 =>
            cases h2 : substGo cp fuel (.block rest) st1 with
            | mk r2 st2 =>
              try simp only [h2]
              cases r2 with
              | ok s2 => intro h; simp at h
              | err => intro h; simp at h
              | panic =>
                have := ih (.block rest) st1 hrest
                rw [h2] at this
                exact absurd rfl this
          | err => intro h; simp at h
          | panic =>
            have := ih (.block args) st hargs
            rw [h1] at this
            exact absurd rfl this
      | curly args rest hargs hrest =>
        simp only [substGo]
        cases h1 : substGo cp fuel (.block args) st with
        | mk r1 st1 =>
          try simp only [h1]
          cases r1 with
          | ok s1 =>
            cases h2 : substGo cp fuel (.block rest) st1 with
            | mk r2 st2 =>
              try simp only [h2]
              cases r2 with
              | ok s2 => intro h; simp at h
              | err => intro h; simp at h
              | panic =>
                have := ih (.block rest) st1 hrest
                rw [h2] at this
                exact absurd rfl this
          | err => intro h; simp at h
          | panic =>
            have := ih (.block args) st hargs
            rw [h1] at this
            exact absurd rfl this
      | square args rest hargs hrest =>
        simp only [substGo]
        cases h1 : substGo cp fuel (.block args) st with
        | mk r1 st1 =>
          try simp only [h1]
          cases r1 with
          | ok s1 =>
            cases h2 : substGo cp fuel (.block rest) st1 with
            | mk r2 st2 =>
              try simp only [h2]
              cases r2 with
              | ok s2 => intro h; simp at h
              | err => intro h; simp at h
              | panic =>
                have := ih (.block rest) st1 hrest
                rw [h2] at this
                exact absurd rfl this
          | err => intro h; simp at h
          | panic =>
            have := ih (.block args) st hargs
            rw [h1] at this
            exact absurd rfl this
      | leaf t rest hbl hrest =>
        cases t
        case function n args => exact absurd hbl (by simp [Tok.isBlockless])
        case paren args => exact absurd hbl (by simp [Tok.isBlockless])
        case curly args => exact absurd hbl (by simp [Tok.isBlockless])
        case square args => exact absurd hbl (by simp [Tok.isBlockless])
        all_goals
          simp only [substGo]
          cases h2 : substGo cp fuel (.block rest) st with
          | mk r2 st2 =>
            try simp only [h2]
            cases r2 with
            | ok s2 => intro h; simp at h
            | err => intro h; simp at h
            | panic =>
              have := ih (.block rest) st hrest
              rw [h2] at this
              exact absurd rfl this
    | varArgs ts =>
      obtain ⟨s, argsRest, heq, hdd, hfb⟩ := hcall
      simp only [substGo, heq, if_pos hdd]
      cases hlk : lookupAssoc (dropDashDash s) cp with
      | some value =>
        simp only [hlk]
        refine ih (.one (dropDashDash s) value) st ?_
        intro rsl hr
        exact hcp ((dropDashDash s), value) (lookup_pair_mem hlk) rsl hr
      | none =>
        simp only [hlk]
        split
        · rename_i rest2 heq2
          exact ih (.block rest2) st (hfb rest2 heq2)
        · intro h; simp at h

/-- Claim C10: when every working-map entry that carries a reference set
was produced by a successful scan, the re-scan done during substitution
never reaches the unchecked assumptions of `substitute_block`'s `var()`
handler: every `var(` interior encountered opens with a `--`-prefixed
identifier, so the `expect_ident().unwrap()` cannot panic and the debug
assertion cannot fail. -/
theorem substitution_rescan_never_panics :
    ∀ (cp : WorkingMap),
      (∀ kv ∈ cp, ∀ rsl, kv.2.references = some rsl → ∃ v, parse kv.2.toks = some v) →
      ∀ (fuel : Nat) (st : SubstState) (name : Name) (value : BorrowedValue),
        (name, value) ∈ cp →
        (substituteOne fuel name value cp st).1 ≠ SubstRes.panic := by
  intro cp hscan fuel st name value hmem
  have hcp : ∀ kv ∈ cp, ∀ rsl, kv.2.references = some rsl → VarsOk kv.2.toks := by
    intro kv hkv rsl hr
    obtain ⟨v, hv⟩ := hscan kv hkv rsl hr
    cases hd : parseDeclarationValue kv.2.toks [] with
    | none => simp [parse, hd] at hv
    | some refs =>
      exact varsOk_of_scanGo (scanFuel kv.2.toks) (.top kv.2.toks) [] refs hd
  exact substGo_no_panic cp hcp fuel (.one name value) st
    (fun rsl hr => hcp (name, value) hmem rsl hr)

/-- Witness for C10 at a concrete input: a one-entry map whose value
scans successfully; substituting it does not abort. -/
theorem substitution_rescan_never_panics_witness :
    (substituteOne 3 "g" ⟨[Tok.function "var" [Tok.ident "--h"]], some ["h"]⟩
        [("g", ⟨[Tok.function "var" [Tok.ident "--h"]], some ["h"]⟩)]
        ⟨[], []⟩).1 ≠ SubstRes.panic :=
  substitution_rescan_never_panics
    [("g", ⟨[Tok.function "var" [Tok.ident "--h"]], some ["h"]⟩)]
    (by
      intro kv hkv rsl hr
      rw [List.mem_singleton] at hkv
      subst hkv
      exact ⟨⟨[Tok.function "var" [Tok.ident "--h"]], "var(--h)", ["h"]⟩, rfl⟩)
    3 ⟨[], []⟩ "g" ⟨[Tok.function "var" [Tok.ident "--h"]], some ["h"]⟩
    (List.mem_singleton.mpr rfl)

theorem refsCovered_mono {R R' : List Name} (hsub : R ⊆ R') :
    ∀ {ts : List Tok}, RefsCovered R ts → RefsCovered R' ts := by
  intro ts h
  induction h with
  | nil => exact RefsCovered.nil
  | var args rest s argsRest heq hdd hmem hfb hrest ihfb ihrest =>
    exact RefsCovered.var args rest s argsRest heq hdd (hsub hmem)
      (fun rest2 h2 => ihfb rest2 h2) ihrest
  | fn n args rest hne hargs hrest ihargs ihrest =>
    exact RefsCovered.fn n args rest hne ihargs ihrest
  | paren args rest hargs hrest ihargs ihrest =>
    exact RefsCovered.paren args rest ihargs ihrest
  | curly args rest hargs hrest ihargs ihrest =>
    exact RefsCovered.curly args rest ihargs ihrest
  | square args rest hargs hrest ihargs ihrest =>
    exact RefsCovered.square args rest ihargs ihrest
  | leaf t rest hbl hrest ihrest =>
    exact RefsCovered.leaf t rest hbl ihrest

theorem subset_insertName (n : Name) (l : List Name) : l ⊆ insertName n l := by
  intro x hx
  exact mem_insertName_of_mem hx

theorem refsCovered_of_scanGo :
    ∀ (fuel : Nat) (call : ScanCall) (refs out : List Name),
      scanGo fuel call refs = some out →
      refs ⊆ out ∧
      (match call with
       | .top ts => RefsCovered out ts
       | .topLoop ts => RefsCovered out ts
       | .blockLoop ts => RefsCovered out ts
       | .varFn ts => ∃ s argsRest, ts.dropWhile Tok.isWs = Tok.ident s :: argsRest ∧
           hasDashDash s = true ∧ dropDashDash s ∈ out ∧
           (∀ rest2, argsRest.dropWhile Tok.isWs = Tok.comma :: rest2 →
             RefsCovered out rest2)) := by
  intro fuel
  induction fuel with
  | zero => intro call refs out h; cases h
  | succ fuel ih =>
    intro call refs out h
    cases call with
    | top ts =>
      simp only [scanGo] at h
      split at h
      · cases h
      · exact ih (.topLoop ts) refs out h
    | topLoop ts =>
      cases ts with
      | nil =>
        have h' : some refs = some out := h
        injection h' with h''
        subst h''
        exact ⟨fun x hx => hx, RefsCovered.nil⟩
      | cons t rest =>
        cases t with
        | badUrl s => simp [scanGo] at h
        | badString s => simp [scanGo] at h
        | closeParen => simp [scanGo] at h
        | closeSquare => simp [scanGo] at h
        | closeCurly => simp [scanGo] at h
        | semicolon => simp [scanGo] at h
        | delim c =>
          rw [show scanGo (fuel + 1) (.topLoop (Tok.delim c :: rest)) refs =
              if c = '!' then none else scanGo fuel (.topLoop rest) refs from rfl] at h
          split at h
          · cases h
          · obtain ⟨hsub, hrest⟩ := ih (.topLoop rest) refs out h
            exact ⟨hsub, RefsCovered.leaf _ _ rfl hrest⟩
        | function n args =>
          by_cases hv : n = "var"
          · subst hv
            rw [show scanGo (fuel + 1) (.topLoop (Tok.function "var" args :: rest)) refs =
                match scanGo fuel (.varFn args) refs with
                | some refs2 => scanGo fuel (.topLoop rest) refs2
                | none => none from rfl] at h
            cases hva : scanGo fuel (.varFn args) refs with
            | none => rw [hva] at h; cases h
            | some refs2 =>
              rw [hva] at h
              obtain ⟨hsub1, s, argsRest, heq, hdd, hmem, hfb⟩ := ih (.varFn args) refs refs2 hva
              obtain ⟨hsub2, hrest⟩ := ih (.topLoop rest) refs2 out h
              exact ⟨fun x hx => hsub2 (hsub1 hx),
                RefsCovered.var args rest s argsRest heq hdd (hsub2 hmem)
                  (fun rest2 h2 => refsCovered_mono hsub2 (hfb rest2 h2)) hrest⟩
          · rw [show scanGo (fuel + 1) (.topLoop (Tok.function n args :: rest)) refs =
                if n = "var" then
                  match scanGo fuel (.varFn args) refs with
                  | some refs2 => scanGo fuel (.topLoop rest) refs2
                  | none => none
                else
                  match scanGo fuel (.blockLoop args) refs with
                  | some refs2 => scanGo fuel (.topLoop rest) refs2
                  | none => none from rfl, if_neg hv] at h
            cases hva : scanGo fuel (.blockLoop args) refs with
            | none => rw [hva] at h; cases h
            | some refs2 =>
              rw [hva] at h
              obtain ⟨hsub1, hargs⟩ := ih (.blockLoop args) refs refs2 hva
              obtain ⟨hsub2, hrest⟩ := ih (.topLoop rest) refs2 out h
              exact ⟨fun x hx => hsub2 (hsub1 hx),
                RefsCovered.fn n args rest hv (refsCovered_mono hsub2 hargs) hrest⟩
        | paren args =>
          rw [show scanGo (fuel + 1) (.topLoop (Tok.paren args :: rest)) refs =
              match scanGo fuel (.blockLoop args) refs with
              | some refs2 => scanGo fuel (.topLoop rest) refs2
              | none => none from rfl] at h
          cases hva : scanGo fuel (.blockLoop args) refs with
          | none => rw [hva] at h; cases h
          | some refs2 =>
            rw [hva] at h
            obtain ⟨hsub1, hargs⟩ := ih (.blockLoop args) refs refs2 hva
            obtain ⟨hsub2, hrest⟩ := ih (.topLoop rest) refs2 out h
            exact ⟨fun x hx => hsub2 (hsub1 hx),
              RefsCovered.paren args rest (refsCovered_mono hsub2 hargs) hrest⟩
        | curly args =>
          rw [show scanGo (fuel + 1) (.topLoop (Tok.curly args :: rest)) refs =
              match scanGo fuel (.blockLoop args) refs with
              | some refs2 => scanGo fuel (.topLoop rest) refs2
              | none => none from rfl] at h
          cases hva : scanGo fuel (.blockLoop args) refs with
          | none => rw [hva] at h; cases h
          | some refs2 =>
            rw [hva] at h
            obtain ⟨hsub1, hargs⟩ := ih (.blockLoop args) refs refs2 hva
            obtain ⟨hsub2, hrest⟩ := ih (.topLoop rest) refs2 out h
            exact ⟨fun x hx => hsub2 (hsub1 hx),
              RefsCovered.curly args rest (refsCovered_mono hsub2 hargs) hrest⟩
        | square args =>
          rw [show scanGo (fuel + 1) (.topLoop (Tok.square args :: rest)) refs =
              match scanGo fuel (.blockLoop args) refs with
              | some refs2 => scanGo fuel (.topLoop rest) refs2
              | none => none from rfl] at h
          cases hva : scanGo fuel (.blockLoop args) refs with
          | none => rw [hva] at h; cases h
          | some refs2 =>
            rw [hva] at h
            obtain ⟨hsub1, hargs⟩ := ih (.blockLoop args) refs refs2 hva
            obtain ⟨hsub2, hrest⟩ := ih (.topLoop rest) refs2 out h
            exact ⟨fun x hx => hsub2 (hsub1 hx),
              RefsCovered.square args rest (refsCovered_mono hsub2 hargs) hrest⟩
        | ident s =>
          obtain ⟨hsub, hrest⟩ := ih (.topLoop rest) refs out (by simpa [scanGo] using h)
          exact ⟨hsub, RefsCovered.leaf _ _ rfl hrest⟩
        | comma =>
          obtain ⟨hsub, hrest⟩ := ih (.topLoop rest) refs out (by simpa [scanGo] using h)
          exact ⟨hsub, RefsCovered.leaf _ _ rfl hrest⟩
        | ws s =>
          obtain ⟨hsub, hrest⟩ := ih (.topLoop rest) refs out (by simpa [scanGo] using h)
          exact ⟨hsub, RefsCovered.leaf _ _ rfl hrest⟩
        | other s =>
          obtain ⟨hsub, hrest⟩ := ih (.topLoop rest) refs out (by simpa [scanGo] using h)
          exact ⟨hsub, RefsCovered.leaf _ _ rfl hrest⟩
    | blockLoop ts =>
      cases ts with
      | nil =>
        have h' : some refs = some out := h
        injection h' with h''
        subst h''
        exact ⟨fun x hx => hx, RefsCovered.nil⟩
      | cons t rest =>
        cases t with
        | badUrl s => simp [scanGo] at h
        | badString s => simp [scanGo] at h
        | closeParen => simp [scanGo] at h
        | closeSquare => simp [scanGo] at h
        | closeCurly => simp [scanGo] at h
        | function n args =>
          by_cases hv : n = "var"
          · subst hv
            rw [show scanGo (fuel + 1) (.blockLoop (Tok.function "var" args :: rest)) refs =
                match scanGo fuel (.varFn args) refs with
                | some refs2 => scanGo fuel (.blockLoop rest) refs2
                | none => none from rfl] at h
            cases hva : scanGo fuel (.varFn args) refs with
            | none => rw [hva] at h; cases h
            | some refs2 =>
              rw [hva] at h
              obtain ⟨hsub1, s, argsRest, heq, hdd, hmem, hfb⟩ := ih (.varFn args) refs refs2 hva
              obtain ⟨hsub2, hrest⟩ := ih (.blockLoop rest) refs2 out h
              exact ⟨fun x hx => hsub2 (hsub1 hx),
                RefsCovered.var args rest s argsRest heq hdd (hsub2 hmem)
                  (fun rest2 h2 => refsCovered_mono hsub2 (hfb rest2 h2)) hrest⟩
          · rw [show scanGo (fuel + 1) (.blockLoop (Tok.function n args :: rest)) refs =
                if n = "var" then
                  match scanGo fuel (.varFn args) refs with
                  | some refs2 => scanGo fuel (.blockLoop rest) refs2
                  | none => none
                else
                  match scanGo fuel (.blockLoop args) refs with
                  | some refs2 => scanGo fuel (.blockLoop rest) refs2
                  | none => none from rfl, if_neg hv] at h
            cases hva : scanGo fuel (.blockLoop args) refs with
            | none => rw [hva] at h; cases h
            | some refs2 =>
              rw [hva] at h
              obtain ⟨hsub1, hargs⟩ := ih (.blockLoop args) refs refs2 hva
              obtain ⟨hsub2, hrest⟩ := ih (.blockLoop rest) refs2 out h
              exact ⟨fun x hx => hsub2 (hsub1 hx),
                RefsCovered.fn n args rest hv (refsCovered_mono hsub2 hargs) hrest⟩
        | paren args =>
          rw [show scanGo (fuel + 1) (.blockLoop (Tok.paren args :: rest)) refs =
              match scanGo fuel (.blockLoop args) refs with
              | some refs2 => scanGo fuel (.blockLoop rest) refs2
              | none => none from rfl] at h
          cases hva : scanGo fuel (.blockLoop args) refs with
          | none => rw [hva] at h; cases h
          | some refs2 =>
            rw [hva] at h
            obtain ⟨hsub1, hargs⟩ := ih (.blockLoop args) refs refs2 hva
            obtain ⟨hsub2, hrest⟩ := ih (.blockLoop rest) refs2 out h
            exact ⟨fun x hx => hsub2 (hsub1 hx),
              RefsCovered.paren args rest (refsCovered_mono hsub2 hargs) hrest⟩
        | curly args =>
          rw [show scanGo (fuel + 1) (.blockLoop (Tok.curly args :: rest)) refs =
              match scanGo fuel (.blockLoop args) refs with
              | some refs2 => scanGo fuel (.blockLoop rest) refs2
              | none => none from rfl] at h
          cases hva : scanGo fuel (.blockLoop args) refs with
          | none => rw [hva] at h; cases h
          | some refs2 =>
            rw [hva] at h
            obtain ⟨hsub1, hargs⟩ := ih (.blockLoop args) refs refs2 hva
            obtain ⟨hsub2, hrest⟩ := ih (.blockLoop rest) refs2 out h
            exact ⟨fun x hx => hsub2 (hsub1 hx),
              RefsCovered.curly args rest (refsCovered_mono hsub2 hargs) hrest⟩
        | square args =>
          rw [show scanGo (fuel + 1) (.blockLoop (Tok.square args :: rest)) refs =
              match scanGo fuel (.blockLoop args) refs with
              | some refs2 => scanGo fuel (.blockLoop rest) refs2
              | none => none from rfl] at h
          cases hva : scanGo fuel (.blockLoop args) refs with
          | none => rw [hva] at h; cases h
          | some refs2 =>
            rw [hva] at h
            obtain ⟨hsub1, hargs⟩ := ih (.blockLoop args) refs refs2 hva
            obtain ⟨hsub2, hrest⟩ := ih (.blockLoop rest) refs2 out h
            exact ⟨fun x hx => hsub2 (hsub1 hx),
              RefsCovered.square args rest (refsCovered_mono hsub2 hargs) hrest⟩
        | ident s =>
          obtain ⟨hsub, hrest⟩ := ih (.blockLoop rest) refs out (by simpa [scanGo] using h)
          exact ⟨hsub, RefsCovered.leaf _ _ rfl hrest⟩
        | comma =>
          obtain ⟨hsub, hrest⟩ := ih (.blockLoop rest) refs out (by simpa [scanGo] using h)
          exact ⟨hsub, RefsCovered.leaf _ _ rfl hrest⟩
        | semicolon =>
          obtain ⟨hsub, hrest⟩ := ih (.blockLoop rest) refs out (by simpa [scanGo] using h)
          exact ⟨hsub, RefsCovered.leaf _ _ rfl hrest⟩
        | delim c =>
          obtain ⟨hsub, hrest⟩ := ih (.blockLoop rest) refs out (by simpa [scanGo] using h)
          exact ⟨hsub, RefsCovered.leaf _ _ rfl hrest⟩
        | ws s =>
          obtain ⟨hsub, hrest⟩ := ih (.blockLoop rest) refs out (by simpa [scanGo] using h)
          exact ⟨hsub, RefsCovered.leaf _ _ rfl hrest⟩
        | other s =>
          obtain ⟨hsub, hrest⟩ := ih (.blockLoop rest) refs out (by simpa [scanGo] using h)
          exact ⟨hsub, RefsCovered.leaf _ _ rfl hrest⟩
    | varFn ts =>
      simp only [scanGo] at h
      split at h
      · rename_i s argsRest heq
        split at h
        · rename_i hdd
          split at h
          · rename_i rest2 heq2
            cases hin : scanGo fuel (.top rest2) refs with
            | none => rw [hin] at h; cases h
            | some r =>
              rw [hin] at h
              have h' : some (insertName (dropDashDash s) r) = some out := h
              injection h' with hout
              obtain ⟨hsub, hrc⟩ := ih (.top rest2) refs r hin
              refine ⟨?_, s, argsRest, heq, hdd, ?_, ?_⟩
              · intro x hx
                rw [← hout]
                exact mem_insertName_of_mem (hsub hx)
              · rw [← hout]
                exact mem_insertName_self _ _
              · intro rest2' heq2'
                rw [heq2] at heq2'
                cases heq2'
                rw [← hout]
                exact refsCovered_mono (fun x hx => mem_insertName_of_mem hx) hrc
          · rename_i head rest2 hnc heq2
            split at h
            · have h' : some (insertName (dropDashDash s) refs) = some out := h
              injection h' with hout
              refine ⟨?_, s, argsRest, heq, hdd, ?_, ?_⟩
              · intro x hx
                rw [← hout]
                exact mem_insertName_of_mem hx
              · rw [← hout]
                exact mem_insertName_self _ _
              · intro rest2' heq2'
                rw [heq2] at heq2'
                injection heq2' with hh _
                exact absurd hh hnc
            · cases h
          · rename_i heq2
            have h' : some (insertName (dropDashDash s) refs) = some out := h
            injection h' with hout
            refine ⟨?_, s, argsRest, heq, hdd, ?_, ?_⟩
            · intro x hx
              rw [← hout]
              exact mem_insertName_of_mem hx
            · rw [← hout]
              exact mem_insertName_self _ _
            · intro rest2' heq2'
              rw [heq2] at heq2'
              cases heq2'
        · cases h
      · cases h

theorem mem_of_head?_eq {l : List Name} {a : Name} (h : l.head? = some a) : a ∈ l := by
  cases l with
  | nil => cases h
  | cons x xs =>
    simp only [List.head?_cons, Option.some_inj] at h
    exact h ▸ List.mem_cons_self _ _

theorem mem_of_getLast?_eq : ∀ {l : List Name} {a : Name}, l.getLast? = some a → a ∈ l := by
  intro l
  induction l with
  | nil => intro a h; cases h
  | cons x xs ih =>
    intro a h
    cases xs with
    | nil =>
      simp only [List.getLast?_singleton, Option.some_inj] at h
      exact h ▸ List.mem_cons_self _ _
    | cons y ys =>
      rw [List.getLast?_cons_cons] at h
      exact List.mem_cons_of_mem _ (ih h)

theorem refsEdge_src {m : WorkingMap} {c y : Name} (h : refsEdge m c y = true) :
    ∃ v, lookupAssoc c m = some v := by
  cases hlk : lookupAssoc c m with
  | none => simp [refsEdge, hlk] at h
  | some v => exact ⟨v, rfl⟩

theorem stackOk_src {m : WorkingMap} :
    ∀ {l : List Name}, stackOk m l = true →
      ∀ c ∈ l, (∃ y, refsEdge m c y = true) ∨ l.getLast? = some c := by
  intro l
  induction l with
  | nil => intro _ c hc; cases hc
  | cons x rest ih =>
    intro h c hc
    cases rest with
    | nil =>
      rcases List.mem_cons.mp hc with he | he
      · subst he; right; rfl
      · cases he
    | cons y ys =>
      simp only [stackOk, Bool.and_eq_true] at h
      rcases List.mem_cons.mp hc with he | he
      · subst he; left; exact ⟨y, h.1⟩
      · rcases ih h.2 c he with h' | h'
        · left; exact h'
        · right; rw [List.getLast?_cons_cons]; exact h'

theorem loopOk_src {m : WorkingMap} {seg : List Name} (h : loopOk m seg = true) :
    ∀ c ∈ seg, ∃ y, refsEdge m c y = true := by
  intro c hc
  simp only [loopOk, Bool.and_eq_true] at h
  obtain ⟨hok, hcl⟩ := h
  rcases stackOk_src hok c hc with h' | h'
  · exact h'
  · cases hh : seg.head? with
    | none =>
      have hnil : seg = [] := List.head?_eq_none_iff.mp hh
      subst hnil
      cases h'
    | some hd =>
      rw [h', hh] at hcl
      exact ⟨hd, hcl⟩

theorem stackOk_pred {m : WorkingMap} :
    ∀ {l : List Name}, stackOk m l = true →
      ∀ x ∈ l, (∃ w, w ∈ l ∧ refsEdge m w x = true) ∨ l.head? = some x := by
  intro l
  induction l with
  | nil => intro _ x hx; cases hx
  | cons a rest ih =>
    intro h x hx
    cases rest with
    | nil =>
      rcases List.mem_cons.mp hx with he | he
      · subst he; right; rfl
      · cases he
    | cons b ys =>
      simp only [stackOk, Bool.and_eq_true] at h
      rcases List.mem_cons.mp hx with he | he
      · subst he; right; rfl
      · rcases ih h.2 x he with ⟨w, hw, hedge⟩ | h'
        · left
          exact ⟨w, List.mem_cons_of_mem _ hw, hedge⟩
        · left
          have hxb : b = x := by simpa using h'
          exact ⟨a, List.mem_cons_self _ _, hxb ▸ h.1⟩

theorem loopOk_pred {m : WorkingMap} {seg : List Name} (h : loopOk m seg = true) :
    ∀ x ∈ seg, ∃ w, w ∈ seg ∧ refsEdge m w x = true := by
  intro x hx
  simp only [loopOk, Bool.and_eq_true] at h
  obtain ⟨hok, hcl⟩ := h
  rcases stackOk_pred hok x hx with h' | h'
  · exact h'
  · cases hl : seg.getLast? with
    | none =>
      have hnil : seg = [] := by
        cases seg with
        | nil => rfl
        | cons a r => simp [List.getLast?_eq_none_iff] at hl
      subst hnil
      cases hx
    | some last =>
      rw [hl, h'] at hcl
      exact ⟨last, mem_of_getLast?_eq hl, hcl⟩

theorem cycleGo_complete (m : WorkingMap) :
    ∀ (fuel : Nat) (call : CycleCall) (acc : List Name × List Name),
      callMeasure m call acc < fuel →
      (match call with
       | .walk _ _ => True
       | .walkRefs refs _ => refs.length + 2 ≤ cycleK m) →
      callStack call ⊆ acc.1 ∧ cycInv m acc (callStack call) ∧
        compInv m acc (callStack call) →
      (match call with
       | .walk name stack =>
           name ∈ (cycleGo m fuel (.walk name stack) acc).1 ∧
           cycInv m (cycleGo m fuel (.walk name stack) acc) stack ∧
           compInv m (cycleGo m fuel (.walk name stack) acc) stack ∧
           (∀ w, w ∈ (cycleGo m fuel (.walk name stack) acc).1 → w ∉ acc.1 →
             ∀ y, refsEdge m w y = true → y ∈ stack ++ [name] →
               y ∈ (cycleGo m fuel (.walk name stack) acc).2)
       | .walkRefs refs stack =>
           cycInv m (cycleGo m fuel (.walkRefs refs stack) acc) stack ∧
           compInv m (cycleGo m fuel (.walkRefs refs stack) acc) stack ∧
           (∀ w, w ∈ (cycleGo m fuel (.walkRefs refs stack) acc).1 → w ∉ acc.1 →
             ∀ y, refsEdge m w y = true → y ∈ stack →
               y ∈ (cycleGo m fuel (.walkRefs refs stack) acc).2) ∧
           (∀ y ∈ refs, y ∈ (cycleGo m fuel (.walkRefs refs stack) acc).1) ∧
           (∀ y ∈ refs, y ∈ stack → y ∈ (cycleGo m fuel (.walkRefs refs stack) acc).2)) := by
  intro fuel
  induction fuel with
  | zero => intro call acc hm _ _; exact absurd hm (Nat.not_lt_zero _)
  | succ fuel ih =>
    intro call acc hm hwf hpre
    obtain ⟨hstk, hcyc, hcomp⟩ := hpre
    cases call with
    | walk name stack =>
      simp only [callStack] at hstk hcyc hcomp
      by_cases hv : name ∈ acc.1
      · simp only [cycleGo, if_pos hv]
        exact ⟨hv, hcyc, hcomp, fun w _ hwo _ _ _ => absurd hv (by
          intro _
          exact hwo (by assumption))⟩
      · cases hlk : lookupAssoc name m with
        | none =>
          simp only [cycleGo, if_neg hv, hlk]
          refine ⟨List.mem_cons_self _ _, ?_, ?_, ?_⟩
          · intro seg hne hloop
            rcases hcyc seg hne hloop with ⟨c, hc, h1⟩ | ⟨c, hc, h2⟩ | ⟨c, hc, h3⟩
            · exact Or.inl ⟨c, hc, h1⟩
            · by_cases hcn : c = name
              · subst hcn
                obtain ⟨y, hedge⟩ := loopOk_src hloop c hc
                simp [refsEdge, hlk] at hedge
              · refine Or.inr (Or.inl ⟨c, hc, ?_⟩)
                intro hmem
                rcases List.mem_cons.mp hmem with he | he
                · exact hcn he
                · exact h2 he
            · exact Or.inr (Or.inr ⟨c, hc, h3⟩)
          · intro w hw hns y hedge
            rcases List.mem_cons.mp hw with he | he
            · subst he; simp [refsEdge, hlk] at hedge
            · exact List.mem_cons_of_mem _ (hcomp w he hns y hedge)
          · intro w hw hwo y hedge _
            rcases List.mem_cons.mp hw with he | he
            · subst he; simp [refsEdge, hlk] at hedge
            · exact absurd he hwo
        | some value =>
          cases hrefs : value.references with
          | none =>
            simp only [cycleGo, if_neg hv, hlk, hrefs]
            have hnoedge : ∀ y, refsEdge m name y = true → False := by
              intro y hedge
              simp [refsEdge, hlk, refsList, hrefs] at hedge
            refine ⟨List.mem_cons_self _ _, ?_, ?_, ?_⟩
            · intro seg hne hloop
              rcases hcyc seg hne hloop with ⟨c, hc, h1⟩ | ⟨c, hc, h2⟩ | ⟨c, hc, h3⟩
              · exact Or.inl ⟨c, hc, h1⟩
              · by_cases hcn : c = name
                · subst hcn
                  obtain ⟨y, hedge⟩ := loopOk_src hloop c hc
                  exact absurd hedge (fun h => hnoedge y h)
                · refine Or.inr (Or.inl ⟨c, hc, ?_⟩)
                  intro hmem
                  rcases List.mem_cons.mp hmem with he | he
                  · exact hcn he
                  · exact h2 he
              · exact Or.inr (Or.inr ⟨c, hc, h3⟩)
            · intro w hw hns y hedge
              rcases List.mem_cons.mp hw with he | he
              · subst he; exact absurd hedge (fun h => hnoedge y h)
              · exact List.mem_cons_of_mem _ (hcomp w he hns y hedge)
            · intro w hw hwo y hedge _
              rcases List.mem_cons.mp hw with he | he
              · subst he; exact absurd hedge (fun h => hnoedge y h)
              · exact absurd he hwo
          | some rs =>
            simp only [cycleGo, if_neg hv, hlk, hrefs]
            have hedge_rs : ∀ y, refsEdge m name y = true → y ∈ rs := by
              intro y hedge
              simpa [refsEdge, hlk, refsList, hrefs] using hedge
            have hedge_of_rs : ∀ y ∈ rs, refsEdge m name y = true := by
              intro y hy
              simp [refsEdge, hlk, refsList, hrefs]
              exact hy
            have hwf2 : rs.length + 2 ≤ cycleK m := by
              have := refs_length_le_univ hlk hrefs
              simp only [cycleK]
              omega
            have hu' : unvisitedCount m (name :: acc.1) + 1 ≤ unvisitedCount m acc.1 :=
              unvisitedCount_lt_insert (key_mem_univList hlk) hv
            have hrb : rs.length + 3 ≤ cycleK m := by
              have := refs_length_le_univ hlk hrefs
              simp only [cycleK]
              omega
            have hm2 : callMeasure m (.walkRefs rs (stack ++ [name]))
                (name :: acc.1, acc.2) < fuel := by
              simp only [callMeasure] at hm ⊢
              have hexp : (unvisitedCount m (name :: acc.1) + 1) * cycleK m =
                  unvisitedCount m (name :: acc.1) * cycleK m + cycleK m :=
                Nat.succ_mul _ _
              have hmul : (unvisitedCount m (name :: acc.1) + 1) * cycleK m ≤
                  unvisitedCount m acc.1 * cycleK m :=
                Nat.mul_le_mul_right _ hu'
              omega
            have hpre2 : callStack (.walkRefs rs (stack ++ [name])) ⊆ (name :: acc.1, acc.2).1 ∧
                cycInv m (name :: acc.1, acc.2) (callStack (.walkRefs rs (stack ++ [name]))) ∧
                compInv m (name :: acc.1, acc.2) (callStack (.walkRefs rs (stack ++ [name]))) := by
              simp only [callStack]
              refine ⟨?_, ?_, ?_⟩
              · intro x hx
                rcases List.mem_append.mp hx with h' | h'
                · exact List.mem_cons_of_mem _ (hstk h')
                · rcases List.mem_singleton.mp h' with rfl
                  exact List.mem_cons_self _ _
              · intro seg hne hloop
                rcases hcyc seg hne hloop with ⟨c, hc, h1⟩ | ⟨c, hc, h2⟩ | ⟨c, hc, h3⟩
                · exact Or.inl ⟨c, hc, h1⟩
                · by_cases hcn : c = name
                  · subst hcn
                    exact Or.inr (Or.inr ⟨c, hc,
                      List.mem_append_right _ (List.mem_singleton.mpr rfl)⟩)
                  · refine Or.inr (Or.inl ⟨c, hc, ?_⟩)
                    intro hmem
                    rcases List.mem_cons.mp hmem with he | he
                    · exact hcn he
                    · exact h2 he
                · exact Or.inr (Or.inr ⟨c, hc, List.mem_append_left _ h3⟩)
              · intro w hw hns y hedge
                have hwst : w ∉ stack := fun h => hns (List.mem_append_left _ h)
                have hwn : w ≠ name := fun h =>
                  hns (List.mem_append_right _ (List.mem_singleton.mpr h))
                rcases List.mem_cons.mp hw with he | he
                · exact absurd he hwn
                · exact List.mem_cons_of_mem _ (hcomp w he hwst y hedge)
            have hsub := ih (.walkRefs rs (stack ++ [name])) (name :: acc.1, acc.2)
              hm2 hwf2 hpre2
            obtain ⟨hcyc2, hcomp2, hnv2, hdone2, hsm2⟩ := hsub
            have hmono := cycleGo_mono m fuel (.walkRefs rs (stack ++ [name]))
              (name :: acc.1, acc.2)
            refine ⟨hmono.1 (List.mem_cons_self _ _), ?_, ?_, ?_⟩
            · -- cycInv w.r.t. the popped stack
              intro seg hne hloop
              rcases hcyc2 seg hne hloop with ⟨c, hc, h1⟩ | ⟨c, hc, h2⟩ | ⟨c, hc, h3⟩
              · exact Or.inl ⟨c, hc, h1⟩
              · exact Or.inr (Or.inl ⟨c, hc, h2⟩)
              · rcases List.mem_append.mp h3 with h' | h'
                · exact Or.inr (Or.inr ⟨c, hc, h'⟩)
                · rcases List.mem_singleton.mp h' with rfl
                  -- the popped name is the witness: use its loop predecessor
                  obtain ⟨w, hwseg, hedge⟩ := loopOk_pred hloop c hc
                  by_cases hw1 : w ∈ (cycleGo m fuel
                      (.walkRefs rs (stack ++ [c])) (c :: acc.1, acc.2)).1
                  · by_cases hwold : w ∈ acc.1
                    · by_cases hws : w ∈ stack
                      · exact Or.inr (Or.inr ⟨w, hwseg, hws⟩)
                      · exact absurd (hcomp w hwold hws c hedge) hv
                    · by_cases hwn : w = c
                      · subst hwn
                        have : w ∈ rs := hedge_rs w hedge
                        exact Or.inl ⟨w, hwseg, hsm2 w this
                          (List.mem_append_right _ (List.mem_singleton.mpr rfl))⟩
                      · have hwnot1 : w ∉ c :: acc.1 := by
                          intro hmem
                          rcases List.mem_cons.mp hmem with he | he
                          · exact hwn he
                          · exact hwold he
                        exact Or.inl ⟨c, hc, hnv2 w hw1 hwnot1 c hedge
                          (List.mem_append_right _ (List.mem_singleton.mpr rfl))⟩
                  · exact Or.inr (Or.inl ⟨w, hwseg, hw1⟩)
            · -- compInv w.r.t. the popped stack
              intro w hw hns y hedge
              by_cases hwn : w = name
              · subst hwn
                exact hdone2 y (hedge_rs y hedge)
              · have hns2 : w ∉ stack ++ [name] := by
                  intro hmem
                  rcases List.mem_append.mp hmem with h' | h'
                  · exact hns h'
                  · exact hwn (List.mem_singleton.mp h')
                exact hcomp2 w hw hns2 y hedge
            · -- new-visit marking
              intro w hw hwo y hedge hymem
              by_cases hwn : w = name
              · subst hwn
                exact hsm2 y (hedge_rs y hedge) hymem
              · have hwnot1 : w ∉ name :: acc.1 := by
                  intro hmem
                  rcases List.mem_cons.mp hmem with he | he
                  · exact hwn he
                  · exact hwo he
                exact hnv2 w hw hwnot1 y hedge hymem
    | walkRefs refs stack =>
      simp only [callStack] at hstk hcyc hcomp
      cases refs with
      | nil =>
        simp only [cycleGo]
        refine ⟨hcyc, hcomp, ?_, ?_, ?_⟩
        · intro w hw hwo _ _ _
          exact absurd hw hwo
        · intro y hy; cases hy
        · intro y hy; cases hy
      | cons next rest =>
        have hwfrest : rest.length + 2 ≤ cycleK m := by
          simp only [List.length_cons] at hwf
          omega
        cases hp : positionElem next stack with
        | some p =>
          simp only [cycleGo, hp]
          have hmemdrop : next ∈ stack.drop p := by
            have hh := positionElem_drop_head hp
            cases hd : stack.drop p with
            | nil => rw [hd] at hh; cases hh
            | cons z zs =>
              rw [hd] at hh
              simp only [List.head?_cons, Option.some_inj] at hh
              exact List.mem_cons.mpr (Or.inl hh.symm)
          have hnextstack : next ∈ stack := List.mem_of_mem_drop hmemdrop
          have hnextmark : next ∈ (stack.drop p).foldl
              (fun inv x => insertName x inv) acc.2 :=
            mem_foldl_insertName_of_mem _ _ hmemdrop
          have hm2 : callMeasure m (.walkRefs rest stack)
              (acc.1, (stack.drop p).foldl (fun inv x => insertName x inv) acc.2) < fuel := by
            simp only [callMeasure, List.length_cons] at hm ⊢
            omega
          have hpre2 : callStack (.walkRefs rest stack) ⊆ acc.1 ∧
              cycInv m (acc.1, (stack.drop p).foldl (fun inv x => insertName x inv) acc.2)
                (callStack (.walkRefs rest stack)) ∧
              compInv m (acc.1, (stack.drop p).foldl (fun inv x => insertName x inv) acc.2)
                (callStack (.walkRefs rest stack)) := by
            simp only [callStack]
            refine ⟨hstk, ?_, ?_⟩
            · intro seg hne hloop
              rcases hcyc seg hne hloop with ⟨c, hc, h1⟩ | ⟨c, hc, h2⟩ | ⟨c, hc, h3⟩
              · exact Or.inl ⟨c, hc, mem_foldl_insertName_of_mem_acc _ _ h1⟩
              · exact Or.inr (Or.inl ⟨c, hc, h2⟩)
              · exact Or.inr (Or.inr ⟨c, hc, h3⟩)
            · exact hcomp
          have hsub := ih (.walkRefs rest stack) _ hm2 hwfrest hpre2
          obtain ⟨hcyc2, hcomp2, hnv2, hdone2, hsm2⟩ := hsub
          have hmono := cycleGo_mono m fuel (.walkRefs rest stack)
            (acc.1, (stack.drop p).foldl (fun inv x => insertName x inv) acc.2)
          refine ⟨hcyc2, hcomp2, ?_, ?_, ?_⟩
          · intro w hw hwo y hedge hymem
            exact hnv2 w hw hwo y hedge hymem
          · intro y hy
            rcases List.mem_cons.mp hy with he | he
            · subst he
              exact hmono.1 (hstk hnextstack)
            · exact hdone2 y he
          · intro y hy hystack
            rcases List.mem_cons.mp hy with he | he
            · subst he
              exact hmono.2 hnextmark
            · exact hsm2 y he hystack
        | none =>
          simp only [cycleGo, hp]
          have hmw : callMeasure m (.walk next stack) acc < fuel := by
            simp only [callMeasure, List.length_cons] at hm ⊢
            omega
          have hsubw := ih (.walk next stack) acc hmw trivial
            (by simp only [callStack]; exact ⟨hstk, hcyc, hcomp⟩)
          obtain ⟨hnext1, hcycW, hcompW, hnvW⟩ := hsubw
          have hmonoW := cycleGo_mono m fuel (.walk next stack) acc
          have huW : unvisitedCount m (cycleGo m fuel (.walk next stack) acc).1 ≤
              unvisitedCount m acc.1 :=
            unvisitedCount_le_of_subset hmonoW.1
          have hm2 : callMeasure m (.walkRefs rest stack)
              (cycleGo m fuel (.walk next stack) acc) < fuel := by
            simp only [callMeasure, List.length_cons] at hm ⊢
            have := Nat.mul_le_mul_right (cycleK m) huW
            omega
          have hpre2 : callStack (.walkRefs rest stack) ⊆
              (cycleGo m fuel (.walk next stack) acc).1 ∧
              cycInv m (cycleGo m fuel (.walk next stack) acc)
                (callStack (.walkRefs rest stack)) ∧
              compInv m (cycleGo m fuel (.walk next stack) acc)
                (callStack (.walkRefs rest stack)) := by
            simp only [callStack]
            exact ⟨fun x hx => hmonoW.1 (hstk hx), hcycW, hcompW⟩
          have hsub := ih (.walkRefs rest stack) _ hm2 hwfrest hpre2
          obtain ⟨hcyc2, hcomp2, hnv2, hdone2, hsm2⟩ := hsub
          have hmono2 := cycleGo_mono m fuel (.walkRefs rest stack)
            (cycleGo m fuel (.walk next stack) acc)
          refine ⟨hcyc2, hcomp2, ?_, ?_, ?_⟩
          · intro w hw hwo y hedge hymem
            by_cases hwW : w ∈ (cycleGo m fuel (.walk next stack) acc).1
            · exact hmono2.2 (hnvW w hwW hwo y hedge (List.mem_append_left _ hymem))
            · exact hnv2 w hw hwW y hedge hymem
          · intro y hy
            rcases List.mem_cons.mp hy with he | he
            · subst he
              exact hmono2.1 hnext1
            · exact hdone2 y he
          · intro y hy hystack
            rcases List.mem_cons.mp hy with he | he
            · subst he
              obtain ⟨p, hp'⟩ := positionElem_of_mem hystack
              rw [hp'] at hp
              cases hp
            · exact hsm2 y he hystack

theorem findCycles_complete (m : WorkingMap) :
    ∀ seg, seg ≠ [] → loopOk m seg = true → ∃ c ∈ seg, c ∈ findCycles m := by
  have hgen : ∀ (l : List (Name × BorrowedValue)) (acc : List Name × List Name),
      cycInv m acc [] → compInv m acc [] →
      cycInv m (l.foldl (fun acc kv => cycleGo m (cyclesFuel m) (.walk kv.1 []) acc) acc) [] ∧
      compInv m (l.foldl (fun acc kv => cycleGo m (cyclesFuel m) (.walk kv.1 []) acc) acc) [] ∧
      acc.1 ⊆ (l.foldl (fun acc kv => cycleGo m (cyclesFuel m) (.walk kv.1 []) acc) acc).1 ∧
      (∀ kv ∈ l, kv.1 ∈
        (l.foldl (fun acc kv => cycleGo m (cyclesFuel m) (.walk kv.1 []) acc) acc).1) := by
    intro l
    induction l with
    | nil =>
      intro acc hcyc hcomp
      exact ⟨hcyc, hcomp, fun _ h => h, fun kv h => absurd h (List.not_mem_nil _)⟩
    | cons kv rest ihl =>
      intro acc hcyc hcomp
      have hmstep : callMeasure m (.walk kv.1 []) acc < cyclesFuel m := by
        have h1 := unvisitedCount_le_univ m acc.1
        have h2 : unvisitedCount m acc.1 * cycleK m ≤ (univList m).length * cycleK m :=
          Nat.mul_le_mul_right _ h1
        simp only [callMeasure, cyclesFuel]
        have hexp : ((univList m).length + 1) * cycleK m =
            (univList m).length * cycleK m + cycleK m := Nat.succ_mul _ _
        have hK : 3 ≤ cycleK m := by simp [cycleK]
        omega
      have hstep := cycleGo_complete m (cyclesFuel m) (.walk kv.1 []) acc hmstep trivial
        (by
          simp only [callStack]
          exact ⟨fun x hx => absurd hx (List.not_mem_nil x), hcyc, hcomp⟩)
      obtain ⟨hk1, hcyc1, hcomp1, _⟩ := hstep
      have hrest := ihl (cycleGo m (cyclesFuel m) (.walk kv.1 []) acc) hcyc1 hcomp1
      obtain ⟨hcycF, hcompF, hsubF, hkeysF⟩ := hrest
      refine ⟨hcycF, hcompF, ?_, ?_⟩
      · intro x hx
        exact hsubF ((cycleGo_mono m _ _ _).1 hx)
      · intro kv' hkv'
        rcases List.mem_cons.mp hkv' with he | he
        · subst he
          exact hsubF hk1
        · exact hkeysF kv' he
  have hcyc0 : cycInv m ([], []) [] := by
    intro seg hne _
    obtain ⟨c, hc⟩ := List.exists_mem_of_ne_nil seg hne
    exact Or.inr (Or.inl ⟨c, hc, List.not_mem_nil c⟩)
  have hcomp0 : compInv m ([], []) [] := by
    intro w hw
    cases hw
  obtain ⟨hcycF, hcompF, hsubF, hkeysF⟩ := hgen m ([], []) hcyc0 hcomp0
  intro seg hne hloop
  rcases hcycF seg hne hloop with ⟨c, hc, h1⟩ | ⟨c, hc, h2⟩ | ⟨c, hc, h3⟩
  · exact ⟨c, hc, h1⟩
  · obtain ⟨y, hedge⟩ := loopOk_src hloop c hc
    obtain ⟨v, hlk⟩ := refsEdge_src hedge
    exact absurd (hkeysF (c, v) (lookup_pair_mem hlk)) h2
  · cases h3

theorem substGo_invalid_stable (cp : WorkingMap) :
    ∀ (fuel : Nat) (call : SubstCall) (st : SubstState),
      st.invalid ⊆ (substGo cp fuel call st).2.invalid ∧
      (∀ n, n ∈ st.invalid →
        lookupAssoc n (substGo cp fuel call st).2.substitutedMap =
          lookupAssoc n st.substitutedMap) := by
  intro fuel
  induction fuel with
  | zero => intro call st; exact ⟨fun _ h => h, fun _ _ => rfl⟩
  | succ fuel ih =>
    intro call st
    cases call with
    | one name value =>
      cases hm : lookupAssoc name st.substitutedMap with
      | some v =>
        simp only [substGo, hm]
        exact ⟨fun _ h => h, fun _ _ => by trivial⟩
      | none =>
        by_cases hinv : name ∈ st.invalid
        · simp only [substGo, hm, if_pos hinv]
          exact ⟨fun _ h => h, fun _ _ => by trivial⟩
        · cases hrefs : value.references with
          | none =>
            simp only [substGo, hm, if_neg hinv, hrefs]
            refine ⟨fun _ h => h, fun n hn => ?_⟩
            have hne : name ≠ n := fun he => hinv (by rw [he]; exact hn)
            exact lookup_insertAssoc_ne _ hne _
          | some refs =>
            by_cases hemp : refs.isEmpty
            · simp only [substGo, hm, if_neg hinv, hrefs, if_pos hemp]
              refine ⟨fun _ h => h, fun n hn => ?_⟩
              have hne : name ≠ n := fun he => hinv (by rw [he]; exact hn)
              exact lookup_insertAssoc_ne _ hne _
            · simp only [substGo, hm, if_neg hinv, hrefs, if_neg hemp]
              cases hb : substGo cp fuel (.block value.toks) st with
              | mk r1 st1 =>
                have hih := ih (.block value.toks) st
                rw [hb] at hih
                cases r1 with
                | ok s =>
                  refine ⟨fun x hx => hih.1 hx, fun n hn => ?_⟩
                  have hne : name ≠ n := fun he => hinv (by rw [he]; exact hn)
                  rw [lookup_insertAssoc_ne _ hne]
                  exact hih.2 n hn
                | err =>
                  refine ⟨fun x hx => mem_insertName_of_mem (hih.1 hx), fun n hn => hih.2 n hn⟩
                | panic => exact hih
    | block ts =>
      cases ts with
      | nil =>
        simp only [substGo]
        exact ⟨fun _ h => h, fun _ _ => by trivial⟩
      | cons t rest =>
        have seq2 : ∀ (c1 : SubstCall) (f : String → String → String),
            st.invalid ⊆ (match substGo cp fuel c1 st with
              | (.ok s, st') =>
                match substGo cp fuel (.block rest) st' with
                | (.ok s2, st2) => ((SubstRes.ok (f s s2) : SubstRes), st2)
                | r => r
              | r => r).2.invalid ∧
            (∀ n, n ∈ st.invalid →
              lookupAssoc n (match substGo cp fuel c1 st with
                | (.ok s, st') =>
                  match substGo cp fuel (.block rest) st' with
                  | (.ok s2, st2) => ((SubstRes.ok (f s s2) : SubstRes), st2)
                  | r => r
                | r => r).2.substitutedMap = lookupAssoc n st.substitutedMap) := by
          intro c1 f
          cases h1 : substGo cp fuel c1 st with
          | mk r1 st1 =>
            have hih1 := ih c1 st
            rw [h1] at hih1
            cases r1 with
            | ok s =>
              cases h2 : substGo cp fuel (.block rest) st1 with
              | mk r2 st2 =>
                have hih2 := ih (.block rest) st1
                rw [h2] at hih2
                simp only [h2]
                cases r2 with
                | ok s2 =>
                  exact ⟨fun x hx => hih2.1 (hih1.1 hx), fun n hn => by
                    have he2 := hih2.2 n (hih1.1 hn)
                    have he1 := hih1.2 n hn
                    exact he2.trans he1⟩
                | err =>
                  exact ⟨fun x hx => hih2.1 (hih1.1 hx), fun n hn => by
                    have he2 := hih2.2 n (hih1.1 hn)
                    have he1 := hih1.2 n hn
                    exact he2.trans he1⟩
                | panic =>
                  exact ⟨fun x hx => hih2.1 (hih1.1 hx), fun n hn => by
                    have he2 := hih2.2 n (hih1.1 hn)
                    have he1 := hih1.2 n hn
                    exact he2.trans he1⟩
            | err => exact hih1
            | panic => exact hih1
        have single : ∀ (g : String → String),
            st.invalid ⊆ (match substGo cp fuel (.block rest) st with
              | (.ok s2, st2) => ((SubstRes.ok (g s2) : SubstRes), st2)
              | r => r).2.invalid ∧
            (∀ n, n ∈ st.invalid →
              lookupAssoc n (match substGo cp fuel (.block rest) st with
                | (.ok s2, st2) => ((SubstRes.ok (g s2) : SubstRes), st2)
                | r => r).2.substitutedMap = lookupAssoc n st.substitutedMap) := by
          intro g
          cases h2 : substGo cp fuel (.block rest) st with
          | mk r2 st2 =>
            have hih2 := ih (.block rest) st
            rw [h2] at hih2
            cases r2 with
            | ok s2 => exact hih2
            | err => exact hih2
            | panic => exact hih2
        cases t with
        | function n args =>
          by_cases hv : n = "var"
          · simp only [substGo, if_pos hv]
            exact seq2 (.varArgs args) (fun s s2 => s ++ s2)
          · simp only [substGo, if_neg hv]
            exact seq2 (.block args) (fun s s2 => n ++ "(" ++ s ++ ")" ++ s2)
        | paren args =>
          simp only [substGo]
          exact seq2 (.block args) (fun s s2 => "(" ++ s ++ ")" ++ s2)
        | curly args =>
          simp only [substGo]
          exact seq2 (.block args) (fun s s2 => "\x7b" ++ s ++ "\x7d" ++ s2)
        | square args =>
          simp only [substGo]
          exact seq2 (.block args) (fun s s2 => "[" ++ s ++ "]" ++ s2)
        | ident s => simp only [substGo]; exact single _
        | comma => simp only [substGo]; exact single _
        | semicolon => simp only [substGo]; exact single _
        | delim c => simp only [substGo]; exact single _
        | badUrl s => simp only [substGo]; exact single _
        | badString s => simp only [substGo]; exact single _
        | closeParen => simp only [substGo]; exact single _
        | closeSquare => simp only [substGo]; exact single _
        | closeCurly => simp only [substGo]; exact single _
        | ws s => simp only [substGo]; exact single _
        | other s => simp only [substGo]; exact single _
    | varArgs ts =>
      simp only [substGo]
      split
      · split
        · split
          · rename_i value hcp
            exact ih (.one _ value) st
          · split
            · rename_i rest2 _
              exact ih (.block rest2) st
            · exact ⟨fun _ h => h, fun _ _ => rfl⟩
        · exact ⟨fun _ h => h, fun _ _ => rfl⟩
      · exact ⟨fun _ h => h, fun _ _ => rfl⟩

theorem substGo_ok_invalid (cp : WorkingMap) :
    ∀ (fuel : Nat) (call : SubstCall) (st : SubstState) (s : String),
      (substGo cp fuel call st).1 = SubstRes.ok s →
      (substGo cp fuel call st).2.invalid = st.invalid := by
  intro fuel
  induction fuel with
  | zero => intro call st s h; simp [substGo] at h
  | succ fuel ih =>
    intro call st s h
    cases call with
    | one name value =>
      cases hm : lookupAssoc name st.substitutedMap with
      | some v => simp only [substGo, hm]
      | none =>
        by_cases hinv : name ∈ st.invalid
        · simp only [substGo, hm, if_pos hinv] at h
          cases h
        · cases hrefs : value.references with
          | none => simp only [substGo, hm, if_neg hinv, hrefs]
          | some refs =>
            by_cases hemp : refs.isEmpty
            · simp only [substGo, hm, if_neg hinv, hrefs, if_pos hemp]
            · simp only [substGo, hm, if_neg hinv, hrefs, if_neg hemp] at h ⊢
              cases hb : substGo cp fuel (.block value.toks) st with
              | mk r1 st1 =>
                simp only [hb] at h ⊢
                cases r1 with
                | ok s1 =>
                  have := ih (.block value.toks) st s1 (by rw [hb])
                  rw [hb] at this
                  exact this
                | err => cases h
                | panic => cases h
    | block ts =>
      cases ts with
      | nil => simp only [substGo]
      | cons t rest =>
        have seq2 : ∀ (c1 : SubstCall) (f : String → String → String),
            (match substGo cp fuel c1 st with
              | (.ok s1, st') =>
                match substGo cp fuel (.block rest) st' with
                | (.ok s2, st2) => ((SubstRes.ok (f s1 s2) : SubstRes), st2)
                | r => r
              | r => r).1 = SubstRes.ok s →
            (match substGo cp fuel c1 st with
              | (.ok s1, st') =>
                match substGo cp fuel (.block rest) st' with
                | (.ok s2, st2) => ((SubstRes.ok (f s1 s2) : SubstRes), st2)
                | r => r
              | r => r).2.invalid = st.invalid := by
          intro c1 f hs
          cases h1 : substGo cp fuel c1 st with
          | mk r1 st1 =>
            simp only [h1] at hs ⊢
            cases r1 with
            | ok s1 =>
              cases h2 : substGo cp fuel (.block rest) st1 with
              | mk r2 st2 =>
                simp only [h2] at hs ⊢
                cases r2 with
                | ok s2 =>
                  have e2 := ih (.block rest) st1 s2 (by rw [h2])
                  rw [h2] at e2
                  have e1 := ih c1 st s1 (by rw [h1])
                  rw [h1] at e1
                  exact e2.trans e1
                | err => cases hs
                | panic => cases hs
            | err => cases hs
            | panic => cases hs
        have single : ∀ (g : String → String),
            (match substGo cp fuel (.block rest) st with
              | (.ok s2, st2) => ((SubstRes.ok (g s2) : SubstRes), st2)
              | r => r).1 = SubstRes.ok s →
            (match substGo cp fuel (.block rest) st with
              | (.ok s2, st2) => ((SubstRes.ok (g s2) : SubstRes), st2)
              | r => r).2.invalid = st.invalid := by
          intro g hs
          cases h2 : substGo cp fuel (.block rest) st with
          | mk r2 st2 =>
            simp only [h2] at hs ⊢
            cases r2 with
            | ok s2 =>
              have e2 := ih (.block rest) st s2 (by rw [h2])
              rw [h2] at e2
              exact e2
            | err => cases hs
            | panic => cases hs
        cases t with
        | function n args =>
          by_cases hv : n = "var"
          · simp only [substGo, if_pos hv] at h ⊢
            exact seq2 (.varArgs args) (fun s1 s2 => s1 ++ s2) h
          · simp only [substGo, if_neg hv] at h ⊢
            exact seq2 (.block args) (fun s1 s2 => n ++ "(" ++ s1 ++ ")" ++ s2) h
        | paren args =>
          simp only [substGo] at h ⊢
          exact seq2 (.block args) (fun s1 s2 => "(" ++ s1 ++ ")" ++ s2) h
        | curly args =>
          simp only [substGo] at h ⊢
          exact seq2 (.block args) (fun s1 s2 => "\x7b" ++ s1 ++ "\x7d" ++ s2) h
        | square args =>
          simp only [substGo] at h ⊢
          exact seq2 (.block args) (fun s1 s2 => "[" ++ s1 ++ "]" ++ s2) h
        | ident s' => simp only [substGo] at h ⊢; exact single _ h
        | comma => simp only [substGo] at h ⊢; exact single _ h
        | semicolon => simp only [substGo] at h ⊢; exact single _ h
        | delim c => simp only [substGo] at h ⊢; exact single _ h
        | badUrl s' => simp only [substGo] at h ⊢; exact single _ h
        | badString s' => simp only [substGo] at h ⊢; exact single _ h
        | closeParen => simp only [substGo] at h ⊢; exact single _ h
        | closeSquare => simp only [substGo] at h ⊢; exact single _ h
        | closeCurly => simp only [substGo] at h ⊢; exact single _ h
        | ws s' => simp only [substGo] at h ⊢; exact single _ h
        | other s' => simp only [substGo] at h ⊢; exact single _ h
    | varArgs ts =>
      simp only [substGo] at h ⊢
      split at h
      · split at h
        · rename_i hdd
          rw [if_pos hdd]
          split at h
          · rename_i value hcp
            exact ih (.one _ value) st s h
          · split at h
            · rename_i rest2 heq2
              exact ih (.block rest2) st s h
            · cases h
        · cases h
      · cases h

theorem stackOk_suffix {m : WorkingMap} :
    ∀ (A l : List Name), stackOk m (A ++ l) = true → stackOk m l = true := by
  intro A
  induction A with
  | nil => intro l h; exact h
  | cons a A' ih => intro l h; exact ih l (stackOk_tail h)

theorem getLast?_append_cons :
    ∀ (A : List Name) (x : Name) (B : List Name),
      (A ++ x :: B).getLast? = (x :: B).getLast? := by
  intro A
  induction A with
  | nil => intro x B; rfl
  | cons a A' ih =>
    intro x B
    rw [List.cons_append]
    cases hA : A' ++ x :: B with
    | nil => exact absurd hA (by simp)
    | cons y ys =>
      rw [List.getLast?_cons_cons, ← hA]
      exact ih x B

theorem cycHit_mono {cp : WorkingMap} {st st' : SubstState}
    (hsub : st.invalid ⊆ st'.invalid) (h : cycHit cp st) : cycHit cp st' := by
  intro seg hne hl
  obtain ⟨c, hc1, hc2⟩ := h seg hne hl
  exact ⟨c, hc1, hsub hc2⟩

theorem refsCovered_of_entry {cp : WorkingMap} (hscan : entriesScanned cp)
    {name : Name} {value : BorrowedValue} {refs : List Name}
    (hlk : lookupAssoc name cp = some value) (hrefs : value.references = some refs) :
    RefsCovered (refsList value) value.toks := by
  obtain ⟨val, hparse, hvr⟩ := hscan (name, value) (lookup_pair_mem hlk) refs hrefs
  simp only [parse] at hparse
  cases hpd : parseDeclarationValue value.toks [] with
  | none => rw [hpd] at hparse; cases hparse
  | some out =>
    rw [hpd] at hparse
    injection hparse with hval
    have hout : out = refs := by rw [← hval] at hvr; exact hvr
    have hrc := (refsCovered_of_scanGo (scanFuel value.toks) (.top value.toks) [] out hpd).2
    have hrl : refsList value = refs := by simp [refsList, hrefs]
    rw [hrl, ← hout]
    exact hrc

theorem refsCovered_tail {R : List Name} {t : Tok} {rest : List Tok}
    (h : RefsCovered R (t :: rest)) : RefsCovered R rest := by
  cases h with
  | var _ _ _ _ _ _ _ _ hrest => exact hrest
  | fn _ _ _ _ _ hrest => exact hrest
  | paren _ _ _ hrest => exact hrest
  | curly _ _ _ hrest => exact hrest
  | square _ _ _ hrest => exact hrest
  | leaf _ _ _ hrest => exact hrest

theorem refsCovered_var_inv {R : List Name} {args rest : List Tok}
    (h : RefsCovered R (Tok.function "var" args :: rest)) :
    ∃ s argsRest, args.dropWhile Tok.isWs = Tok.ident s :: argsRest ∧
      hasDashDash s = true ∧ dropDashDash s ∈ R ∧
      (∀ rest2, argsRest.dropWhile Tok.isWs = Tok.comma :: rest2 → RefsCovered R rest2) := by
  cases h with
  | var _ _ s argsRest heq hdd hmem hfb hrest => exact ⟨s, argsRest, heq, hdd, hmem, hfb⟩
  | fn _ _ _ hne _ _ => exact absurd rfl hne
  | leaf _ _ hbl _ => simp [Tok.isBlockless] at hbl

theorem refsCovered_fn_args {R : List Name} {n : String} {args rest : List Tok}
    (h : RefsCovered R (Tok.function n args :: rest)) (hne : n ≠ "var") :
    RefsCovered R args := by
  cases h with
  | var _ _ _ _ _ _ _ _ _ => exact absurd rfl hne
  | fn _ _ _ _ hargs _ => exact hargs
  | leaf _ _ hbl _ => simp [Tok.isBlockless] at hbl

theorem refsCovered_paren_args {R : List Name} {args rest : List Tok}
    (h : RefsCovered R (Tok.paren args :: rest)) : RefsCovered R args := by
  cases h with
  | paren _ _ hargs _ => exact hargs
  | leaf _ _ hbl _ => simp [Tok.isBlockless] at hbl

theorem refsCovered_curly_args {R : List Name} {args rest : List Tok}
    (h : RefsCovered R (Tok.curly args :: rest)) : RefsCovered R args := by
  cases h with
  | curly _ _ hargs _ => exact hargs
  | leaf _ _ hbl _ => simp [Tok.isBlockless] at hbl

theorem refsCovered_square_args {R : List Name} {args rest : List Tok}
    (h : RefsCovered R (Tok.square args :: rest)) : RefsCovered R args := by
  cases h with
  | square _ _ hargs _ => exact hargs
  | leaf _ _ hbl _ => simp [Tok.isBlockless] at hbl

theorem substGo_pending (cp : WorkingMap) (hscan : entriesScanned cp) :
    ∀ (fuel : Nat) (call : SubstCall) (st : SubstState) (pending : List Name),
      callWire cp pending call →
      disjInv st → cycHit cp st → pendInv cp pending st →
      disjInv (substGo cp fuel call st).2 ∧
      pendInv cp pending (substGo cp fuel call st).2 ∧
      (match call with
       | .one name _ =>
           1 ≤ fuel → (substGo cp fuel call st).1 = SubstRes.err →
           name ∈ (substGo cp fuel call st).2.invalid ∧
           lookupAssoc name (substGo cp fuel call st).2.substitutedMap = none
       | _ => True) := by
  intro fuel
  induction fuel with
  | zero =>
    intro call st pending _ hdisj _ hpend
    refine ⟨hdisj, hpend, ?_⟩
    cases call with
    | one name value => intro h1; omega
    | block ts => trivial
    | varArgs ts => trivial
  | succ fuel ih =>
    intro call st pending hw hdisj hcyc hpend
    cases call with
    | one name value =>
      obtain ⟨hlkcp, hwire⟩ := hw
      cases hm : lookupAssoc name st.substitutedMap with
      | some v =>
        simp only [substGo, hm]
        refine ⟨hdisj, hpend, ?_⟩
        intro _ herr
        cases herr
      | none =>
        by_cases hinv : name ∈ st.invalid
        · have hres : substGo cp (fuel + 1) (.one name value) st = (.err, st) := by
            simp only [substGo, hm, if_pos hinv]
          rw [hres]
          exact ⟨hdisj, hpend, fun _ _ => ⟨hinv, hm⟩⟩
        · cases hrefs : value.references with
          | none =>
            simp only [substGo, hm, if_neg hinv, hrefs]
            have hnp : name ∉ pending := by
              intro hmem
              obtain ⟨vp, rp, h1, h2, _, _, _⟩ := hpend.2 name hmem
              rw [hlkcp] at h1
              have hveq : value = vp := Option.some_inj.mp h1
              rw [← hveq] at h2
              rw [hrefs] at h2
              cases h2
            refine ⟨?_, ⟨hpend.1, ?_⟩, ?_⟩
            · intro k hk
              have hne : name ≠ k := fun he => hinv (by rw [he]; exact hk)
              rw [lookup_insertAssoc_ne _ hne]
              exact hdisj k hk
            · intro q hq
              obtain ⟨vp, rp, h1, h2, h3, h4, h5⟩ := hpend.2 q hq
              refine ⟨vp, rp, h1, h2, h3, ?_, h5⟩
              have hne : name ≠ q := fun he => hnp (by rw [he]; exact hq)
              rw [lookup_insertAssoc_ne _ hne]
              exact h4
            · intro _ herr
              cases herr
          | some refs =>
            by_cases hemp : refs.isEmpty
            · simp only [substGo, hm, if_neg hinv, hrefs, if_pos hemp]
              have hrefs_nil : refs = [] := by
                cases refs with
                | nil => rfl
                | cons a l => simp [List.isEmpty] at hemp
              have hnp : name ∉ pending := by
                intro hmem
                obtain ⟨vp, rp, h1, h2, h3, _, _⟩ := hpend.2 name hmem
                rw [hlkcp] at h1
                have hveq : value = vp := Option.some_inj.mp h1
                rw [← hveq, hrefs] at h2
                have : refs = rp := Option.some_inj.mp h2
                rw [← this] at h3
                exact h3 hrefs_nil
              refine ⟨?_, ⟨hpend.1, ?_⟩, ?_⟩
              · intro k hk
                have hne : name ≠ k := fun he => hinv (by rw [he]; exact hk)
                rw [lookup_insertAssoc_ne _ hne]
                exact hdisj k hk
              · intro q hq
                obtain ⟨vp, rp, h1, h2, h3, h4, h5⟩ := hpend.2 q hq
                refine ⟨vp, rp, h1, h2, h3, ?_, h5⟩
                have hne : name ≠ q := fun he => hnp (by rw [he]; exact hq)
                rw [lookup_insertAssoc_ne _ hne]
                exact h4
              · intro _ herr
                cases herr
            · simp only [substGo, hm, if_neg hinv, hrefs, if_neg hemp]
              have hrefs_ne : refs ≠ [] := by
                intro he
                exact hemp (by rw [he]; rfl)
              have hnp : name ∉ pending := by
                intro hmem
                obtain ⟨A, B, hAB⟩ := List.append_of_mem hmem
                have hsuf : stackOk cp (name :: B) = true := by
                  have hstk := hpend.1
                  rw [hAB] at hstk
                  exact stackOk_suffix A _ hstk
                rcases hwire with hnil | ⟨p2, hp2, hedge2⟩
                · rw [hnil] at hmem
                  exact absurd hmem (List.not_mem_nil _)
                · have hlast2 : (name :: B).getLast? = some p2 := by
                    rw [← getLast?_append_cons A name B, ← hAB]
                    exact hp2
                  have hploop : loopOk cp (name :: B) = true := by
                    simp only [loopOk, Bool.and_eq_true]
                    refine ⟨hsuf, ?_⟩
                    rw [hlast2]
                    simp only [List.head?_cons]
                    exact hedge2
                  obtain ⟨c, hcseg, hcinv⟩ := hcyc (name :: B) (by simp) hploop
                  rcases List.mem_cons.mp hcseg with he | he
                  · exact hinv (he ▸ hcinv)
                  · have hcpend : c ∈ pending := by
                      rw [hAB]
                      exact List.mem_append_right _ (List.mem_cons_of_mem _ he)
                    obtain ⟨_, _, _, _, _, _, hcni⟩ := hpend.2 c hcpend
                    exact hcni hcinv
              have hlastedge : ∀ last, pending.getLast? = some last →
                  refsEdge cp last name = true := by
                intro last hl
                rcases hwire with hnil | ⟨p2, hp2, hedge2⟩
                · rw [hnil] at hl
                  cases hl
                · rw [hp2] at hl
                  injection hl with he
                  rw [← he]
                  exact hedge2
              have hwire2 : callWire cp (pending ++ [name]) (.block value.toks) :=
                ⟨name, value, List.getLast?_concat _, hlkcp,
                  refsCovered_of_entry hscan hlkcp hrefs⟩
              have hpend2 : pendInv cp (pending ++ [name]) st := by
                refine ⟨stackOk_append_singleton hpend.1 hlastedge, ?_⟩
                intro q hq
                rcases List.mem_append.mp hq with h' | h'
                · exact hpend.2 q h'
                · rcases List.mem_singleton.mp h' with rfl
                  exact ⟨value, refs, hlkcp, hrefs, hrefs_ne, hm, hinv⟩
              cases hb : substGo cp fuel (.block value.toks) st with
              | mk r1 st1 =>
                have hih := ih (.block value.toks) st (pending ++ [name])
                  hwire2 hdisj hcyc hpend2
                rw [hb] at hih
                obtain ⟨hd1, hp1, _⟩ := hih
                have hnamest1 : lookupAssoc name st1.substitutedMap = none := by
                  obtain ⟨_, _, _, _, _, h4, _⟩ := hp1.2 name
                    (List.mem_append_right _ (List.mem_singleton.mpr rfl))
                  exact h4
                cases r1 with
                | ok s =>
                  have hinv1 : st1.invalid = st.invalid := by
                    have := substGo_ok_invalid cp fuel (.block value.toks) st s (by rw [hb])
                    rw [hb] at this
                    exact this
                  refine ⟨?_, ⟨hpend.1, ?_⟩, ?_⟩
                  · intro k hk
                    have hk' : k ∈ st.invalid := by rw [← hinv1]; exact hk
                    have hne : name ≠ k := fun he => hinv (by rw [he]; exact hk')
                    rw [lookup_insertAssoc_ne _ hne]
                    exact hd1 k hk
                  · intro q hq
                    obtain ⟨vp, rp, h1, h2, h3, h4, h5⟩ := hp1.2 q (List.mem_append_left _ hq)
                    refine ⟨vp, rp, h1, h2, h3, ?_, h5⟩
                    have hne : name ≠ q := fun he => hnp (by rw [he]; exact hq)
                    rw [lookup_insertAssoc_ne _ hne]
                    exact h4
                  · intro _ herr
                    cases herr
                | err =>
                  refine ⟨?_, ⟨hpend.1, ?_⟩, ?_⟩
                  · intro k hk
                    rcases mem_of_mem_insertName hk with he | he
                    · rw [he]
                      exact hnamest1
                    · exact hd1 k he
                  · intro q hq
                    obtain ⟨vp, rp, h1, h2, h3, h4, h5⟩ := hp1.2 q (List.mem_append_left _ hq)
                    refine ⟨vp, rp, h1, h2, h3, h4, ?_⟩
                    intro hmem
                    rcases mem_of_mem_insertName hmem with he | he
                    · exact hnp (he ▸ hq)
                    · exact h5 he
                  · intro _ _
                    exact ⟨mem_insertName_self _ _, hnamest1⟩
                | panic =>
                  refine ⟨hd1, ⟨hpend.1, ?_⟩, ?_⟩
                  · intro q hq
                    obtain ⟨vp, rp, h1, h2, h3, h4, h5⟩ := hp1.2 q (List.mem_append_left _ hq)
                    exact ⟨vp, rp, h1, h2, h3, h4, h5⟩
                  · intro _ herr
                    cases herr
    | block ts =>
      obtain ⟨p, vt, hplast, hpvt, hrc⟩ := hw
      cases ts with
      | nil =>
        simp only [substGo]
        exact ⟨hdisj, hpend, trivial⟩
      | cons t rest =>
        have hwrest : callWire cp pending (.block rest) :=
          ⟨p, vt, hplast, hpvt, refsCovered_tail hrc⟩
        have seqD : ∀ (c1 : SubstCall) (f : String → String → String),
            callWire cp pending c1 →
            disjInv (match substGo cp fuel c1 st with
              | (.ok s1, st') =>
                match substGo cp fuel (.block rest) st' with
                | (.ok s2, st2) => ((SubstRes.ok (f s1 s2) : SubstRes), st2)
                | r => r
              | r => r).2 ∧
            pendInv cp pending (match substGo cp fuel c1 st with
              | (.ok s1, st') =>
                match substGo cp fuel (.block rest) st' with
                | (.ok s2, st2) => ((SubstRes.ok (f s1 s2) : SubstRes), st2)
                | r => r
              | r => r).2 := by
          intro c1 f hw1
          cases h1 : substGo cp fuel c1 st with
          | mk r1 st1 =>
            have hih1 := ih c1 st pending hw1 hdisj hcyc hpend
            rw [h1] at hih1
            obtain ⟨hd1, hp1, _⟩ := hih1
            have hsub1 : st.invalid ⊆ st1.invalid := by
              have := (substGo_invalid_stable cp fuel c1 st).1
              rw [h1] at this
              exact this
            cases r1 with
            | ok s1 =>
              cases h2 : substGo cp fuel (.block rest) st1 with
              | mk r2 st2 =>
                have hih2 := ih (.block rest) st1 pending hwrest hd1
                  (cycHit_mono hsub1 hcyc) hp1
                rw [h2] at hih2
                obtain ⟨hd2, hp2, _⟩ := hih2
                simp only [h2]
                cases r2 with
                | ok s2 => exact ⟨hd2, hp2⟩
                | err => exact ⟨hd2, hp2⟩
                | panic => exact ⟨hd2, hp2⟩
            | err => exact ⟨hd1, hp1⟩
            | panic => exact ⟨hd1, hp1⟩
        have singleD : ∀ (g : String → String),
            disjInv (match substGo cp fuel (.block rest) st with
              | (.ok s2, st2) => ((SubstRes.ok (g s2) : SubstRes), st2)
              | r => r).2 ∧
            pendInv cp pending (match substGo cp fuel (.block rest) st with
              | (.ok s2, st2) => ((SubstRes.ok (g s2) : SubstRes), st2)
              | r => r).2 := by
          intro g
          cases h2 : substGo cp fuel (.block rest) st with
          | mk r2 st2 =>
            have hih2 := ih (.block rest) st pending hwrest hdisj hcyc hpend
            rw [h2] at hih2
            obtain ⟨hd2, hp2, _⟩ := hih2
            cases r2 with
            | ok s2 => exact ⟨hd2, hp2⟩
            | err => exact ⟨hd2, hp2⟩
            | panic => exact ⟨hd2, hp2⟩
        cases t with
        | function n args =>
          by_cases hv : n = "var"
          · subst hv
            obtain ⟨s, argsRest, heq, hdd2, hmem2, hfb2⟩ := refsCovered_var_inv hrc
            have hwvar : callWire cp pending (.varArgs args) :=
              ⟨p, vt, hplast, hpvt, s, argsRest, heq, hdd2, hmem2, hfb2⟩
            simp only [substGo, if_pos rfl]
            obtain ⟨hd, hp'⟩ := seqD (.varArgs args) (fun s1 s2 => s1 ++ s2) hwvar
            exact ⟨hd, hp', trivial⟩
          · simp only [substGo, if_neg hv]
            have hwargs : callWire cp pending (.block args) :=
              ⟨p, vt, hplast, hpvt, refsCovered_fn_args hrc hv⟩
            obtain ⟨hd, hp'⟩ := seqD (.block args)
              (fun s1 s2 => n ++ "(" ++ s1 ++ ")" ++ s2) hwargs
            exact ⟨hd, hp', trivial⟩
        | paren args =>
          simp only [substGo]
          have hwargs : callWire cp pending (.block args) :=
            ⟨p, vt, hplast, hpvt, refsCovered_paren_args hrc⟩
          obtain ⟨hd, hp'⟩ := seqD (.block args)
            (fun s1 s2 => "(" ++ s1 ++ ")" ++ s2) hwargs
          exact ⟨hd, hp', trivial⟩
        | curly args =>
          simp only [substGo]
          have hwargs : callWire cp pending (.block args) :=
            ⟨p, vt, hplast, hpvt, refsCovered_curly_args hrc⟩
          obtain ⟨hd, hp'⟩ := seqD (.block args)
            (fun s1 s2 => "\x7b" ++ s1 ++ "\x7d" ++ s2) hwargs
          exact ⟨hd, hp', trivial⟩
        | square args =>
          simp only [substGo]
          have hwargs : callWire cp pending (.block args) :=
            ⟨p, vt, hplast, hpvt, refsCovered_square_args hrc⟩
          obtain ⟨hd, hp'⟩ := seqD (.block args)
            (fun s1 s2 => "[" ++ s1 ++ "]" ++ s2) hwargs
          exact ⟨hd, hp', trivial⟩
        | ident s =>
          simp only [substGo]
          obtain ⟨hd, hp'⟩ := singleD _
          exact ⟨hd, hp', trivial⟩
        | comma =>
          simp only [substGo]
          obtain ⟨hd, hp'⟩ := singleD _
          exact ⟨hd, hp', trivial⟩
        | semicolon =>
          simp only [substGo]
          obtain ⟨hd, hp'⟩ := singleD _
          exact ⟨hd, hp', trivial⟩
        | delim c =>
          simp only [substGo]
          obtain ⟨hd, hp'⟩ := singleD _
          exact ⟨hd, hp', trivial⟩
        | badUrl s =>
          simp only [substGo]
          obtain ⟨hd, hp'⟩ := singleD _
          exact ⟨hd, hp', trivial⟩
        | badString s =>
          simp only [substGo]
          obtain ⟨hd, hp'⟩ := singleD _
          exact ⟨hd, hp', trivial⟩
        | closeParen =>
          simp only [substGo]
          obtain ⟨hd, hp'⟩ := singleD _
          exact ⟨hd, hp', trivial⟩
        | closeSquare =>
          simp only [substGo]
          obtain ⟨hd, hp'⟩ := singleD _
          exact ⟨hd, hp', trivial⟩
        | closeCurly =>
          simp only [substGo]
          obtain ⟨hd, hp'⟩ := singleD _
          exact ⟨hd, hp', trivial⟩
        | ws s =>
          simp only [substGo]
          obtain ⟨hd, hp'⟩ := singleD _
          exact ⟨hd, hp', trivial⟩
        | other s =>
          simp only [substGo]
          obtain ⟨hd, hp'⟩ := singleD _
          exact ⟨hd, hp', trivial⟩
    | varArgs ts =>
      obtain ⟨p, vt, hplast, hpvt, s, argsRest, heqdrop, hdd, hmemref, hfbrc⟩ := hw
      simp only [substGo, heqdrop]
      rw [if_pos hdd]
      cases hlkn : lookupAssoc (dropDashDash s) cp with
      | some value =>
        simp only [hlkn]
        have hedge : refsEdge cp p (dropDashDash s) = true := by
          simp only [refsEdge, hpvt]
          exact decide_eq_true hmemref
        have hwone : callWire cp pending (.one (dropDashDash s) value) :=
          ⟨hlkn, Or.inr ⟨p, hplast, hedge⟩⟩
        have hih := ih (.one (dropDashDash s) value) st pending hwone hdisj hcyc hpend
        exact ⟨hih.1, hih.2.1, trivial⟩
      | none =>
        simp only [hlkn]
        cases hc2 : argsRest.dropWhile Tok.isWs with
        | nil =>
          simp only [hc2]
          exact ⟨hdisj, hpend, trivial⟩
        | cons hd2 tl2 =>
          cases hd2 with
          | comma =>
            have hwblk : callWire cp pending (.block tl2) :=
              ⟨p, vt, hplast, hpvt, hfbrc tl2 hc2⟩
            have hih := ih (.block tl2) st pending hwblk hdisj hcyc hpend
            exact ⟨hih.1, hih.2.1, trivial⟩
          | function n args => exact ⟨hdisj, hpend, trivial⟩
          | paren args => exact ⟨hdisj, hpend, trivial⟩
          | curly args => exact ⟨hdisj, hpend, trivial⟩
          | square args => exact ⟨hdisj, hpend, trivial⟩
          | ident s2 => exact ⟨hdisj, hpend, trivial⟩
          | semicolon => exact ⟨hdisj, hpend, trivial⟩
          | delim c => exact ⟨hdisj, hpend, trivial⟩
          | badUrl s2 => exact ⟨hdisj, hpend, trivial⟩
          | badString s2 => exact ⟨hdisj, hpend, trivial⟩
          | closeParen => exact ⟨hdisj, hpend, trivial⟩
          | closeSquare => exact ⟨hdisj, hpend, trivial⟩
          | closeCurly => exact ⟨hdisj, hpend, trivial⟩
          | ws s2 => exact ⟨hdisj, hpend, trivial⟩
          | other s2 => exact ⟨hdisj, hpend, trivial⟩

theorem lookup_of_mem_nodup {α : Type} {k : Name} {v : α} :
    ∀ {m : List (Name × α)}, (keysOf m).Nodup → (k, v) ∈ m → lookupAssoc k m = some v := by
  intro m
  induction m with
  | nil => intro _ h; cases h
  | cons kv rest ih =>
    intro hnd hmem
    obtain ⟨k1, v1⟩ := kv
    have hnd' : (keysOf ((k1, v1) :: rest)).Nodup := hnd
    simp only [keysOf, List.map_cons] at hnd'
    rcases List.mem_cons.mp hmem with he | he
    · injection he with he1 he2
      subst he1
      subst he2
      simp [lookupAssoc]
    · have hk : k ∈ keysOf rest := List.mem_map_of_mem Prod.fst he
      have hne : k1 ≠ k := by
        intro h
        have hnm := (List.nodup_cons.mp hnd').1
        rw [h] at hnm
        exact hnm hk
      simp only [lookupAssoc, if_neg hne]
      exact ih (List.nodup_cons.mp hnd').2 he

/-- Claim C9: throughout a finishing pass over a materialized working map
(duplicate-free keys, reference sets recorded by the scanner), no name is
ever both in the invalid set and a key of the substituted map.  First
conjunct: after any prefix of the pass (and so at its end,
`finishState`), every invalid name has no memoized entry.  Second
conjunct: a name present in the invalid set at any point never gains or
loses an entry across any substitution call.  Third conjunct: a run of
`substitute_one` for a map entry that fails adds the name to the invalid
set and leaves it unmemoized, from any state that is disjoint and whose
invalid set hits every reference loop (what `find_cycles` establishes and
the pass preserves). -/
theorem finish_invalid_never_memoized (cp : WorkingMap)
    (hnd : (keysOf cp).Nodup) (hscan : entriesScanned cp) :
    (∀ l1 l2, cp = l1 ++ l2 →
      ∀ k, k ∈ (l1.foldl (fun st kv => (substGo cp (substFuel cp) (.one kv.1 kv.2) st).2)
          { substitutedMap := [], invalid := findCycles cp } : SubstState).invalid →
        lookupAssoc k (l1.foldl (fun st kv => (substGo cp (substFuel cp) (.one kv.1 kv.2) st).2)
          { substitutedMap := [], invalid := findCycles cp } : SubstState).substitutedMap =
          none) ∧
    (∀ (fuel : Nat) (call : SubstCall) (st : SubstState) (n : Name),
      n ∈ st.invalid →
      lookupAssoc n (substGo cp fuel call st).2.substitutedMap =
        lookupAssoc n st.substitutedMap) ∧
    (∀ (fuel : Nat) (st : SubstState) (name : Name) (value : BorrowedValue),
      disjInv st → cycHit cp st →
      lookupAssoc name cp = some value →
      (substituteOne (fuel + 1) name value cp st).1 = SubstRes.err →
      name ∈ (substituteOne (fuel + 1) name value cp st).2.invalid ∧
      lookupAssoc name (substituteOne (fuel + 1) name value cp st).2.substitutedMap = none) := by
  have hgen : ∀ (l : List (Name × BorrowedValue)) (st : SubstState),
      (∀ kv ∈ l, kv ∈ cp) → disjInv st → cycHit cp st →
      disjInv (l.foldl (fun st kv => (substGo cp (substFuel cp) (.one kv.1 kv.2) st).2) st) := by
    intro l
    induction l with
    | nil => intro st _ hd _; exact hd
    | cons kv rest ihl =>
      intro st hmem hd hcy
      have hw : callWire cp [] (.one kv.1 kv.2) :=
        ⟨lookup_of_mem_nodup hnd (hmem kv (List.mem_cons_self _ _)), Or.inl rfl⟩
      have hpe : pendInv cp [] st := ⟨rfl, fun p hp => absurd hp (List.not_mem_nil p)⟩
      have hstep := substGo_pending cp hscan (substFuel cp) (.one kv.1 kv.2) st [] hw hd hcy hpe
      have hsub : st.invalid ⊆ (substGo cp (substFuel cp) (.one kv.1 kv.2) st).2.invalid :=
        (substGo_invalid_stable cp (substFuel cp) (.one kv.1 kv.2) st).1
      exact ihl _ (fun kv' h => hmem kv' (List.mem_cons_of_mem _ h)) hstep.1
        (cycHit_mono hsub hcy)
  refine ⟨?_, ?_, ?_⟩
  · intro l1 l2 heq k hk
    have hd0 : disjInv { substitutedMap := [], invalid := findCycles cp } := fun k _ => rfl
    have hc0 : cycHit cp { substitutedMap := [], invalid := findCycles cp } := by
      intro seg hne hl
      exact findCycles_complete cp seg hne hl
    have hmem1 : ∀ kv ∈ l1, kv ∈ cp := by
      intro kv h
      rw [heq]
      exact List.mem_append_left _ h
    exact hgen l1 _ hmem1 hd0 hc0 k hk
  · intro fuel call st n hn
    exact (substGo_invalid_stable cp fuel call st).2 n hn
  · intro fuel st name value hd hcy hlk herr
    have hpe : pendInv cp [] st := ⟨rfl, fun p hp => absurd hp (List.not_mem_nil p)⟩
    have hstep := substGo_pending cp hscan (fuel + 1) (.one name value) st []
      ⟨hlk, Or.inl rfl⟩ hd hcy hpe
    exact hstep.2.2 (by omega) herr

/-- Witness for C9 at a concrete pass: in the map with the cycle
`a ↔ b` and a plain entry `ok`, the finished state has `a` invalid with
no memoized entry (and the full pass keeps the two sets disjoint). -/
theorem finish_invalid_never_memoized_witness :
    "a" ∈ (finishState c9Map).invalid ∧
    lookupAssoc "a" (finishState c9Map).substitutedMap = none := by
  have hscan9 : entriesScanned c9Map := by
    intro kv hkv rs hrs
    rcases List.mem_cons.mp hkv with he | hkv
    · subst he
      have hrs' : rs = ["b"] := by
        have := Option.some_inj.mp hrs
        rw [← this]
      rw [hrs']
      exact ⟨⟨cycToksA, "var(--b)", ["b"]⟩, rfl, rfl⟩
    rcases List.mem_cons.mp hkv with he | hkv
    · subst he
      have hrs' : rs = ["a"] := by
        have := Option.some_inj.mp hrs
        rw [← this]
      rw [hrs']
      exact ⟨⟨cycToksB, "var(--a)", ["a"]⟩, rfl, rfl⟩
    rcases List.mem_cons.mp hkv with he | hkv
    · subst he
      have hrs' : rs = [] := by
        have := Option.some_inj.mp hrs
        rw [← this]
      rw [hrs']
      exact ⟨⟨[Tok.other "1px"], "1px", []⟩, rfl, rfl⟩
    · cases hkv
  have h := finish_invalid_never_memoized c9Map (by decide) hscan9
  have hmem : "a" ∈ (finishState c9Map).invalid := by decide
  exact ⟨hmem, h.1 c9Map [] (by simp) "a" hmem⟩
